import Mathlib

set_option maxHeartbeats 1000000
set_option maxRecDepth 8000
set_option linter.unusedVariables false

/-!
Shallow embedding of a small Scheme interpreter (Rust sources:
src/main.rs, src/primitive.rs, src/parser.rs, src/lexer.rs) and proofs
about it.

Modelling conventions, fixed once for the whole file:
* Machine integers `i64` are modelled as `Int`; the wrapping behaviour of
  release-mode Rust addition/subtraction/multiplication is made explicit
  with `wrap64`.  Division mirrors Rust's truncating `Int.div`.
* The `slab::Slab` arena is modelled as `List (Option CCell)`; a key is an
  index.  The slab crate may reuse freed slots; keys are opaque to the
  interpreter, so we model the allocator as monotone: a fresh cell is
  appended at index `cells.length`.  Every live key is `< cells.length`
  and stays stable, exactly as slab guarantees.
* Fallible Rust code returning `SResult` is modelled with `Res`;
  `Res.bug` stands for an `unwrap` panic on an invalid key (a program bug
  in the source), `Res.oof` means the modelling fuel ran out.  Every loop
  of the source takes an explicit fuel argument.
* Rust `&mut Heap` methods become state-passing functions returning
  `Res α × Heap`; read-only methods return plain `Res α`.
* Strings are modelled as `List Char` to keep lexer-level reasoning
  elementary.  Rust's `to_ascii_uppercase` is `Char.toUpper` (both only
  touch ASCII letters).
-/

namespace Scheme

/-- Error kinds, mirroring `enum SError` in src/main.rs. -/
inductive SErr where
  | ImproperLambda
  | ImproperList
  | ImproperSymbol
  | ImproperEnvironment
  | NotCallable
  | TypeError
  | UnboundSymbol
  | WrongNumberOfArgs
deriving DecidableEq

/-- Values, mirroring `enum Expr` in src/main.rs.  A `Symbol` carries its
interned name (Rust compares `Rc<str>` contents); a `Primitive` carries the
primitive's name, which determines its native function. -/
inductive Expr where
  | Nil : Expr
  | Boolean (b : Bool) : Expr
  | Integer (n : Int) : Expr
  | Symbol (s : List Char) : Expr
  | Pair (k : Nat) : Expr
  | Closure (k : Nat) : Expr
  | Primitive (name : List Char) : Expr
deriving DecidableEq

/-- A cons cell `(first, rest, mark)`, mirroring `type ConsCell`. -/
abbrev CCell := Expr × Expr × Bool

/-- The heap, mirroring `struct Heap` in src/main.rs. -/
structure Heap where
  symbols : Expr
  root_env : Expr
  cells : List (Option CCell)
deriving DecidableEq

/-- Outcome of a fallible interpreter step.  `ok`/`err` mirror
`Result` in the source; `bug` models an `unwrap` panic on an invalid cell
key; `oof` means the fuel of the shallow embedding ran out. -/
inductive Res (α : Type) where
  | ok (a : α)
  | err (e : SErr)
  | oof
  | bug
deriving DecidableEq

/-- Sequencing of fallible steps (the `?` operator of the source). -/
def rbind {α β : Type} (x : Res α) (f : α → Res β) : Res β :=
  match x with
  | .ok a => f a
  | .err e => .err e
  | .oof => .oof
  | .bug => .bug

@[simp] theorem rbind_ok {α β : Type} (a : α) (f : α → Res β) :
    rbind (.ok a) f = f a := rfl

@[simp] theorem rbind_err {α β : Type} (e : SErr) (f : α → Res β) :
    rbind (.err e) f = .err e := rfl

@[simp] theorem rbind_oof {α β : Type} (f : α → Res β) :
    rbind (.oof : Res α) f = .oof := rfl

@[simp] theorem rbind_bug {α β : Type} (f : α → Res β) :
    rbind (.bug : Res α) f = .bug := rfl

namespace Expr

/-- Mirrors `Expr::is_nil`. -/
def is_nil : Expr → Bool
  | .Nil => true
  | _ => false

/-- Mirrors `Expr::is_pair`. -/
def is_pair : Expr → Bool
  | .Pair _ => true
  | _ => false

/-- Mirrors `Expr::is_symbol`. -/
def is_symbol : Expr → Bool
  | .Symbol _ => true
  | _ => false

/-- Mirrors `Expr::is_truthy`: `#f` is false, everything else including
`0` and `()` is true. -/
def is_truthy : Expr → Bool
  | .Boolean false => false
  | _ => true

/-- Mirrors `Expr::is_specific_symbol`. -/
def is_specific_symbol (e : Expr) (s : List Char) : Bool :=
  match e with
  | .Symbol sym => sym = s
  | _ => false

end Expr

@[simp] theorem is_nil_Nil : Expr.Nil.is_nil = true := rfl
@[simp] theorem is_nil_Boolean (b : Bool) : (Expr.Boolean b).is_nil = false := rfl
@[simp] theorem is_nil_Integer (n : Int) : (Expr.Integer n).is_nil = false := rfl
@[simp] theorem is_nil_Symbol (s : List Char) : (Expr.Symbol s).is_nil = false := rfl
@[simp] theorem is_nil_Pair (k : Nat) : (Expr.Pair k).is_nil = false := rfl
@[simp] theorem is_nil_Closure (k : Nat) : (Expr.Closure k).is_nil = false := rfl
@[simp] theorem is_nil_Primitive (d : List Char) : (Expr.Primitive d).is_nil = false := rfl

@[simp] theorem is_pair_Nil : Expr.Nil.is_pair = false := rfl
@[simp] theorem is_pair_Boolean (b : Bool) : (Expr.Boolean b).is_pair = false := rfl
@[simp] theorem is_pair_Integer (n : Int) : (Expr.Integer n).is_pair = false := rfl
@[simp] theorem is_pair_Symbol (s : List Char) : (Expr.Symbol s).is_pair = false := rfl
@[simp] theorem is_pair_Pair (k : Nat) : (Expr.Pair k).is_pair = true := rfl
@[simp] theorem is_pair_Closure (k : Nat) : (Expr.Closure k).is_pair = false := rfl
@[simp] theorem is_pair_Primitive (d : List Char) : (Expr.Primitive d).is_pair = false := rfl

@[simp] theorem is_symbol_Symbol (s : List Char) : (Expr.Symbol s).is_symbol = true := rfl

/-- ASCII upper-casing of a name, mirroring `str::to_ascii_uppercase`
(Lean's `Char.toUpper` also maps only ASCII `a`-`z`). -/
def upperChars (s : List Char) : List Char := s.map Char.toUpper

/-- Cell lookup by key; `none` when the key is dead or out of range. -/
def cellAt (cs : List (Option CCell)) (k : Nat) : Option CCell :=
  (cs.getD k none)

/-- Mirrors `Heap::get_first_rest`, reading from a cell list. -/
def getFR (cs : List (Option CCell)) (e : Expr) : Res (Expr × Expr) :=
  match e with
  | .Pair k =>
    match cellAt cs k with
    | some c => .ok (c.1, c.2.1)
    | none => .bug
  | _ => .err .ImproperList

/-- Mirrors `Heap::get_first_rest`. -/
def get_first_rest (h : Heap) (e : Expr) : Res (Expr × Expr) :=
  getFR h.cells e

/-- Mirrors `Heap::get_first`. -/
def get_first (h : Heap) (e : Expr) : Res Expr :=
  match e with
  | .Pair k =>
    match cellAt h.cells k with
    | some c => .ok c.1
    | none => .bug
  | _ => .err .ImproperList

/-- Mirrors `Heap::get_rest`. -/
def get_rest (h : Heap) (e : Expr) : Res Expr :=
  match e with
  | .Pair k =>
    match cellAt h.cells k with
    | some c => .ok c.2.1
    | none => .bug
  | _ => .err .ImproperList

/-- Mirrors `Heap::set_first`. -/
def set_first (h : Heap) (e : Expr) (v : Expr) : Res Unit × Heap :=
  match e with
  | .Pair k =>
    match cellAt h.cells k with
    | some c => (.ok (), { h with cells := h.cells.set k (some (v, c.2.1, c.2.2)) })
    | none => (.bug, h)
  | _ => (.err .ImproperList, h)

/-- Mirrors `Heap::set_rest`. -/
def set_rest (h : Heap) (e : Expr) (v : Expr) : Res Unit × Heap :=
  match e with
  | .Pair k =>
    match cellAt h.cells k with
    | some c => (.ok (), { h with cells := h.cells.set k (some (c.1, v, c.2.2)) })
    | none => (.bug, h)
  | _ => (.err .ImproperList, h)

/-- Mirrors `Heap::get_lambda_env`. -/
def get_lambda_env (h : Heap) (e : Expr) : Res Expr :=
  match e with
  | .Closure k =>
    match cellAt h.cells k with
    | some c => .ok c.1
    | none => .bug
  | _ => .err .ImproperLambda

/-- Mirrors `Heap::get_lambda_args`: the `first` of the closure cell's
`rest`. -/
def get_lambda_args (h : Heap) (e : Expr) : Res Expr :=
  match e with
  | .Closure k =>
    match cellAt h.cells k with
    | some c => get_first h c.2.1
    | none => .bug
  | _ => .err .ImproperLambda

/-- Mirrors `Heap::get_lambda_body`: the `rest` of the closure cell's
`rest`. -/
def get_lambda_body (h : Heap) (e : Expr) : Res Expr :=
  match e with
  | .Closure k =>
    match cellAt h.cells k with
    | some c => get_rest h c.2.1
    | none => .bug
  | _ => .err .ImproperLambda

/-- Mirrors `Heap::make_cons` (always succeeds in the source; the fresh
key is the next index of the monotone arena model). -/
def make_cons (h : Heap) (f r : Expr) : Expr × Heap :=
  (.Pair h.cells.length, { h with cells := h.cells ++ [some (f, r, false)] })

/-- Mirrors `Heap::test_length`: a proper-list prefix test, true exactly
when the walk hits `Nil` with the counter at zero. -/
def test_length (h : Heap) : Expr → Nat → Res Bool
  | e, n =>
    if e.is_nil then .ok (n == 0)
    else
      match n with
      | 0 => .ok false
      | n' + 1 => rbind (get_rest h e) fun r => test_length h r n'

/-- Mirrors `Heap::is_proper_list` (fuelled: the source recursion can
diverge on cyclic heaps). -/
def is_proper_list (h : Heap) : Nat → Expr → Res Bool
  | 0, _ => .oof
  | fuel + 1, e =>
    if e.is_nil then .ok true
    else if !e.is_pair then .ok false
    else rbind (get_rest h e) fun r => is_proper_list h fuel r

/-- Walk of the interned-symbol list inside `Heap::make_symbol`: returns
the already-interned symbol with the given (upper-cased) name, if any. -/
def symLoop (h : Heap) (nm : List Char) : Nat → Expr → Res (Option Expr)
  | 0, _ => .oof
  | fuel + 1, s =>
    if s.is_nil then .ok none
    else
      rbind (get_first_rest h s) fun fr =>
        match fr.1 with
        | .Symbol r => if r = nm then .ok (some (.Symbol r)) else symLoop h nm fuel fr.2
        | _ => symLoop h nm fuel fr.2

/-- Mirrors `Heap::make_symbol`: upper-case the name, return the interned
symbol if present, otherwise prepend a fresh one to the symbol list. -/
def make_symbol (fuel : Nat) (h : Heap) (name : List Char) : Res Expr × Heap :=
  let nm := upperChars name
  match symLoop h nm fuel h.symbols with
  | .ok (some s) => (.ok s, h)
  | .ok none =>
    let (p, h') := make_cons h (.Symbol nm) h.symbols
    (.ok (.Symbol nm), { h' with symbols := p })
  | .err e => (.err e, h)
  | .oof => (.oof, h)
  | .bug => (.bug, h)

/-- Parameter-list validation loop inside `Heap::make_closure`. -/
def paramCheck (h : Heap) : Nat → Expr → Res Unit
  | 0, _ => .oof
  | fuel + 1, v =>
    if v.is_nil then .ok ()
    else
      rbind (get_first h v) fun x =>
        if !x.is_symbol then .err .ImproperSymbol
        else rbind (get_rest h v) fun r => paramCheck h fuel r

/-- Mirrors `Heap::make_closure`: validate the parameter list, then build
`(env . (arg_list . body))` and tag the outer cell as a closure. -/
def make_closure (fuel : Nat) (h : Heap) (env arg_list body : Expr) :
    Res Expr × Heap :=
  match paramCheck h fuel arg_list with
  | .ok _ =>
    let (tail, h1) := make_cons h arg_list body
    let (outer, h2) := make_cons h1 env tail
    match outer with
    | .Pair k => (.ok (.Closure k), h2)
    | _ => (.bug, h2)
  | .err e => (.err e, h)
  | .oof => (.oof, h)
  | .bug => (.bug, h)

/-- Mirrors `Heap::make_env`: a frame is `(parent . Nil)`. -/
def make_env (h : Heap) (parent : Expr) : Expr × Heap :=
  make_cons h parent .Nil

/-- Bindings-alist scan inside `Heap::env_get`: first match wins,
non-pair entries are skipped. -/
def envScan (h : Heap) (name : Expr) : Nat → Expr → Res (Option Expr)
  | 0, _ => .oof
  | fuel + 1, e =>
    if e.is_nil then .ok none
    else
      rbind (get_first_rest h e) fun fr =>
        if fr.1.is_pair then
          rbind (get_first_rest h fr.1) fun kv =>
            if kv.1 = name then rbind (get_rest h fr.1) fun v => .ok (some v)
            else envScan h name fuel fr.2
        else envScan h name fuel fr.2

/-- Mirrors `Heap::env_get`: scan the frame's bindings, then recurse into
the parent. -/
def env_get (h : Heap) : Nat → Expr → Expr → Res Expr
  | 0, _, _ => .oof
  | fuel + 1, env, name =>
    if !env.is_pair then .err .ImproperEnvironment
    else
      rbind (get_first_rest h env) fun pb =>
        match name with
        | .Symbol _ =>
          rbind (envScan h name (fuel + 1) pb.2) fun found =>
            match found with
            | some v => .ok v
            | none =>
              if pb.1.is_nil then .err .UnboundSymbol
              else if pb.1.is_pair then env_get h fuel pb.1 name
              else .err .ImproperEnvironment
        | _ => .err .ImproperSymbol

/-- Bindings-alist scan inside `Heap::env_set`: on a match, overwrite the
binding pair's `rest` in place and report `true`. -/
def envSetScan (name val : Expr) : Nat → Heap → Expr → Res Bool × Heap
  | 0, h, _ => (.oof, h)
  | fuel + 1, h, e =>
    if e.is_nil then (.ok false, h)
    else
      match get_first_rest h e with
      | .ok (first, rest) =>
        if first.is_pair then
          match get_first_rest h first with
          | .ok (key, _) =>
            if key = name then
              match set_rest h first val with
              | (.ok _, h') => (.ok true, h')
              | (.err er, h') => (.err er, h')
              | (.oof, h') => (.oof, h')
              | (.bug, h') => (.bug, h')
            else envSetScan name val fuel h rest
          | .err er => (.err er, h)
          | .oof => (.oof, h)
          | .bug => (.bug, h)
        else envSetScan name val fuel h rest
      | .err er => (.err er, h)
      | .oof => (.oof, h)
      | .bug => (.bug, h)

/-- Mirrors `Heap::env_set`: replace an existing binding of the current
frame in place, otherwise prepend a fresh `(name . val)` pair to the
frame's bindings list. -/
def env_set (fuel : Nat) (h : Heap) (env name val : Expr) : Res Unit × Heap :=
  if !env.is_pair then (.err .ImproperEnvironment, h)
  else
    match get_first_rest h env with
    | .ok (_, bindings) =>
      match name with
      | .Symbol _ =>
        match envSetScan name val fuel h bindings with
        | (.ok true, h') => (.ok (), h')
        | (.ok false, h') =>
          let (np, h1) := make_cons h' name val
          let (nb, h2) := make_cons h1 np bindings
          set_rest h2 env nb
        | (.err er, h') => (.err er, h')
        | (.oof, h') => (.oof, h')
        | (.bug, h') => (.bug, h')
      | _ => (.err .ImproperSymbol, h)
    | .err er => (.err er, h)
    | .oof => (.oof, h)
    | .bug => (.bug, h)

/-- Wrapping to the signed 64-bit range, making release-mode Rust integer
overflow explicit. -/
def wrap64 (x : Int) : Int := (x + 2 ^ 63) % 2 ^ 64 - 2 ^ 63

/-- Mirrors `validate_arg_count` in src/primitive.rs. -/
def validate_arg_count (h : Heap) (args : Expr) (n : Nat) : Res Unit :=
  rbind (test_length h args n) fun b =>
    if !b then .err .WrongNumberOfArgs else .ok ()

/-- Mirrors the primitive `first` in src/primitive.rs. -/
def prim_first (h : Heap) (args : Expr) : Res Expr :=
  rbind (validate_arg_count h args 1) fun _ =>
    rbind (get_first h args) fun arg => get_first h arg

/-- Mirrors the primitive `rest` in src/primitive.rs. -/
def prim_rest (h : Heap) (args : Expr) : Res Expr :=
  rbind (validate_arg_count h args 1) fun _ =>
    rbind (get_first h args) fun arg => get_rest h arg

/-- Mirrors the primitive `list_p` in src/primitive.rs. -/
def prim_list_p (fuel : Nat) (h : Heap) (args : Expr) : Res Expr :=
  rbind (validate_arg_count h args 1) fun _ =>
    rbind (get_first h args) fun arg =>
      rbind (is_proper_list h fuel arg) fun b => .ok (.Boolean b)

/-- Mirrors the primitive `cons` in src/primitive.rs. -/
def prim_cons (h : Heap) (args : Expr) : Res Expr × Heap :=
  match validate_arg_count h args 2 with
  | .ok _ =>
    match get_first h args with
    | .ok arg1 =>
      match rbind (get_rest h args) fun r => get_first h r with
      | .ok arg2 =>
        let (p, h') := make_cons h arg1 arg2
        (.ok p, h')
      | .err e => (.err e, h)
      | .oof => (.oof, h)
      | .bug => (.bug, h)
    | .err e => (.err e, h)
    | .oof => (.oof, h)
    | .bug => (.bug, h)
  | .err e => (.err e, h)
  | .oof => (.oof, h)
  | .bug => (.bug, h)

/-- Mirrors `as_integer` in src/primitive.rs. -/
def as_integer : Expr → Res Int
  | .Integer n => .ok n
  | _ => .err .TypeError

/-- The fold loop of `do_arithmetic` over the second and later operands. -/
def arithLoop (h : Heap) (bop : Int → Int → Int) : Nat → Int → Expr → Res Int
  | 0, _, _ => .oof
  | fuel + 1, acc, v =>
    if v.is_nil then .ok acc
    else
      rbind (get_first h v) fun x =>
        rbind (as_integer x) fun n =>
          rbind (get_rest h v) fun r => arithLoop h bop fuel (bop acc n) r

/-- Mirrors `do_arithmetic` in src/primitive.rs. -/
def do_arithmetic (fuel : Nat) (h : Heap) (args : Expr) (identity : Int)
    (bop : Int → Int → Int) : Res Expr :=
  if args.is_nil then .err .WrongNumberOfArgs
  else
    rbind (get_rest h args) fun r0 =>
      if r0.is_nil then
        rbind (get_first h args) fun x =>
          rbind (as_integer x) fun n => .ok (.Integer (bop identity n))
      else
        rbind (get_first h args) fun x =>
          rbind (as_integer x) fun n =>
            rbind (get_rest h args) fun v =>
              rbind (arithLoop h bop fuel n v) fun m => .ok (.Integer m)

/-- Mirrors `do_plus` (release-mode wrapping addition). -/
def do_plus (fuel : Nat) (h : Heap) (args : Expr) : Res Expr :=
  do_arithmetic fuel h args 0 fun a b => wrap64 (a + b)

/-- Mirrors `do_minus`. -/
def do_minus (fuel : Nat) (h : Heap) (args : Expr) : Res Expr :=
  do_arithmetic fuel h args 0 fun a b => wrap64 (a - b)

/-- Mirrors `do_times`. -/
def do_times (fuel : Nat) (h : Heap) (args : Expr) : Res Expr :=
  do_arithmetic fuel h args 1 fun a b => wrap64 (a * b)

/-- Mirrors `do_divide`; Rust division truncates toward zero, which is
`Int.tdiv`.  Division by zero panics in Rust (undefined in the spec); the
total model returns the Lean default `Int.tdiv a 0 = 0` there. -/
def do_divide (fuel : Nat) (h : Heap) (args : Expr) : Res Expr :=
  do_arithmetic fuel h args 1 fun a b => Int.tdiv a b

/-- Mirrors `do_predicate` in src/primitive.rs. -/
def do_predicate (h : Heap) (args : Expr) (pred : Int → Int → Bool) : Res Expr :=
  rbind (validate_arg_count h args 2) fun _ =>
    rbind (rbind (get_first h args) as_integer) fun arg1 =>
      rbind (rbind (rbind (get_rest h args) fun r => get_first h r) as_integer) fun arg2 =>
        .ok (.Boolean (pred arg1 arg2))

/-- Dispatch of a named primitive, mirroring the registry built by
`add_primitives` in src/primitive.rs. -/
def primApply (fuel : Nat) (name : List Char) (h : Heap) (args : Expr) :
    Res Expr × Heap :=
  if name = "first".toList then (prim_first h args, h)
  else if name = "rest".toList then (prim_rest h args, h)
  else if name = "list?".toList then (prim_list_p fuel h args, h)
  else if name = "cons".toList then prim_cons h args
  else if name = "+".toList then (do_plus fuel h args, h)
  else if name = "-".toList then (do_minus fuel h args, h)
  else if name = "*".toList then (do_times fuel h args, h)
  else if name = "/".toList then (do_divide fuel h args, h)
  else if name = "=".toList then (do_predicate h args fun a b => a = b, h)
  else if name = "<".toList then (do_predicate h args fun a b => a < b, h)
  else if name = "<=".toList then (do_predicate h args fun a b => a ≤ b, h)
  else if name = ">".toList then (do_predicate h args fun a b => b < a, h)
  else if name = ">=".toList then (do_predicate h args fun a b => b ≤ a, h)
  else (.bug, h)

/-- The parameter-binding loop of `Heap::apply`, including the trailing
argument-count check. -/
def bindLoop (fuel : Nat) : Nat → Heap → Expr → Expr → Expr → Res Unit × Heap
  | 0, h, _, _, _ => (.oof, h)
  | n + 1, h, env, ps, vs =>
    if ps.is_nil then
      if !vs.is_nil then (.err .WrongNumberOfArgs, h) else (.ok (), h)
    else if vs.is_nil then (.err .WrongNumberOfArgs, h)
    else
      match get_first h ps with
      | .ok param =>
        match get_first h vs with
        | .ok arg =>
          match env_set fuel h env param arg with
          | (.ok _, h1) =>
            match get_rest h1 ps with
            | .ok ps' =>
              match get_rest h1 vs with
              | .ok vs' => bindLoop fuel n h1 env ps' vs'
              | .err e => (.err e, h1)
              | .oof => (.oof, h1)
              | .bug => (.bug, h1)
            | .err e => (.err e, h1)
            | .oof => (.oof, h1)
            | .bug => (.bug, h1)
          | (.err e, h1) => (.err e, h1)
          | (.oof, h1) => (.oof, h1)
          | (.bug, h1) => (.bug, h1)
        | .err e => (.err e, h)
        | .oof => (.oof, h)
        | .bug => (.bug, h)
      | .err e => (.err e, h)
      | .oof => (.oof, h)
      | .bug => (.bug, h)

mutual

/-- Mirrors `Heap::eval_in`: self-evaluating atoms, symbol lookup, the
special forms QUOTE, DEFINE, IF, LAMBDA, and application. -/
def evalIn : Nat → Heap → Expr → Expr → Res Expr × Heap
  | 0, h, _, _ => (.oof, h)
  | fuel + 1, h, env, e =>
    match e with
    | .Nil | .Boolean _ | .Integer _ | .Closure _ | .Primitive _ => (.ok e, h)
    | .Symbol _ => (env_get h (fuel + 1) env e, h)
    | .Pair _ =>
      match get_first_rest h e with
      | .ok (first, rest) =>
        if first.is_specific_symbol "QUOTE".toList then
          match test_length h rest 1 with
          | .ok true => (get_first h rest, h)
          | .ok false => (.err .WrongNumberOfArgs, h)
          | .err er => (.err er, h)
          | .oof => (.oof, h)
          | .bug => (.bug, h)
        else if first.is_specific_symbol "DEFINE".toList then
          match test_length h rest 2 with
          | .ok true =>
            match get_first h rest with
            | .ok sym =>
              match rbind (get_rest h rest) fun r => get_first h r with
              | .ok rexpr =>
                if !sym.is_symbol then (.err .ImproperSymbol, h)
                else
                  match evalIn fuel h env rexpr with
                  | (.ok val, h1) =>
                    match env_set (fuel + 1) h1 env sym val with
                    | (.ok _, h2) => (.ok sym, h2)
                    | (.err er, h2) => (.err er, h2)
                    | (.oof, h2) => (.oof, h2)
                    | (.bug, h2) => (.bug, h2)
                  | (.err er, h1) => (.err er, h1)
                  | (.oof, h1) => (.oof, h1)
                  | (.bug, h1) => (.bug, h1)
              | .err er => (.err er, h)
              | .oof => (.oof, h)
              | .bug => (.bug, h)
            | .err er => (.err er, h)
            | .oof => (.oof, h)
            | .bug => (.bug, h)
          | .ok false => (.err .WrongNumberOfArgs, h)
          | .err er => (.err er, h)
          | .oof => (.oof, h)
          | .bug => (.bug, h)
        else if first.is_specific_symbol "IF".toList then
          match test_length h rest 3 with
          | .ok true =>
            match get_first h rest with
            | .ok test_expr =>
              match rbind (get_rest h rest) fun r => get_first h r with
              | .ok true_expr =>
                match rbind (get_rest h rest) fun r =>
                    rbind (get_rest h r) fun r' => get_first h r' with
                | .ok false_expr =>
                  match evalIn fuel h env test_expr with
                  | (.ok t, h1) =>
                    if t.is_truthy then evalIn fuel h1 env true_expr
                    else evalIn fuel h1 env false_expr
                  | (.err er, h1) => (.err er, h1)
                  | (.oof, h1) => (.oof, h1)
                  | (.bug, h1) => (.bug, h1)
                | .err er => (.err er, h)
                | .oof => (.oof, h)
                | .bug => (.bug, h)
              | .err er => (.err er, h)
              | .oof => (.oof, h)
              | .bug => (.bug, h)
            | .err er => (.err er, h)
            | .oof => (.oof, h)
            | .bug => (.bug, h)
          | .ok false => (.err .WrongNumberOfArgs, h)
          | .err er => (.err er, h)
          | .oof => (.oof, h)
          | .bug => (.bug, h)
        else if first.is_specific_symbol "LAMBDA".toList then
          match test_length h rest 2 with
          | .ok true =>
            match get_first h rest with
            | .ok arg_list =>
              match get_rest h rest with
              | .ok body => make_closure (fuel + 1) h env arg_list body
              | .err er => (.err er, h)
              | .oof => (.oof, h)
              | .bug => (.bug, h)
            | .err er => (.err er, h)
            | .oof => (.oof, h)
            | .bug => (.bug, h)
          | .ok false => (.err .WrongNumberOfArgs, h)
          | .err er => (.err er, h)
          | .oof => (.oof, h)
          | .bug => (.bug, h)
        else
          match evalIn fuel h env first with
          | (.ok op, h1) =>
            match evalList fuel h1 env rest with
            | (.ok args, h2) => applyFn fuel h2 op args
            | (.err er, h2) => (.err er, h2)
            | (.oof, h2) => (.oof, h2)
            | (.bug, h2) => (.bug, h2)
          | (.err er, h1) => (.err er, h1)
          | (.oof, h1) => (.oof, h1)
          | (.bug, h1) => (.bug, h1)
      | .err er => (.err er, h)
      | .oof => (.oof, h)
      | .bug => (.bug, h)

/-- Mirrors `Heap::map_list` specialised (as at its single call site) to
evaluation of an argument list. -/
def evalList : Nat → Heap → Expr → Expr → Res Expr × Heap
  | 0, h, _, _ => (.oof, h)
  | fuel + 1, h, env, list =>
    if list.is_nil then (.ok .Nil, h)
    else
      match get_first_rest h list with
      | .ok (first, rest) =>
        match evalIn fuel h env first with
        | (.ok val, h1) =>
          let (result, h2) := make_cons h1 val .Nil
          evalListAux fuel h2 env rest result result
        | (.err er, h1) => (.err er, h1)
        | (.oof, h1) => (.oof, h1)
        | (.bug, h1) => (.bug, h1)
      | .err er => (.err er, h)
      | .oof => (.oof, h)
      | .bug => (.bug, h)

/-- The while-loop of `Heap::map_list`: grows the result list by mutating
its tail cell. -/
def evalListAux : Nat → Heap → Expr → Expr → Expr → Expr → Res Expr × Heap
  | 0, h, _, _, _, _ => (.oof, h)
  | fuel + 1, h, env, rest, result_tail, result =>
    if rest.is_nil then (.ok result, h)
    else if rest.is_pair then
      match get_first_rest h rest with
      | .ok (first, rest') =>
        match evalIn fuel h env first with
        | (.ok val, h1) =>
          let (new_tail, h2) := make_cons h1 val .Nil
          match set_rest h2 result_tail new_tail with
          | (.ok _, h3) => evalListAux fuel h3 env rest' new_tail result
          | (.err er, h3) => (.err er, h3)
          | (.oof, h3) => (.oof, h3)
          | (.bug, h3) => (.bug, h3)
        | (.err er, h1) => (.err er, h1)
        | (.oof, h1) => (.oof, h1)
        | (.bug, h1) => (.bug, h1)
      | .err er => (.err er, h)
      | .oof => (.oof, h)
      | .bug => (.bug, h)
    else (.err .ImproperList, h)

/-- Mirrors `Heap::apply`: primitive dispatch, or closure application
(fresh frame on the captured environment, lockstep binding, body forms
evaluated in order with the last value returned). -/
def applyFn : Nat → Heap → Expr → Expr → Res Expr × Heap
  | 0, h, _, _ => (.oof, h)
  | fuel + 1, h, op, args =>
    match op with
    | .Primitive name => primApply (fuel + 1) name h args
    | .Closure _ =>
      match get_lambda_env h op with
      | .ok parent =>
        let (env, h1) := make_env h parent
        match get_lambda_args h1 op with
        | .ok param_list =>
          match bindLoop (fuel + 1) (fuel + 1) h1 env param_list args with
          | (.ok _, h2) =>
            match get_lambda_body h2 op with
            | .ok body => evalBody fuel h2 env body .Nil
            | .err er => (.err er, h2)
            | .oof => (.oof, h2)
            | .bug => (.bug, h2)
          | (.err er, h2) => (.err er, h2)
          | (.oof, h2) => (.oof, h2)
          | (.bug, h2) => (.bug, h2)
        | .err er => (.err er, h1)
        | .oof => (.oof, h1)
        | .bug => (.bug, h1)
      | .err er => (.err er, h)
      | .oof => (.oof, h)
      | .bug => (.bug, h)
    | _ => (.err .NotCallable, h)

/-- The body loop of `Heap::apply`: evaluate each form, keeping the last
value (starting from `Nil`). -/
def evalBody : Nat → Heap → Expr → Expr → Expr → Res Expr × Heap
  | 0, h, _, _, _ => (.oof, h)
  | fuel + 1, h, env, body, result =>
    if body.is_nil then (.ok result, h)
    else
      match get_first h body with
      | .ok form =>
        match evalIn fuel h env form with
        | (.ok r, h1) =>
          match get_rest h1 body with
          | .ok body' => evalBody fuel h1 env body' r
          | .err er => (.err er, h1)
          | .oof => (.oof, h1)
          | .bug => (.bug, h1)
        | (.err er, h1) => (.err er, h1)
        | (.oof, h1) => (.oof, h1)
        | (.bug, h1) => (.bug, h1)
      | .err er => (.err er, h)
      | .oof => (.oof, h)
      | .bug => (.bug, h)

end

/-- Mirrors `Heap::eval`: evaluation in the root environment. -/
def eval (fuel : Nat) (h : Heap) (e : Expr) : Res Expr × Heap :=
  evalIn fuel h h.root_env e

/-- Decimal digit character. -/
def digitChar (d : Nat) : Char := Char.ofNat (48 + d)

/-- Decimal rendering of a natural number, mirroring Rust's `Display`. -/
def natToChars (m : Nat) : List Char :=
  if h : m < 10 then [digitChar m]
  else natToChars (m / 10) ++ [digitChar (m % 10)]
termination_by m
decreasing_by
  exact Nat.div_lt_self (by omega) (by omega)

/-- Decimal rendering of an `i64`, mirroring Rust's `Display for i64`. -/
def intChars (n : Int) : List Char :=
  if n < 0 then '-' :: natToChars (-n).toNat else natToChars n.toNat

mutual

/-- Mirrors `Heap::format_expr_inner` (the accumulator is threaded like
the `&mut String` of the source; fuelled against cyclic heaps). -/
def formatInner : Nat → List (Option CCell) → Expr → List Char → Res (List Char)
  | fuel, cs, e, acc =>
    match e with
    | .Nil => .ok (acc ++ "()".toList)
    | .Boolean false => .ok (acc ++ "#f".toList)
    | .Boolean true => .ok (acc ++ "#t".toList)
    | .Integer n => .ok (acc ++ intChars n)
    | .Symbol s => .ok (acc ++ s)
    | .Closure _ => .ok (acc ++ "#<lambda>".toList)
    | .Primitive d => .ok (acc ++ "#<primitive ".toList ++ d ++ ">".toList)
    | .Pair _ =>
      match fuel with
      | 0 => .oof
      | f + 1 =>
        rbind (getFR cs e) fun fr => formatLoop f cs fr.1 fr.2 (acc ++ "(".toList)

/-- The printing loop of `Heap::format_expr_inner` for pairs. -/
def formatLoop : Nat → List (Option CCell) → Expr → Expr → List Char → Res (List Char)
  | 0, _, _, _, _ => .oof
  | f + 1, cs, first, rest, acc =>
    rbind (formatInner f cs first acc) fun acc1 =>
      match rest with
      | .Nil => .ok (acc1 ++ ")".toList)
      | .Pair _ =>
        rbind (getFR cs rest) fun fr => formatLoop f cs fr.1 fr.2 (acc1 ++ " ".toList)
      | _ =>
        rbind (formatInner f cs rest (acc1 ++ " . ".toList)) fun acc2 =>
          .ok (acc2 ++ ")".toList)

end

/-- Mirrors `Heap::format_expr`. -/
def format_expr (fuel : Nat) (cs : List (Option CCell)) (e : Expr) : Res (List Char) :=
  formatInner fuel cs e []

/-- Number of live unmarked cells; the termination measure of the mark
phase. -/
def unmarkedLive (cs : List (Option CCell)) : Nat :=
  cs.countP fun oc =>
    match oc with
    | some (_, _, false) => true
    | _ => false

theorem unmarkedLive_set_lt (cs : List (Option CCell)) (k : Nat) (f r : Expr)
    (hk : cellAt cs k = some (f, r, false)) :
    unmarkedLive (cs.set k (some (f, r, true))) < unmarkedLive cs := by
  induction cs generalizing k with
  | nil => simp [cellAt] at hk
  | cons x t ih =>
    cases k with
    | zero =>
      cases x with
      | none => simp [cellAt] at hk
      | some c =>
        simp only [cellAt, List.getD, List.get?_eq_getElem?] at hk
        simp only [List.getElem?_cons_zero, Option.getD_some, Option.some.injEq] at hk
        subst hk
        simp [unmarkedLive, List.set, List.countP_cons]
    | succ k' =>
      have hk' : cellAt t k' = some (f, r, false) := by
        simpa [cellAt, List.getD] using hk
      have := ih k' hk'
      simp only [List.set, unmarkedLive, List.countP_cons] at *
      omega

/-- The worklist loop of `Heap::collect`: pop a value, mark its cell if
live and unmarked, and push the cell's fields.  The source pushes
`first` then `rest` onto a stack, so `rest` is processed next. -/
def markLoop (cs : List (Option CCell)) (wl : List Expr) : List (Option CCell) :=
  match wl with
  | [] => cs
  | e :: rest =>
    match e with
    | .Pair k =>
      match hc : cellAt cs k with
      | some (f, r, false) => markLoop (cs.set k (some (f, r, true))) (r :: f :: rest)
      | some (_, _, true) => markLoop cs rest
      | none => markLoop cs rest
    | .Closure k =>
      match hc : cellAt cs k with
      | some (f, r, false) => markLoop (cs.set k (some (f, r, true))) (r :: f :: rest)
      | some (_, _, true) => markLoop cs rest
      | none => markLoop cs rest
    | _ => markLoop cs rest
termination_by (unmarkedLive cs, wl.length)
decreasing_by
  all_goals first
    | exact Prod.Lex.left _ _ (unmarkedLive_set_lt cs k f r hc)
    | exact Prod.Lex.right _ (Nat.lt_succ_self _)

/-- The initial mark-clearing pass of `Heap::collect`. -/
def clearMarks (cs : List (Option CCell)) : List (Option CCell) :=
  cs.map (Option.map fun c => (c.1, c.2.1, false))

/-- The sweep pass of `Heap::collect` (`Slab::retain` keeps marked
cells under their keys). -/
def sweep (cs : List (Option CCell)) : List (Option CCell) :=
  cs.map fun oc =>
    match oc with
    | some (f, r, true) => some (f, r, true)
    | _ => none

/-- Mirrors `Heap::collect`: clear all marks, mark from the root set
(the symbol list and the root environment; the source's stack pops the
root environment first), then sweep. -/
def collect (h : Heap) : Heap :=
  { h with cells := sweep (markLoop (clearMarks h.cells) [h.root_env, h.symbols]) }

/-- Tokens, mirroring `enum Token` in src/lexer.rs. -/
inductive Token where
  | LBracket
  | RBracket
  | Dot
  | Tick
  | Value (s : List Char)
deriving DecidableEq

/-- A character that ends an atom in the lexer: whitespace or a bracket. -/
def isDelimC (c : Char) : Bool := c.isWhitespace || c = '(' || c = ')'

theorem dropWhile_length_le {α : Type} (p : α → Bool) :
    ∀ l : List α, (List.dropWhile p l).length ≤ l.length := by
  intro l
  induction l with
  | nil => simp [List.dropWhile]
  | cons x t ih =>
    by_cases hp : p x
    · simpa [List.dropWhile, hp] using Nat.le_succ_of_le ih
    · simp [List.dropWhile, hp]

/-- The tick character (ASCII 39). -/
def tickChar : Char := Char.ofNat 39

/-- Mirrors `tokenize` in src/lexer.rs.  Whitespace is skipped; brackets,
a leading dot and a leading tick are their own tokens; any other run of
non-whitespace non-bracket characters is an atom. -/
def tokenize (l : List Char) : List Token :=
  match l with
  | [] => []
  | c :: rest =>
    if c.isWhitespace then tokenize rest
    else if c = '(' then .LBracket :: tokenize rest
    else if c = ')' then .RBracket :: tokenize rest
    else if c = '.' then .Dot :: tokenize rest
    else if c = tickChar then .Tick :: tokenize rest
    else
      .Value (c :: rest.takeWhile fun ch => !isDelimC ch) ::
        tokenize (rest.dropWhile fun ch => !isDelimC ch)
termination_by l.length
decreasing_by
  all_goals simp
  have := dropWhile_length_le (fun ch => !isDelimC ch) rest
  omega

/-- Parse errors, mirroring `enum ParseError` in src/parser.rs. -/
inductive ParseError where
  | AmbiguousValue
  | UnexpectedDot
  | UnexpectedEndOfInput
  | UnmatchedBracket
deriving DecidableEq

/-- Outcome of a parsing step (`bug` models the `unwrap` panics on
`make_symbol`, `make_cons` and `set_rest` in the source). -/
inductive PRes (α : Type) where
  | ok (a : α)
  | perr (e : ParseError)
  | oof
  | bug
deriving DecidableEq

/-- Value of a nonempty all-digit character run. -/
def digitsVal? (l : List Char) : Option Nat :=
  match l with
  | [] => none
  | _ =>
    if l.all Char.isDigit then
      some (l.foldl (fun acc c => acc * 10 + (c.toNat - 48)) 0)
    else none

/-- Mirrors Rust `i64::from_str`: optional sign, a nonempty digit run,
and a signed 64-bit range check. -/
def rustParseI64 (v : List Char) : Option Int :=
  match v with
  | '-' :: rest =>
    (digitsVal? rest).bind fun m =>
      if (m : Int) ≤ 2 ^ 63 then some (-(m : Int)) else none
  | '+' :: rest =>
    (digitsVal? rest).bind fun m =>
      if (m : Int) ≤ 2 ^ 63 - 1 then some (m : Int) else none
  | _ =>
    (digitsVal? v).bind fun m =>
      if (m : Int) ≤ 2 ^ 63 - 1 then some (m : Int) else none

/-- Head test used by `parse_value`: an ASCII digit or a minus sign. -/
def numHead (v : List Char) : Bool :=
  match v with
  | c :: _ => c.isDigit || c = '-'
  | [] => false

/-- Mirrors `parse_value` in src/parser.rs.  The `make_symbol` call is
unwrapped in the source, so its failure is a `bug`. -/
def parse_value (fuel : Nat) (v : List Char) (h : Heap) : PRes Expr × Heap :=
  if v.head? = some '#' then
    if v = "#f".toList then (.ok (.Boolean false), h)
    else if v = "#t".toList then (.ok (.Boolean true), h)
    else (.perr .AmbiguousValue, h)
  else
    if numHead v then
      match rustParseI64 v with
      | some n => (.ok (.Integer n), h)
      | none =>
        if v ≠ "-".toList then (.perr .AmbiguousValue, h)
        else
          match make_symbol fuel h v with
          | (.ok s, h') => (.ok s, h')
          | (_, h') => (.bug, h')
    else
      match make_symbol fuel h v with
      | (.ok s, h') => (.ok s, h')
      | (_, h') => (.bug, h')

mutual

/-- Mirrors `parse_expr` in src/parser.rs: one expression from a peekable
token stream, returning the unconsumed tokens. -/
def parse_expr : Nat → List Token → Heap → PRes (Expr × List Token) × Heap
  | 0, _, h => (.oof, h)
  | fuel + 1, toks, h =>
    match toks with
    | [] => (.perr .UnexpectedEndOfInput, h)
    | .Value v :: rest =>
      match parse_value (fuel + 1) v h with
      | (.ok e, h') => (.ok (e, rest), h')
      | (.perr pe, h') => (.perr pe, h')
      | (.oof, h') => (.oof, h')
      | (.bug, h') => (.bug, h')
    | .Dot :: _ => (.perr .UnexpectedDot, h)
    | .Tick :: rest =>
      match make_symbol (fuel + 1) h "QUOTE".toList with
      | (.ok q, h1) =>
        match parse_expr fuel rest h1 with
        | (.ok (inner, rest'), h2) =>
          let (c1, h3) := make_cons h2 inner .Nil
          let (c2, h4) := make_cons h3 q c1
          (.ok (c2, rest'), h4)
        | (.perr pe, h2) => (.perr pe, h2)
        | (.oof, h2) => (.oof, h2)
        | (.bug, h2) => (.bug, h2)
      | (_, h1) => (.bug, h1)
    | .LBracket :: rest =>
      match rest with
      | .RBracket :: rest' => (.ok (.Nil, rest'), h)
      | _ =>
        match parse_expr fuel rest h with
        | (.ok (first, rest1), h1) =>
          let (result, h2) := make_cons h1 first .Nil
          parseListLoop fuel rest1 h2 result result
        | (.perr pe, h1) => (.perr pe, h1)
        | (.oof, h1) => (.oof, h1)
        | (.bug, h1) => (.bug, h1)
    | .RBracket :: _ => (.perr .UnmatchedBracket, h)

/-- The list-body loop of `parse_expr`: elements until `)`, with the
dotted-tail case, growing the result by mutating its tail cell. -/
def parseListLoop : Nat → List Token → Heap → Expr → Expr → PRes (Expr × List Token) × Heap
  | 0, _, h, _, _ => (.oof, h)
  | fuel + 1, toks, h, result_tail, result =>
    match toks with
    | .RBracket :: rest => (.ok (result, rest), h)
    | .Dot :: rest =>
      match parse_expr fuel rest h with
      | (.ok (next, rest1), h1) =>
        match set_rest h1 result_tail next with
        | (.ok _, h2) =>
          match rest1 with
          | .RBracket :: rest2 => (.ok (result, rest2), h2)
          | _ => (.perr .UnexpectedDot, h2)
        | (_, h2) => (.bug, h2)
      | (.perr pe, h1) => (.perr pe, h1)
      | (.oof, h1) => (.oof, h1)
      | (.bug, h1) => (.bug, h1)
    | _ =>
      match parse_expr fuel toks h with
      | (.ok (next, rest1), h1) =>
        let (new_tail, h2) := make_cons h1 next .Nil
        match set_rest h2 result_tail new_tail with
        | (.ok _, h3) => parseListLoop fuel rest1 h3 new_tail result
        | (_, h3) => (.bug, h3)
      | (.perr pe, h1) => (.perr pe, h1)
      | (.oof, h1) => (.oof, h1)
      | (.bug, h1) => (.bug, h1)

end

/-- Structural equality of two heap values, written out from the claim
being checked: equal tags, equal Booleans and Integers, name-equal
Symbols, componentwise equality for pairs (key identity not required);
values of other tags (closures, primitives) are never structurally
equal. -/
def structEq (cs : List (Option CCell)) : Nat → Expr → Expr → Res Bool
  | 0, _, _ => .oof
  | fuel + 1, a, b =>
    match a, b with
    | .Nil, .Nil => .ok true
    | .Boolean x, .Boolean y => .ok (x == y)
    | .Integer x, .Integer y => .ok (x == y)
    | .Symbol x, .Symbol y => .ok (x == y)
    | .Pair _, .Pair _ =>
      rbind (getFR cs a) fun fa =>
        rbind (getFR cs b) fun fb =>
          rbind (structEq cs fuel fa.1 fb.1) fun b1 =>
            if b1 then structEq cs fuel fa.2 fb.2 else .ok false
    | _, _ => .ok false

/-!  Basic facts about the cell arena. -/

theorem cellAt_nil (k : Nat) : cellAt [] k = none := by
  cases k <;> rfl

theorem cellAt_cons_zero (x : Option CCell) (t : List (Option CCell)) :
    cellAt (x :: t) 0 = x := rfl

theorem cellAt_cons_succ (x : Option CCell) (t : List (Option CCell)) (k : Nat) :
    cellAt (x :: t) (k + 1) = cellAt t k := rfl

theorem cellAt_lt_length {cs : List (Option CCell)} {k : Nat} {c : CCell}
    (h : cellAt cs k = some c) : k < cs.length := by
  induction cs generalizing k with
  | nil => rw [cellAt_nil] at h; exact absurd h (by simp)
  | cons x t ih =>
    cases k with
    | zero => simp
    | succ k' =>
      rw [cellAt_cons_succ] at h
      simpa using ih h

theorem cellAt_append {cs l : List (Option CCell)} {k : Nat} (hk : k < cs.length) :
    cellAt (cs ++ l) k = cellAt cs k := by
  induction cs generalizing k with
  | nil => simp at hk
  | cons x t ih =>
    cases k with
    | zero => rfl
    | succ k' =>
      rw [List.cons_append, cellAt_cons_succ, cellAt_cons_succ]
      exact ih (by simpa using hk)

theorem cellAt_append_self (cs : List (Option CCell)) (c : Option CCell) :
    cellAt (cs ++ [c]) cs.length = c := by
  induction cs with
  | nil => rfl
  | cons x t ih => simpa [cellAt_cons_succ] using ih

theorem cellAt_append_right (cs l : List (Option CCell)) (i : Nat) :
    cellAt (cs ++ l) (cs.length + i) = cellAt l i := by
  induction cs with
  | nil => simp [cellAt]
  | cons x t ih =>
    have : t.length + 1 + i = (t.length + i) + 1 := by omega
    rw [List.cons_append, List.length_cons, this, cellAt_cons_succ]
    exact ih

theorem cellAt_set_self : ∀ (cs : List (Option CCell)) (k : Nat), k < cs.length →
    ∀ c : Option CCell, cellAt (cs.set k c) k = c := by
  intro cs
  induction cs with
  | nil => intro k hk; simp at hk
  | cons x t ih =>
    intro k hk c
    cases k with
    | zero => rfl
    | succ k' =>
      rw [List.set_cons_succ, cellAt_cons_succ]
      exact ih k' (by simpa using hk) c

theorem cellAt_set_ne : ∀ (cs : List (Option CCell)) (k j : Nat), k ≠ j →
    ∀ c : Option CCell, cellAt (cs.set k c) j = cellAt cs j := by
  intro cs
  induction cs with
  | nil => intro k j _ c; cases k <;> rfl
  | cons x t ih =>
    intro k j hk c
    cases k with
    | zero =>
      cases j with
      | zero => exact absurd rfl hk
      | succ j' => rfl
    | succ k' =>
      cases j with
      | zero => rfl
      | succ j' =>
        rw [List.set_cons_succ, cellAt_cons_succ, cellAt_cons_succ]
        exact ih k' j' (by omega) c

/-- Heap extension that preserves every live cell (collection aside, all
heap evolution in the interpreter has this shape). -/
def PreservesCells (cs cs' : List (Option CCell)) : Prop :=
  ∀ k c, cellAt cs k = some c → cellAt cs' k = some c

theorem preservesCells_refl (cs : List (Option CCell)) : PreservesCells cs cs :=
  fun _ _ hc => hc

theorem preservesCells_trans {cs1 cs2 cs3 : List (Option CCell)}
    (h1 : PreservesCells cs1 cs2) (h2 : PreservesCells cs2 cs3) :
    PreservesCells cs1 cs3 :=
  fun k c hc => h2 k c (h1 k c hc)

theorem preservesCells_append (cs l : List (Option CCell)) :
    PreservesCells cs (cs ++ l) :=
  fun k c hc => by rw [cellAt_append (cellAt_lt_length hc)]; exact hc

/-!  Heap lists: the proper-list layout of a heap value, with its spine
keys made explicit. -/

/-- The heap value `e` is a proper list with elements `xs` stored on the
spine cells `ks`. -/
inductive HListRepK (cs : List (Option CCell)) : Expr → List Expr → List Nat → Prop where
  | nil : HListRepK cs .Nil [] []
  | cons {k : Nat} {x rest : Expr} {m : Bool} {xs : List Expr} {ks : List Nat} :
      cellAt cs k = some (x, rest, m) → HListRepK cs rest xs ks →
      HListRepK cs (.Pair k) (x :: xs) (k :: ks)

/-- The heap value `e` is a proper list with elements `xs`. -/
def HListRep (cs : List (Option CCell)) (e : Expr) (xs : List Expr) : Prop :=
  ∃ ks, HListRepK cs e xs ks

theorem HListRepK_mono {cs cs' : List (Option CCell)} {e : Expr} {xs : List Expr}
    {ks : List Nat} (hp : PreservesCells cs cs') (hr : HListRepK cs e xs ks) :
    HListRepK cs' e xs ks := by
  induction hr with
  | nil => exact .nil
  | cons hc _ ih => exact .cons (hp _ _ hc) ih

theorem HListRep_mono {cs cs' : List (Option CCell)} {e : Expr} {xs : List Expr}
    (hp : PreservesCells cs cs') (hr : HListRep cs e xs) : HListRep cs' e xs := by
  obtain ⟨ks, hk⟩ := hr
  exact ⟨ks, HListRepK_mono hp hk⟩

theorem test_length_nil (h : Heap) (n : Nat) :
    test_length h .Nil n = .ok (n == 0) := by
  rw [test_length.eq_def]; rfl

theorem test_length_zero {h : Heap} {e : Expr} (he : e.is_nil = false) :
    test_length h e 0 = .ok false := by
  rw [test_length.eq_def]; simp [he]

theorem test_length_succ {h : Heap} {e : Expr} (he : e.is_nil = false) (n : Nat) :
    test_length h e (n + 1) = rbind (get_rest h e) fun r => test_length h r n := by
  rw [test_length.eq_def]; simp [he]

theorem nat_succ_beq_succ (n m : Nat) : ((n + 1) == (m + 1)) = (n == m) := by
  by_cases h : n = m
  · subst h; simp
  · have h' : ¬ (n + 1 = m + 1) := by omega
    simp [h, h', Nat.beq_eq_true_eq]

theorem test_length_rep {h : Heap} {e : Expr} {xs : List Expr}
    (hr : HListRep h.cells e xs) (n : Nat) :
    test_length h e n = .ok (n == xs.length) := by
  obtain ⟨ks, hk⟩ := hr
  induction hk generalizing n with
  | nil => simp [test_length_nil]
  | @cons k x rest m xs' ks' hc tl ih =>
    cases n with
    | zero => simp [test_length_zero (e := .Pair k) rfl]
    | succ n' =>
      have hg : get_rest h (.Pair k) = .ok rest := by simp [get_rest, hc]
      rw [test_length_succ (e := .Pair k) rfl, hg, rbind_ok, ih n']
      rw [List.length_cons, nat_succ_beq_succ]

/-!  Claim C2: variadic arithmetic. -/

theorem as_integer_err {v : Expr} (hv : ∀ m : Int, v ≠ .Integer m) :
    as_integer v = .err .TypeError := by
  cases v with
  | Integer n => exact absurd rfl (hv n)
  | _ => rfl

theorem arithLoop_ints (bop : Int → Int → Int) {h : Heap} {e : Expr} {xs : List Expr}
    (hr : HListRep h.cells e xs) :
    ∀ {fuel : Nat}, xs.length < fuel → ∀ (ns : List Int), xs = ns.map Expr.Integer →
      ∀ acc : Int, arithLoop h bop fuel acc e = .ok (ns.foldl bop acc) := by
  obtain ⟨ks, hk⟩ := hr
  induction hk with
  | nil =>
    intro fuel hf ns hns acc
    cases fuel with
    | zero => omega
    | succ f =>
      have hns' : ns = [] := by
        cases ns with
        | nil => rfl
        | cons a t => rw [List.map_cons] at hns; exact absurd hns (by simp)
      subst hns'
      simp [arithLoop]
  | @cons k x rest m xs' ks' hc tl ih =>
    intro fuel hf ns hns acc
    cases fuel with
    | zero => omega
    | succ f =>
      cases ns with
      | nil => simp at hns
      | cons n ns' =>
        rw [List.map_cons] at hns
        injection hns with hx hxs'
        subst hx
        have h1 : get_first h (.Pair k) = .ok (.Integer n) := by simp [get_first, hc]
        have h2 : get_rest h (.Pair k) = .ok rest := by simp [get_rest, hc]
        simp only [arithLoop, is_nil_Pair, Bool.false_eq_true, if_false,
          h1, h2, as_integer, rbind_ok]
        rw [ih (by simp only [List.length_cons] at hf; omega) ns' hxs' (bop acc n)]
        rfl

theorem arithLoop_typeerr (bop : Int → Int → Int) {h : Heap} {e : Expr} {xs : List Expr}
    (hr : HListRep h.cells e xs) :
    ∀ {fuel : Nat}, xs.length < fuel →
      (∃ v ∈ xs, ∀ m : Int, v ≠ .Integer m) →
      ∀ acc : Int, arithLoop h bop fuel acc e = .err .TypeError := by
  obtain ⟨ks, hk⟩ := hr
  induction hk with
  | nil => intro fuel hf hv acc; simp at hv
  | @cons k x rest m xs' ks' hc tl ih =>
    intro fuel hf hv acc
    cases fuel with
    | zero => omega
    | succ f =>
      have h1 : get_first h (.Pair k) = .ok x := by simp [get_first, hc]
      have h2 : get_rest h (.Pair k) = .ok rest := by simp [get_rest, hc]
      simp only [arithLoop, is_nil_Pair, Bool.false_eq_true, if_false]
      by_cases hx : ∀ m : Int, x ≠ .Integer m
      · simp [h1, as_integer_err hx, rbind]
      · push_neg at hx
        obtain ⟨n, hn⟩ := hx
        subst hn
        have hv' : ∃ v ∈ xs', ∀ m : Int, v ≠ .Integer m := by
          obtain ⟨v, hmem, hnv⟩ := hv
          rcases List.mem_cons.mp hmem with hveq | htl
          · exact absurd (hveq ▸ rfl) (hveq ▸ hnv n)
          · exact ⟨v, htl, hnv⟩
        simp only [h1, h2, as_integer, rbind_ok]
        exact ih (by simp only [List.length_cons] at hf; omega) hv' _

/-- Single-operand heap used for the concrete examples of claim C2. -/
def oneArgHeap (n : Int) : Heap :=
  { symbols := .Nil, root_env := .Nil, cells := [some (.Integer n, .Nil, false)] }

/-- Claim C2.  For each arithmetic primitive with its identity (0 for
plus/minus, 1 for times/divide): zero arguments give `WrongNumberOfArgs`;
one integer argument `x` gives `bin_op(identity, x)` (so `(- 5) = -5`,
`(/ 4) = 0`, `(+ 5) = 5`, `(* 5) = 5`); two or more integer arguments
give the left fold of `bin_op` starting from the first operand; a
non-integer operand gives `TypeError`. -/
theorem c2_variadic_arithmetic :
    (∀ (h : Heap) (args : Expr) (xs : List Expr) (fuel : Nat) (identity : Int)
        (bop : Int → Int → Int), HListRep h.cells args xs → xs.length < fuel →
      ((xs = [] → do_arithmetic fuel h args identity bop = .err .WrongNumberOfArgs) ∧
       (∀ x : Int, xs = [.Integer x] →
          do_arithmetic fuel h args identity bop = .ok (.Integer (bop identity x))) ∧
       (∀ (n0 : Int) (ns : List Int), ns ≠ [] → xs = .Integer n0 :: ns.map .Integer →
          do_arithmetic fuel h args identity bop = .ok (.Integer (ns.foldl bop n0))) ∧
       ((∃ v ∈ xs, ∀ m : Int, v ≠ .Integer m) →
          do_arithmetic fuel h args identity bop = .err .TypeError))) ∧
    (∀ (fuel : Nat) (h : Heap) (args : Expr),
      do_plus fuel h args = do_arithmetic fuel h args 0 (fun a b => wrap64 (a + b)) ∧
      do_minus fuel h args = do_arithmetic fuel h args 0 (fun a b => wrap64 (a - b)) ∧
      do_times fuel h args = do_arithmetic fuel h args 1 (fun a b => wrap64 (a * b)) ∧
      do_divide fuel h args = do_arithmetic fuel h args 1 (fun a b => Int.tdiv a b)) ∧
    (do_minus 2 (oneArgHeap 5) (.Pair 0) = .ok (.Integer (-5)) ∧
     do_divide 2 (oneArgHeap 4) (.Pair 0) = .ok (.Integer 0) ∧
     do_plus 2 (oneArgHeap 5) (.Pair 0) = .ok (.Integer 5) ∧
     do_times 2 (oneArgHeap 5) (.Pair 0) = .ok (.Integer 5)) := by
  refine ⟨?_, fun fuel h args => ⟨rfl, rfl, rfl, rfl⟩, by decide⟩
  intro h args xs fuel identity bop hr hf
  obtain ⟨ks, hk⟩ := hr
  refine ⟨?_, ?_, ?_, ?_⟩
  · intro hxs
    subst hxs
    cases hk
    simp [do_arithmetic]
  · intro x hxs
    subst hxs
    cases hk with
    | @cons k x' rest m xs' ks' hc tl =>
      cases tl
      have h1 : get_first h (.Pair k) = .ok (.Integer x) := by simp [get_first, hc]
      have h2 : get_rest h (.Pair k) = .ok .Nil := by simp [get_rest, hc]
      simp [do_arithmetic, h1, h2, as_integer, rbind]
  · intro n0 ns hns hxs
    subst hxs
    cases ns with
    | nil => exact absurd rfl hns
    | cons n1 nt =>
      rw [List.map_cons] at hk hf
      cases hk with
      | @cons k x' rest m xs' ks' hc tl =>
        have h1 : get_first h (.Pair k) = .ok (.Integer n0) := by simp [get_first, hc]
        cases tl with
        | @cons k2 x2 rest2 m2 xs2 ks2 hc2 tl2 =>
          have h2 : get_rest h (.Pair k) = .ok (.Pair k2) := by simp [get_rest, hc]
          simp only [do_arithmetic, is_nil_Pair, Bool.false_eq_true, if_false,
            h2, rbind_ok, h1, as_integer]
          have hlen : (List.map Expr.Integer (n1 :: nt)).length < fuel := by
            simp only [List.length_cons, List.length_map] at hf ⊢
            omega
          have hloop := arithLoop_ints bop
            ⟨_, HListRepK.cons hc2 tl2⟩ hlen (n1 :: nt) rfl n0
          simp [hloop]
  · intro hv
    obtain ⟨v, hmem, hnv⟩ := hv
    cases hk with
    | nil => simp at hmem
    | @cons k x rest m xs' ks' hc tl =>
      have h1 : get_first h (.Pair k) = .ok x := by simp [get_first, hc]
      have h2 : get_rest h (.Pair k) = .ok rest := by simp [get_rest, hc]
      cases tl with
      | nil =>
        have hvx : v = x := by simpa using hmem
        subst hvx
        simp [do_arithmetic, h1, h2, as_integer_err hnv, rbind]
      | @cons k2 x2 rest2 m2 xs2 ks2 hc2 tl2 =>
        simp only [do_arithmetic, is_nil_Pair, Bool.false_eq_true, if_false,
          h2, rbind_ok, h1]
        by_cases hx : ∀ m' : Int, x ≠ .Integer m'
        · simp [as_integer_err hx, rbind]
        · push_neg at hx
          obtain ⟨n, hn⟩ := hx
          subst hn
          have hv' : ∃ w ∈ x2 :: xs2, ∀ m' : Int, w ≠ .Integer m' := by
            rcases List.mem_cons.mp hmem with hveq | htl
            · exact absurd (hveq ▸ rfl) (hveq ▸ hnv n)
            · exact ⟨v, htl, hnv⟩
          have hlenb : (x2 :: xs2).length < fuel := by
            simp only [List.length_cons] at hf ⊢; omega
          have hloop := arithLoop_typeerr bop
            ⟨_, HListRepK.cons hc2 tl2⟩ hlenb hv' n
          simp [as_integer, hloop]

/-- Witness for claim C2 at a concrete two-operand heap. -/
def twoArgHeap : Heap :=
  { symbols := .Nil, root_env := .Nil,
    cells := [some (.Integer 7, .Pair 1, false), some (.Integer 3, .Nil, false)] }

theorem c2_variadic_arithmetic_witness :
    HListRep twoArgHeap.cells (.Pair 0) [.Integer 7, .Integer 3] ∧
    ([.Integer 7, .Integer 3] : List Expr).length < 3 ∧
    do_arithmetic 3 twoArgHeap (.Pair 0) 0 (fun a b => wrap64 (a + b)) =
      .ok (.Integer (([3] : List Int).foldl (fun a b => wrap64 (a + b)) 7)) := by
  have hr : HListRep twoArgHeap.cells (.Pair 0) [.Integer 7, .Integer 3] :=
    ⟨[0, 1], .cons rfl (.cons rfl .nil)⟩
  refine ⟨hr, by decide, ?_⟩
  exact ((c2_variadic_arithmetic.1 twoArgHeap (.Pair 0) _ 3 0 _ hr (by decide)).2.2.1)
    7 [3] (by decide) rfl

/-!  Claim C8: the primitives `first` and `rest` on a non-pair argument. -/

/-- Claim C8.  Applying `first` or `rest` to a single non-pair argument
returns `ImproperList` (not `TypeError`); the heap is returned unchanged
(the corresponding Rust functions never write to it). -/
theorem c8_first_rest_improper_list (h : Heap) (k : Nat) (v : Expr) (m : Bool)
    (hc : cellAt h.cells k = some (v, .Nil, m)) (hv : v.is_pair = false) :
    prim_first h (.Pair k) = .err .ImproperList ∧
    prim_rest h (.Pair k) = .err .ImproperList ∧
    primApply 1 "first".toList h (.Pair k) = (.err .ImproperList, h) ∧
    primApply 1 "rest".toList h (.Pair k) = (.err .ImproperList, h) := by
  have hval : validate_arg_count h (.Pair k) 1 = .ok () := by
    have h2 : get_rest h (.Pair k) = .ok .Nil := by simp [get_rest, hc]
    simp [validate_arg_count, test_length, Expr.is_nil, h2, rbind]
  have h1 : get_first h (.Pair k) = .ok v := by simp [get_first, hc]
  have hfv : get_first h v = .err .ImproperList := by
    cases v <;> simp_all [get_first, Expr.is_pair]
  have hrv : get_rest h v = .err .ImproperList := by
    cases v <;> simp_all [get_rest, Expr.is_pair]
  refine ⟨?_, ?_, ?_, ?_⟩
  · simp [prim_first, hval, h1, hfv, rbind]
  · simp [prim_rest, hval, h1, hrv, rbind]
  · simp [primApply, prim_first, hval, h1, hfv, rbind]
  · have : ("rest".toList = "first".toList) = False := by decide
    simp [primApply, this, prim_rest, hval, h1, hrv, rbind]

theorem c8_first_rest_improper_list_witness :
    cellAt (oneArgHeap 5).cells 0 = some (.Integer 5, .Nil, false) ∧
    (Expr.Integer 5).is_pair = false ∧
    prim_first (oneArgHeap 5) (.Pair 0) = .err .ImproperList := by
  exact ⟨rfl, rfl, (c8_first_rest_improper_list (oneArgHeap 5) 0 (.Integer 5) false rfl rfl).1⟩

/-!  Special-form keyword dispatch facts. -/

@[simp] theorem spec_define_quote :
    (Expr.Symbol "DEFINE".toList).is_specific_symbol "QUOTE".toList = false := by decide

@[simp] theorem spec_define_define :
    (Expr.Symbol "DEFINE".toList).is_specific_symbol "DEFINE".toList = true := by decide

@[simp] theorem spec_if_quote :
    (Expr.Symbol "IF".toList).is_specific_symbol "QUOTE".toList = false := by decide

@[simp] theorem spec_if_define :
    (Expr.Symbol "IF".toList).is_specific_symbol "DEFINE".toList = false := by decide

@[simp] theorem spec_if_if :
    (Expr.Symbol "IF".toList).is_specific_symbol "IF".toList = true := by decide

@[simp] theorem spec_lambda_quote :
    (Expr.Symbol "LAMBDA".toList).is_specific_symbol "QUOTE".toList = false := by decide

@[simp] theorem spec_lambda_define :
    (Expr.Symbol "LAMBDA".toList).is_specific_symbol "DEFINE".toList = false := by decide

@[simp] theorem spec_lambda_if :
    (Expr.Symbol "LAMBDA".toList).is_specific_symbol "IF".toList = false := by decide

@[simp] theorem spec_lambda_lambda :
    (Expr.Symbol "LAMBDA".toList).is_specific_symbol "LAMBDA".toList = true := by decide

/-!  Claim C9: `(DEFINE n e)` with a non-symbol `n`. -/

/-- Claim C9.  Evaluating `(DEFINE n e)` where `n` is not a symbol
returns `ImproperSymbol` before `e` is evaluated, and the heap (hence
every environment stored in it) is returned entirely unchanged. -/
theorem c9_define_non_symbol (fuel : Nat) (h : Heap) (env n e form : Expr)
    (hr : HListRep h.cells form [.Symbol "DEFINE".toList, n, e])
    (hn : n.is_symbol = false) :
    evalIn (fuel + 1) h env form = (.err .ImproperSymbol, h) := by
  obtain ⟨ks, hk⟩ := hr
  cases hk with
  | @cons k0 x0 r1 m0 xs0 ks0 hc0 tl0 =>
    cases tl0 with
    | @cons k1 x1 r2 m1 xs1 ks1 hc1 tl1 =>
      cases tl1 with
      | @cons k2 x2 r3 m2 xs2 ks2 hc2 tl2 =>
        cases tl2
        have hfr : get_first_rest h (.Pair k0) = .ok (.Symbol "DEFINE".toList, .Pair k1) := by
          simp [get_first_rest, getFR, hc0]
        have hlen : test_length h (.Pair k1) 2 = .ok true := by
          rw [test_length_rep ⟨_, HListRepK.cons hc1 (HListRepK.cons hc2 HListRepK.nil)⟩ 2]
          rfl
        have hg1 : get_first h (.Pair k1) = .ok n := by simp [get_first, hc1]
        have hg2 : get_rest h (.Pair k1) = .ok (.Pair k2) := by simp [get_rest, hc1]
        have hg3 : get_first h (.Pair k2) = .ok e := by simp [get_first, hc2]
        simp +decide [evalIn, hfr, hlen, hg1, hg2, hg3, hn, rbind, Expr.is_specific_symbol]

/-- Witness heap for claim C9: the form `(DEFINE 7 8)` with a root
frame at cell 0. -/
def defineNonSymbolHeap : Heap :=
  { symbols := .Nil, root_env := .Pair 0, cells :=
      [some (.Nil, .Nil, false),
       some (.Integer 8, .Nil, false),
       some (.Integer 7, .Pair 1, false),
       some (.Symbol "DEFINE".toList, .Pair 2, false)] }

theorem c9_define_non_symbol_witness :
    HListRep defineNonSymbolHeap.cells (.Pair 3)
      [.Symbol "DEFINE".toList, .Integer 7, .Integer 8] ∧
    (Expr.Integer 7).is_symbol = false ∧
    evalIn 6 defineNonSymbolHeap (.Pair 0) (.Pair 3) =
      (.err .ImproperSymbol, defineNonSymbolHeap) := by
  have hr : HListRep defineNonSymbolHeap.cells (.Pair 3)
      [.Symbol "DEFINE".toList, .Integer 7, .Integer 8] :=
    ⟨[3, 2, 1], .cons rfl (.cons rfl (.cons rfl .nil))⟩
  exact ⟨hr, rfl,
    c9_define_non_symbol 5 defineNonSymbolHeap (.Pair 0) (.Integer 7) (.Integer 8)
      (.Pair 3) hr rfl⟩

/-!  Claim C5: IF and truthiness. -/

theorem is_truthy_of_ne {v : Expr} (hv : v ≠ .Boolean false) : v.is_truthy = true := by
  cases v with
  | Boolean b => cases b with
    | false => exact absurd rfl hv
    | true => rfl
  | _ => rfl

/-- Concrete heap for `(IF t 1 2)` with the literal test value `t`. -/
def ifHeap (t : Expr) : Heap :=
  { symbols := .Nil, root_env := .Pair 0, cells :=
      [some (.Nil, .Nil, false),
       some (.Integer 2, .Nil, false),
       some (.Integer 1, .Pair 1, false),
       some (t, .Pair 2, false),
       some (.Symbol "IF".toList, .Pair 3, false)] }

/-- Concrete heap for `(IF (QUOTE ()) 1 2)`. -/
def ifQuoteHeap : Heap :=
  { symbols := .Nil, root_env := .Pair 0, cells :=
      [some (.Nil, .Nil, false),
       some (.Integer 2, .Nil, false),
       some (.Integer 1, .Pair 1, false),
       some (.Pair 5, .Pair 2, false),
       some (.Symbol "IF".toList, .Pair 3, false),
       some (.Symbol "QUOTE".toList, .Pair 6, false),
       some (.Nil, .Nil, false)] }

/-- Claim C5.  `Boolean false` is the only falsy value: in `(IF t a b)`,
if the test evaluates to any value other than `#f` the whole form
continues exactly as the evaluation of `a` (so `b` is never evaluated),
and if it evaluates to `#f` it continues exactly as the evaluation of
`b`; concretely `(if #f 1 2) = 2`, `(if () 1 2) = 1`, `(if 0 1 2) = 1`,
`(if (quote ()) 1 2) = 1`. -/
theorem c5_if_truthiness :
    (∀ (fuel : Nat) (h : Heap) (env t a b form : Expr),
      HListRep h.cells form [.Symbol "IF".toList, t, a, b] →
      ((∀ v h1, evalIn fuel h env t = (.ok v, h1) → v ≠ .Boolean false →
          evalIn (fuel + 1) h env form = evalIn fuel h1 env a) ∧
       (∀ h1, evalIn fuel h env t = (.ok (.Boolean false), h1) →
          evalIn (fuel + 1) h env form = evalIn fuel h1 env b))) ∧
    ((evalIn 10 (ifHeap (.Boolean false)) (.Pair 0) (.Pair 4)).1 = .ok (.Integer 2) ∧
     (evalIn 10 (ifHeap .Nil) (.Pair 0) (.Pair 4)).1 = .ok (.Integer 1) ∧
     (evalIn 10 (ifHeap (.Integer 0)) (.Pair 0) (.Pair 4)).1 = .ok (.Integer 1) ∧
     (evalIn 10 ifQuoteHeap (.Pair 0) (.Pair 4)).1 = .ok (.Integer 1)) := by
  constructor
  · intro fuel h env t a b form hr
    obtain ⟨ks, hk⟩ := hr
    cases hk with
    | @cons k0 x0 r1 m0 xs0 ks0 hc0 tl0 =>
      cases tl0 with
      | @cons k1 x1 r2 m1 xs1 ks1 hc1 tl1 =>
        cases tl1 with
        | @cons k2 x2 r3 m2 xs2 ks2 hc2 tl2 =>
          cases tl2 with
          | @cons k3 x3 r4 m3 xs3 ks3 hc3 tl3 =>
            cases tl3
            have hfr : get_first_rest h (.Pair k0) =
                .ok (.Symbol "IF".toList, .Pair k1) := by
              simp [get_first_rest, getFR, hc0]
            have hlen : test_length h (.Pair k1) 3 = .ok true := by
              rw [test_length_rep ⟨_, HListRepK.cons hc1 (HListRepK.cons hc2
                (HListRepK.cons hc3 HListRepK.nil))⟩ 3]
              rfl
            have hg1 : get_first h (.Pair k1) = .ok t := by simp [get_first, hc1]
            have hg2 : get_rest h (.Pair k1) = .ok (.Pair k2) := by simp [get_rest, hc1]
            have hg3 : get_first h (.Pair k2) = .ok a := by simp [get_first, hc2]
            have hg4 : get_rest h (.Pair k2) = .ok (.Pair k3) := by simp [get_rest, hc2]
            have hg5 : get_first h (.Pair k3) = .ok b := by simp [get_first, hc3]
            constructor
            · intro v h1 hev hv
              simp +decide [evalIn, hfr, hlen, hg1, hg2, hg3, hg4, hg5, rbind,
                Expr.is_specific_symbol, hev, is_truthy_of_ne hv]
            · intro h1 hev
              simp +decide [evalIn, hfr, hlen, hg1, hg2, hg3, hg4, hg5, rbind,
                Expr.is_specific_symbol, hev, Expr.is_truthy]
  · exact ⟨by decide, by decide, by decide, by decide⟩

theorem c5_if_truthiness_witness :
    HListRep (ifHeap (.Integer 0)).cells (.Pair 4)
      [.Symbol "IF".toList, .Integer 0, .Integer 1, .Integer 2] ∧
    evalIn 9 (ifHeap (.Integer 0)) (.Pair 0) (.Integer 0) =
      (.ok (.Integer 0), ifHeap (.Integer 0)) ∧
    (Expr.Integer 0) ≠ .Boolean false ∧
    evalIn 10 (ifHeap (.Integer 0)) (.Pair 0) (.Pair 4) =
      evalIn 9 (ifHeap (.Integer 0)) (.Pair 0) (.Integer 1) := by
  have hr : HListRep (ifHeap (.Integer 0)).cells (.Pair 4)
      [.Symbol "IF".toList, .Integer 0, .Integer 1, .Integer 2] :=
    ⟨[4, 3, 2, 1], .cons rfl (.cons rfl (.cons rfl (.cons rfl .nil)))⟩
  refine ⟨hr, rfl, by decide, ?_⟩
  exact ((c5_if_truthiness.1 9 (ifHeap (.Integer 0)) (.Pair 0) (.Integer 0)
    (.Integer 1) (.Integer 2) (.Pair 4) hr).1 (.Integer 0) (ifHeap (.Integer 0))
    rfl (by decide))

/-!  Claim C6: case-folded interning. -/

/-- The interned symbol (if any) that the `make_symbol` walk would find
for an upper-cased name among the symbol-list elements. -/
def findSym : List Expr → List Char → Option Expr
  | [], _ => none
  | .Symbol r :: t, nm => if r = nm then some (.Symbol r) else findSym t nm
  | _ :: t, nm => findSym t nm

theorem symLoop_rep {h : Heap} {e : Expr} {elems : List Expr} (nm : List Char)
    (hr : HListRep h.cells e elems) :
    ∀ {fuel : Nat}, elems.length < fuel → symLoop h nm fuel e = .ok (findSym elems nm) := by
  obtain ⟨ks, hk⟩ := hr
  induction hk with
  | nil =>
    intro fuel hf
    cases fuel with
    | zero => omega
    | succ f => simp [symLoop, findSym]
  | @cons k x rest m xs' ks' hc tl ih =>
    intro fuel hf
    cases fuel with
    | zero => omega
    | succ f =>
      have hfr : get_first_rest h (.Pair k) = .ok (x, rest) := by
        simp [get_first_rest, getFR, hc]
      have hfb : xs'.length < f := by simp only [List.length_cons] at hf; omega
      have ihf := ih hfb
      cases x with
      | Symbol r =>
        by_cases hrnm : r = nm
        · subst hrnm
          simp [symLoop, hfr, rbind, findSym]
        · simp [symLoop, hfr, rbind, ihf, findSym, hrnm]
      | _ => simp [symLoop, hfr, rbind, ihf, findSym]

theorem findSym_eq_some {nm : List Char} {s : Expr} :
    ∀ {elems : List Expr}, findSym elems nm = some s → s = .Symbol nm := by
  intro elems
  induction elems with
  | nil => intro hf; simp [findSym] at hf
  | cons x t ih =>
    intro hf
    cases x with
    | Symbol r =>
      by_cases hrnm : r = nm
      · subst hrnm
        rw [findSym, if_pos rfl] at hf
        exact (Option.some.injEq .. ▸ hf).symm
      · rw [findSym, if_neg hrnm] at hf
        exact ih hf
    | Nil => exact ih (by simpa [findSym] using hf)
    | Boolean b => exact ih (by simpa [findSym] using hf)
    | Integer n => exact ih (by simpa [findSym] using hf)
    | Pair k => exact ih (by simpa [findSym] using hf)
    | Closure k => exact ih (by simpa [findSym] using hf)
    | Primitive d => exact ih (by simpa [findSym] using hf)

/-- Claim C6.  Interning case-folded-equal names yields the same symbol
value carrying the single interned (upper-cased) name, and a second
intern of any case variant returns the existing symbol while leaving the
heap (in particular the symbol list) completely unchanged. -/
theorem c6_interning (h : Heap) (elems : List Expr) (n1 n2 : List Char) (fuel : Nat)
    (hr : HListRep h.cells h.symbols elems) (hfuel : elems.length < fuel)
    (hcase : upperChars n1 = upperChars n2) :
    ∃ h1 : Heap, make_symbol fuel h n1 = (.ok (.Symbol (upperChars n1)), h1) ∧
      make_symbol fuel h1 n2 = (.ok (.Symbol (upperChars n1)), h1) := by
  have hloop := symLoop_rep (h := h) (e := h.symbols) (upperChars n1) hr hfuel
  cases hfind : findSym elems (upperChars n1) with
  | some s =>
    have hs := findSym_eq_some hfind
    subst hs
    refine ⟨h, ?_, ?_⟩
    · simp [make_symbol, hloop, hfind]
    · have hloop2 := symLoop_rep (h := h) (e := h.symbols) (upperChars n2) hr hfuel
      rw [← hcase] at hloop2
      simp [make_symbol, ← hcase, hloop2, hfind]
  | none =>
    set nm := upperChars n1 with hnm
    set h1 : Heap :=
      { symbols := .Pair h.cells.length,
        root_env := h.root_env,
        cells := h.cells ++ [some (.Symbol nm, h.symbols, false)] } with hh1
    refine ⟨h1, ?_, ?_⟩
    · simp [make_symbol, hloop, hfind, make_cons, hh1]
    · have hpres : PreservesCells h.cells h1.cells := by
        rw [hh1]; exact preservesCells_append _ _
      have hcell : cellAt h1.cells h.cells.length =
          some (.Symbol nm, h.symbols, false) := by
        rw [hh1]; exact cellAt_append_self _ _
      have hrep1 : HListRep h1.cells h1.symbols (.Symbol nm :: elems) := by
        obtain ⟨ks, hk⟩ := hr
        exact ⟨_, .cons hcell (HListRepK_mono hpres hk)⟩
      cases fuel with
      | zero => omega
      | succ f =>
        have hfr1 : get_first_rest h1 h1.symbols = .ok (.Symbol nm, h.symbols) := by
          simp [get_first_rest, getFR, hh1, cellAt_append_self]
        have hl2 : symLoop h1 nm (f + 1) h1.symbols = .ok (some (.Symbol nm)) := by
          simp [symLoop, hh1, hfr1, rbind]
        simp only [make_symbol, ← hcase]
        simp [hl2]

theorem c6_interning_witness :
    HListRep (Heap.mk .Nil .Nil []).cells (Heap.mk .Nil .Nil []).symbols [] ∧
    ([] : List Expr).length < 1 ∧
    upperChars "foo".toList = upperChars "FOO".toList ∧
    ∃ h1 : Heap,
      make_symbol 1 (Heap.mk .Nil .Nil []) "foo".toList =
        (.ok (.Symbol (upperChars "foo".toList)), h1) ∧
      make_symbol 1 h1 "FOO".toList =
        (.ok (.Symbol (upperChars "foo".toList)), h1) := by
  refine ⟨⟨[], .nil⟩, by decide, by decide, ?_⟩
  exact c6_interning (Heap.mk .Nil .Nil []) [] "foo".toList "FOO".toList 1
    ⟨[], .nil⟩ (by decide) (by decide)

/-!  Claim C7: a failing DEFINE. -/

/-- Concrete heap holding the form `(DEFINE X ((DEFINE Y 1)))` and an
empty root frame at cell 0. -/
def defineFailureHeap : Heap :=
  { symbols := .Nil, root_env := .Pair 0, cells :=
      [some (.Nil, .Nil, false),
       some (.Integer 1, .Nil, false),
       some (.Symbol "Y".toList, .Pair 1, false),
       some (.Symbol "DEFINE".toList, .Pair 2, false),
       some (.Pair 3, .Nil, false),
       some (.Pair 4, .Nil, false),
       some (.Symbol "X".toList, .Pair 5, false),
       some (.Symbol "DEFINE".toList, .Pair 6, false)] }

/-- Counterexample to claim C7 as stated: evaluating
`(DEFINE X ((DEFINE Y 1)))` in an empty frame fails (the inner
application head `(DEFINE Y 1)` evaluates to the non-callable symbol
`Y`), so the outer DEFINE returns that error and `X` is unbound — but
the environment's bindings list is NOT exactly as before: the partial
evaluation of the subexpression bound `Y`, mutating the frame cell. -/
theorem c7_counterexample :
    (evalIn 20 defineFailureHeap (.Pair 0) (.Pair 7)).1 = .err .NotCallable ∧
    cellAt (evalIn 20 defineFailureHeap (.Pair 0) (.Pair 7)).2.cells 0 ≠
      cellAt defineFailureHeap.cells 0 := by
  constructor
  · decide
  · decide

/-- Claim C7, amended.  If evaluating `e` inside `(DEFINE x e)` fails,
the DEFINE returns that error and performs no binding of its own: the
heap is exactly as `e`'s evaluation left it (in particular `x` gains no
binding from this DEFINE, and no rollback of the mutations made during
`e`'s partial evaluation is attempted). -/
theorem c7_define_error_no_binding (fuel : Nat) (h : Heap) (env x e form : Expr)
    (hr : HListRep h.cells form [.Symbol "DEFINE".toList, x, e])
    (hx : x.is_symbol = true)
    {er : SErr} {h1 : Heap} (he : evalIn fuel h env e = (.err er, h1)) :
    evalIn (fuel + 1) h env form = (.err er, h1) := by
  obtain ⟨ks, hk⟩ := hr
  cases hk with
  | @cons k0 x0 r1 m0 xs0 ks0 hc0 tl0 =>
    cases tl0 with
    | @cons k1 x1 r2 m1 xs1 ks1 hc1 tl1 =>
      cases tl1 with
      | @cons k2 x2 r3 m2 xs2 ks2 hc2 tl2 =>
        cases tl2
        have hfr : get_first_rest h (.Pair k0) = .ok (.Symbol "DEFINE".toList, .Pair k1) := by
          simp [get_first_rest, getFR, hc0]
        have hlen : test_length h (.Pair k1) 2 = .ok true := by
          rw [test_length_rep ⟨_, HListRepK.cons hc1 (HListRepK.cons hc2 HListRepK.nil)⟩ 2]
          rfl
        have hg1 : get_first h (.Pair k1) = .ok x := by simp [get_first, hc1]
        have hg2 : get_rest h (.Pair k1) = .ok (.Pair k2) := by simp [get_rest, hc1]
        have hg3 : get_first h (.Pair k2) = .ok e := by simp [get_first, hc2]
        simp +decide [evalIn, hfr, hlen, hg1, hg2, hg3, hx, rbind,
          Expr.is_specific_symbol, he]

/-- Witness heap for the amended C7: `(DEFINE X Y)` with unbound `Y`. -/
def defineUnboundHeap : Heap :=
  { symbols := .Nil, root_env := .Pair 0, cells :=
      [some (.Nil, .Nil, false),
       some (.Symbol "Y".toList, .Nil, false),
       some (.Symbol "X".toList, .Pair 1, false),
       some (.Symbol "DEFINE".toList, .Pair 2, false)] }

theorem c7_define_error_no_binding_witness :
    HListRep defineUnboundHeap.cells (.Pair 3)
      [.Symbol "DEFINE".toList, .Symbol "X".toList, .Symbol "Y".toList] ∧
    (Expr.Symbol "X".toList).is_symbol = true ∧
    evalIn 5 defineUnboundHeap (.Pair 0) (.Symbol "Y".toList) =
      (.err .UnboundSymbol, defineUnboundHeap) ∧
    evalIn 6 defineUnboundHeap (.Pair 0) (.Pair 3) =
      (.err .UnboundSymbol, defineUnboundHeap) := by
  have hr : HListRep defineUnboundHeap.cells (.Pair 3)
      [.Symbol "DEFINE".toList, .Symbol "X".toList, .Symbol "Y".toList] :=
    ⟨[3, 2, 1], .cons rfl (.cons rfl (.cons rfl .nil))⟩
  refine ⟨hr, rfl, by decide, ?_⟩
  exact c7_define_error_no_binding 5 defineUnboundHeap (.Pair 0)
    (.Symbol "X".toList) (.Symbol "Y".toList) (.Pair 3) hr rfl (by decide)

/-!  Environment frames.  A frame is a cell `(parent . bindings)`; the
bindings are an association list of `(name . value)` pair cells.  The
representation predicate records the spine and binding-cell keys so that
mutation can be localised. -/

/-- The bindings list `e` consists of spine cells and binding-pair cells
(keys listed in `sk`, spine and binding interleaved) holding the
association list `al`. -/
inductive AlistRep (cs : List (Option CCell)) : Expr → List Nat → List (Expr × Expr) → Prop where
  | nil : AlistRep cs .Nil [] []
  | cons {ks kb : Nat} {rest : Expr} {ms mb : Bool} {n v : Expr} {sk : List Nat}
      {al : List (Expr × Expr)} :
      cellAt cs ks = some (.Pair kb, rest, ms) →
      cellAt cs kb = some (n, v, mb) →
      AlistRep cs rest sk al →
      AlistRep cs (.Pair ks) (ks :: kb :: sk) ((n, v) :: al)

theorem AlistRep_mono {cs cs' : List (Option CCell)} {bnd : Expr} {sk : List Nat}
    {al : List (Expr × Expr)} (hp : PreservesCells cs cs')
    (ha : AlistRep cs bnd sk al) : AlistRep cs' bnd sk al := by
  induction ha with
  | nil => exact .nil
  | cons hs hb _ ih => exact .cons (hp _ _ hs) (hp _ _ hb) ih

theorem AlistRep_keys_lt {cs : List (Option CCell)} {bnd : Expr} {sk : List Nat}
    {al : List (Expr × Expr)} (ha : AlistRep cs bnd sk al) :
    ∀ j ∈ sk, j < cs.length := by
  induction ha with
  | nil => intro j hj; simp at hj
  | @cons ks kb rest ms mb n v sk' al' hs hb _ ih =>
    intro j hj
    rcases List.mem_cons.mp hj with hj1 | hj2
    · exact hj1 ▸ cellAt_lt_length hs
    · rcases List.mem_cons.mp hj2 with hj3 | hj4
      · exact hj3 ▸ cellAt_lt_length hb
      · exact ih j hj4

theorem ne_of_not_mem_list {a b : Nat} {l : List Nat} (h : a ∉ l) (hb : b ∈ l) :
    a ≠ b := fun hx => h (hx.symm ▸ hb)

theorem AlistRep_mem_cell {cs : List (Option CCell)} {bnd : Expr} {sk : List Nat}
    {al : List (Expr × Expr)} (ha : AlistRep cs bnd sk al) :
    ∀ j ∈ sk, ∃ c, cellAt cs j = some c := by
  induction ha with
  | nil => intro j hj; simp at hj
  | @cons ks kb rest ms mb n v sk' al' hs hb _ ih =>
    intro j hj
    rcases List.mem_cons.mp hj with h1 | h2
    · exact ⟨_, h1 ▸ hs⟩
    · rcases List.mem_cons.mp h2 with h3 | h4
      · exact ⟨_, h3 ▸ hb⟩
      · exact ih j h4

theorem AlistRep_stable {cs cs' : List (Option CCell)} {bnd : Expr} {sk : List Nat}
    {al : List (Expr × Expr)}
    (heq : ∀ j ∈ sk, cellAt cs' j = cellAt cs j)
    (ha : AlistRep cs bnd sk al) : AlistRep cs' bnd sk al := by
  induction ha with
  | nil => exact .nil
  | @cons ks kb rest ms mb n v sk' al' hs hb _ ih =>
    have h1 : cellAt cs' ks = some (.Pair kb, rest, ms) := by
      rw [heq ks (by simp)]; exact hs
    have h2 : cellAt cs' kb = some (n, v, mb) := by
      rw [heq kb (by simp)]; exact hb
    exact .cons h1 h2 (ih fun j hj => heq j (by simp [hj]))

/-- Replacement of the first binding of a name in an association list
(no change when the name is absent). -/
def alReplace : List (Expr × Expr) → Expr → Expr → List (Expr × Expr)
  | [], _, _ => []
  | (k, w) :: t, n, v => if k = n then (k, v) :: t else (k, w) :: alReplace t n v

/-- Pure model of the bindings scan of `env_get`: first match wins. -/
def alLookup : List (Expr × Expr) → Expr → Option Expr
  | [], _ => none
  | (k, w) :: t, n => if k = n then some w else alLookup t n

/-- Pure model of `env_set` on the association list: replace the first
binding of the name in place when present, else prepend. -/
def alUpdate (al : List (Expr × Expr)) (n v : Expr) : List (Expr × Expr) :=
  if alLookup al n = none then (n, v) :: al else alReplace al n v

theorem envScan_rep {h : Heap} {bnd : Expr} {sk : List Nat} {al : List (Expr × Expr)}
    (ha : AlistRep h.cells bnd sk al) (name : Expr) :
    ∀ {fuel : Nat}, al.length < fuel →
      envScan h name fuel bnd = .ok (alLookup al name) := by
  induction ha with
  | nil =>
    intro fuel hf
    cases fuel with
    | zero => omega
    | succ f => simp [envScan, alLookup]
  | @cons ks kb rest ms mb n v sk' al' hs hb tl ih =>
    intro fuel hf
    cases fuel with
    | zero => omega
    | succ f =>
      have hfr : get_first_rest h (.Pair ks) = .ok (.Pair kb, rest) := by
        simp [get_first_rest, getFR, hs]
      have hfr2 : get_first_rest h (.Pair kb) = .ok (n, v) := by
        simp [get_first_rest, getFR, hb]
      have hgr : get_rest h (.Pair kb) = .ok v := by simp [get_rest, hb]
      by_cases hkn : n = name
      · subst hkn
        simp [envScan, hfr, hfr2, hgr, rbind, alLookup]
      · have hfb : al'.length < f := by simp only [List.length_cons] at hf; omega
        have ihf := ih hfb
        simp [envScan, hfr, hfr2, rbind, ihf, alLookup, hkn]

theorem envSetScan_rep {h : Heap} {bnd : Expr} {sk : List Nat} {al : List (Expr × Expr)}
    (ha : AlistRep h.cells bnd sk al) (hnd : sk.Nodup) (name val : Expr) :
    ∀ {fuel : Nat}, al.length < fuel →
      (alLookup al name = none ∧ envSetScan name val fuel h bnd = (.ok false, h)) ∨
      (∃ h', alLookup al name ≠ none ∧
        envSetScan name val fuel h bnd = (.ok true, h') ∧
        h'.symbols = h.symbols ∧ h'.root_env = h.root_env ∧
        h'.cells.length = h.cells.length ∧
        AlistRep h'.cells bnd sk (alReplace al name val) ∧
        (∀ k c, cellAt h.cells k = some c → k ∉ sk → cellAt h'.cells k = some c) ∧
        (∀ j ∈ sk, ∃ c, cellAt h'.cells j = some c)) := by
  induction ha with
  | nil =>
    intro fuel hf
    cases fuel with
    | zero => omega
    | succ f => exact .inl ⟨rfl, by simp [envSetScan]⟩
  | @cons ks kb rest ms mb n v sk' al' hs hb tl ih =>
    intro fuel hf
    cases fuel with
    | zero => omega
    | succ f =>
      have hfr : get_first_rest h (.Pair ks) = .ok (.Pair kb, rest) := by
        simp [get_first_rest, getFR, hs]
      have hfr2 : get_first_rest h (.Pair kb) = .ok (n, v) := by
        simp [get_first_rest, getFR, hb]
      have hndtail : sk'.Nodup := by
        simp only [List.nodup_cons] at hnd
        exact hnd.2.2
      have hkbnotin : kb ∉ sk' := by
        simp only [List.nodup_cons] at hnd
        exact hnd.2.1
      have hksne : ks ≠ kb ∧ ks ∉ sk' := by
        simp only [List.nodup_cons] at hnd
        exact ⟨fun hx => hnd.1 (by simp [hx]), fun hx => hnd.1 (by simp [hx])⟩
      by_cases hkn : n = name
      · subst hkn
        refine .inr ⟨{ h with cells := h.cells.set kb (some (n, val, mb)) }, ?_, ?_, rfl, rfl, ?_, ?_, ?_, ?_⟩
        · simp [alLookup]
        · simp [envSetScan, hfr, hfr2, set_rest, hb]
        · simp
        · have hset : cellAt (h.cells.set kb (some (n, val, mb))) kb = some (n, val, mb) :=
            cellAt_set_self _ _ (cellAt_lt_length hb) _
          have hsp : cellAt (h.cells.set kb (some (n, val, mb))) ks = some (.Pair kb, rest, ms) := by
            rw [cellAt_set_ne _ _ _ (fun hx => hksne.1 hx.symm)]
            exact hs
          have htl : AlistRep (h.cells.set kb (some (n, val, mb))) rest sk' al' := by
            refine AlistRep_stable (fun j hj => ?_) tl
            exact cellAt_set_ne _ _ _ (ne_of_not_mem_list hkbnotin hj) _
          simpa [alReplace] using AlistRep.cons hsp hset htl
        · intro k c hc hk
          rw [cellAt_set_ne _ _ _ (fun hx => hk (by rw [← hx]; simp))]
          exact hc
        · intro j hj
          by_cases hjkb : j = kb
          · subst hjkb
            exact ⟨_, cellAt_set_self _ _ (cellAt_lt_length hb) _⟩
          · rw [cellAt_set_ne _ _ _ (fun hx => hjkb hx.symm)]
            exact AlistRep_mem_cell (AlistRep.cons hs hb tl) j hj
      · have hfb : al'.length < f := by simp only [List.length_cons] at hf; omega
        have ihs := ih hndtail hfb
        rcases ihs with ⟨hnone, heq⟩ | ⟨h', hne, heq, hsym, hrenv, hlen, hrep, hpres, hex⟩
        · refine .inl ⟨?_, ?_⟩
          · simp [alLookup, hkn, hnone]
          · simp [envSetScan, hfr, hfr2, hkn, heq]
        · refine .inr ⟨h', ?_, ?_, hsym, hrenv, hlen, ?_, ?_, ?_⟩
          · simp [alLookup, hkn, hne]
          · simp [envSetScan, hfr, hfr2, hkn, heq]
          · have hsp : cellAt h'.cells ks = some (.Pair kb, rest, ms) :=
              hpres ks _ hs hksne.2
            have hbp : cellAt h'.cells kb = some (n, v, mb) :=
              hpres kb _ hb hkbnotin
            simpa [alReplace, hkn] using AlistRep.cons hsp hbp hrep
          · intro k c hc hk
            exact hpres k c hc (fun hx => hk (by simp [hx]))
          · intro j hj
            rcases List.mem_cons.mp hj with h1 | h2
            · exact ⟨_, h1 ▸ hpres ks _ hs hksne.2⟩
            · rcases List.mem_cons.mp h2 with h3 | h4
              · exact ⟨_, h3 ▸ hpres kb _ hb hkbnotin⟩
              · exact hex j h4

theorem HListRepK_stable {cs cs' : List (Option CCell)} {e : Expr} {xs : List Expr}
    {ks : List Nat} (heq : ∀ j ∈ ks, cellAt cs' j = cellAt cs j)
    (hr : HListRepK cs e xs ks) : HListRepK cs' e xs ks := by
  induction hr with
  | nil => exact .nil
  | @cons k x rest m xs' ks' hc _ ih =>
    have h1 : cellAt cs' k = some (x, rest, m) := by rw [heq k (by simp)]; exact hc
    exact .cons h1 (ih fun j hj => heq j (by simp [hj]))

theorem HListRepK_keys_lt {cs : List (Option CCell)} {e : Expr} {xs : List Expr}
    {ks : List Nat} (hr : HListRepK cs e xs ks) : ∀ j ∈ ks, j < cs.length := by
  induction hr with
  | nil => intro j hj; simp at hj
  | @cons k x rest m xs' ks' hc _ ih =>
    intro j hj
    rcases List.mem_cons.mp hj with h1 | h2
    · exact h1 ▸ cellAt_lt_length hc
    · exact ih j h2

theorem alReplace_length (al : List (Expr × Expr)) (n v : Expr) :
    (alReplace al n v).length = al.length := by
  induction al with
  | nil => rfl
  | cons p t ih =>
    obtain ⟨k, w⟩ := p
    by_cases hk : k = n
    · simp [alReplace, hk]
    · simp only [alReplace, if_neg hk, List.length_cons, ih]

theorem alUpdate_length_le (al : List (Expr × Expr)) (n v : Expr) :
    (alUpdate al n v).length ≤ al.length + 1 := by
  rw [alUpdate]
  by_cases hl : alLookup al n = none
  · simp [hl]
  · simp [hl, alReplace_length]

/-- Behaviour of `Heap::env_set` on a well-formed frame: success, with
the association list updated (replace-in-place or prepend), mutation
confined to the frame cell and its binding cells, and all new spine keys
fresh. -/
theorem env_set_rep {h : Heap} {L : Nat} {par bnd : Expr} {m : Bool} {sk : List Nat}
    {al : List (Expr × Expr)} (hc : cellAt h.cells L = some (par, bnd, m))
    (ha : AlistRep h.cells bnd sk al) (hnd : (L :: sk).Nodup)
    {name : Expr} (hname : name.is_symbol = true) (val : Expr)
    {fuel : Nat} (hfuel : al.length < fuel) :
    ∃ h' bnd' sk',
      env_set fuel h (.Pair L) name val = (.ok (), h') ∧
      h'.symbols = h.symbols ∧ h'.root_env = h.root_env ∧
      h.cells.length ≤ h'.cells.length ∧
      cellAt h'.cells L = some (par, bnd', m) ∧
      AlistRep h'.cells bnd' sk' (alUpdate al name val) ∧
      (L :: sk').Nodup ∧
      (∀ j ∈ sk', j ∈ sk ∨ h.cells.length ≤ j) ∧
      (∀ k c, cellAt h.cells k = some c → k ≠ L → k ∉ sk → cellAt h'.cells k = some c) := by
  cases name with
  | Symbol s =>
    have hfr : get_first_rest h (.Pair L) = .ok (par, bnd) := by
      simp [get_first_rest, getFR, hc]
    have hndsk : sk.Nodup := (List.nodup_cons.mp hnd).2
    have hLsk : L ∉ sk := (List.nodup_cons.mp hnd).1
    have hscan := envSetScan_rep ha hndsk (.Symbol s) val hfuel
    rcases hscan with ⟨hnone, heq⟩ | ⟨h1, hne, heq, hsym, hrenv, hlen, hrep, hpres, hex⟩
    · -- not found: prepend a fresh binding and rewrite the frame's rest
      have hLlt : L < h.cells.length := cellAt_lt_length hc
      have hpres2 : ∀ k c, cellAt h.cells k = some c →
          cellAt (h.cells ++ [some (Expr.Symbol s, val, false),
            some (Expr.Pair h.cells.length, bnd, false)]) k = some c := by
        intro k c hck
        rw [cellAt_append (cellAt_lt_length hck)]
        exact hck
      have hcellN : cellAt (h.cells ++ [some (Expr.Symbol s, val, false),
          some (Expr.Pair h.cells.length, bnd, false)]) h.cells.length =
          some (.Symbol s, val, false) := by
        simpa using cellAt_append_right h.cells
          [some (Expr.Symbol s, val, false), some (Expr.Pair h.cells.length, bnd, false)] 0
      have hcellN1 : cellAt (h.cells ++ [some (Expr.Symbol s, val, false),
          some (Expr.Pair h.cells.length, bnd, false)]) (h.cells.length + 1) =
          some (.Pair h.cells.length, bnd, false) := by
        simpa using cellAt_append_right h.cells
          [some (Expr.Symbol s, val, false), some (Expr.Pair h.cells.length, bnd, false)] 1
      have hout : ∀ k c, cellAt h.cells k = some c → k ≠ L →
          cellAt ((h.cells ++ [some (Expr.Symbol s, val, false),
            some (Expr.Pair h.cells.length, bnd, false)]).set L
              (some (par, Expr.Pair (h.cells.length + 1), m))) k = some c := by
        intro k c hck hkL
        rw [cellAt_set_ne _ _ _ (fun hx => hkL hx.symm)]
        exact hpres2 k c hck
      have hc3L : cellAt ((h.cells ++ [some (Expr.Symbol s, val, false),
          some (Expr.Pair h.cells.length, bnd, false)]).set L
            (some (par, Expr.Pair (h.cells.length + 1), m))) L =
          some (par, .Pair (h.cells.length + 1), m) := by
        refine cellAt_set_self _ _ (by simp; omega) _
      have hc3N : cellAt ((h.cells ++ [some (Expr.Symbol s, val, false),
          some (Expr.Pair h.cells.length, bnd, false)]).set L
            (some (par, Expr.Pair (h.cells.length + 1), m))) h.cells.length =
          some (.Symbol s, val, false) := by
        rw [cellAt_set_ne _ _ _ (by omega)]
        exact hcellN
      have hc3N1 : cellAt ((h.cells ++ [some (Expr.Symbol s, val, false),
          some (Expr.Pair h.cells.length, bnd, false)]).set L
            (some (par, Expr.Pair (h.cells.length + 1), m))) (h.cells.length + 1) =
          some (.Pair h.cells.length, bnd, false) := by
        rw [cellAt_set_ne _ _ _ (by omega)]
        exact hcellN1
      refine ⟨Heap.mk h.symbols h.root_env ((h.cells ++ [some (Expr.Symbol s, val, false),
          some (Expr.Pair h.cells.length, bnd, false)]).set L
            (some (par, Expr.Pair (h.cells.length + 1), m))),
        .Pair (h.cells.length + 1), (h.cells.length + 1) :: h.cells.length :: sk,
        ?_, rfl, rfl, ?_, hc3L, ?_, ?_, ?_, ?_⟩
      · have hcL2 : cellAt (h.cells ++ [some (Expr.Symbol s, val, false),
            some (Expr.Pair h.cells.length, bnd, false)]) L = some (par, bnd, m) :=
          hpres2 L _ hc
        simp only [env_set, is_pair_Pair, Bool.not_true, Bool.false_eq_true,
          if_false, hfr]
        rw [heq]
        simp [make_cons, set_rest, hcL2]
      · simp
      · have htl : AlistRep ((h.cells ++ [some (Expr.Symbol s, val, false),
            some (Expr.Pair h.cells.length, bnd, false)]).set L
              (some (par, Expr.Pair (h.cells.length + 1), m))) bnd sk al := by
          refine AlistRep_stable (fun j hj => ?_) ha
          obtain ⟨cj, hcj⟩ := AlistRep_mem_cell ha j hj
          rw [hout j cj hcj (ne_of_not_mem_list hLsk hj).symm, hcj]
        rw [show alUpdate al (Expr.Symbol s) val = (Expr.Symbol s, val) :: al from by simp [alUpdate, hnone]]
        exact .cons hc3N1 hc3N htl
      · have hsklt := AlistRep_keys_lt ha
        simp only [List.nodup_cons] at hnd ⊢
        refine ⟨?_, ?_, ?_, hnd.2⟩
        · intro hmem
          rcases List.mem_cons.mp hmem with h1' | h2'
          · omega
          · rcases List.mem_cons.mp h2' with h3' | h4'
            · omega
            · exact hnd.1 h4'
        · intro hmem
          rcases List.mem_cons.mp hmem with h1' | h2'
          · omega
          · have := hsklt _ h2'; omega
        · intro hmem
          have := hsklt _ hmem; omega
      · intro j hj
        rcases List.mem_cons.mp hj with h1' | h2'
        · right; omega
        · rcases List.mem_cons.mp h2' with h3' | h4'
          · right; omega
          · left; exact h4'
      · intro k c hck hkL hksk
        exact hout k c hck hkL

    · -- found: the scan already replaced the binding in place
      refine ⟨h1, bnd, sk, ?_, hsym, hrenv, by omega, ?_, ?_, hnd, fun j hj => .inl hj, ?_⟩
      · simp only [env_set, is_pair_Pair, Bool.not_true, Bool.false_eq_true, if_false, hfr]
        rw [heq]
      · rw [hpres L _ hc hLsk]
      · rw [alUpdate, if_neg hne]
        exact hrep
      · intro k c hck hkL hksk
        exact hpres k c hck hksk
  | Nil => simp [Expr.is_symbol] at hname
  | Boolean b => simp [Expr.is_symbol] at hname
  | Integer n => simp [Expr.is_symbol] at hname
  | Pair k => simp [Expr.is_symbol] at hname
  | Closure k => simp [Expr.is_symbol] at hname
  | Primitive d => simp [Expr.is_symbol] at hname

theorem HListRepK_cons_inv {cs : List (Option CCell)} {e x : Expr} {xs : List Expr}
    {ks : List Nat} (h : HListRepK cs e (x :: xs) ks) :
    ∃ k rest m ks', e = .Pair k ∧ ks = k :: ks' ∧
      cellAt cs k = some (x, rest, m) ∧ HListRepK cs rest xs ks' := by
  cases h with
  | cons hc tl => exact ⟨_, _, _, _, rfl, rfl, hc, tl⟩

theorem HListRepK_mem_cell {cs : List (Option CCell)} {e : Expr} {xs : List Expr}
    {ks : List Nat} (hr : HListRepK cs e xs ks) :
    ∀ j ∈ ks, ∃ c, cellAt cs j = some c := by
  induction hr with
  | nil => intro j hj; simp at hj
  | @cons k x rest m xs' ks' hc _ ih =>
    intro j hj
    rcases List.mem_cons.mp hj with h1 | h2
    · exact ⟨_, h1 ▸ hc⟩
    · exact ih j h2

/-- Behaviour of `Heap::env_get` when the frame's own bindings contain
the name: the first binding's value is returned. -/
theorem env_get_found {h : Heap} {L : Nat} {par bnd : Expr} {m : Bool} {sk : List Nat}
    {al : List (Expr × Expr)} (hc : cellAt h.cells L = some (par, bnd, m))
    (ha : AlistRep h.cells bnd sk al) {name : Expr} (hsym : name.is_symbol = true)
    {v : Expr} (hfound : alLookup al name = some v) {fuel : Nat}
    (hfuel : al.length < fuel + 1) :
    env_get h (fuel + 1) (.Pair L) name = .ok v := by
  cases name with
  | Symbol s =>
    have hfr : get_first_rest h (.Pair L) = .ok (par, bnd) := by
      simp [get_first_rest, getFR, hc]
    have hscan := envScan_rep ha (.Symbol s) hfuel
    simp [env_get, hfr, rbind, hscan, hfound]
  | Nil => simp [Expr.is_symbol] at hsym
  | Boolean b => simp [Expr.is_symbol] at hsym
  | Integer n => simp [Expr.is_symbol] at hsym
  | Pair k => simp [Expr.is_symbol] at hsym
  | Closure k => simp [Expr.is_symbol] at hsym
  | Primitive d => simp [Expr.is_symbol] at hsym

/-- Behaviour of the parameter-binding loop of `Heap::apply` on a
well-formed frame, parameter list (all symbols) and argument list of the
same length: success, with the frame's association list updated by the
lockstep `env_set` calls (a left fold of `alUpdate` over the zipped
pairs), mutation confined to the frame cell and its binding cells, and
all new spine keys fresh. -/
theorem bindLoop_rep :
    ∀ (ps : List Expr) {h : Heap} {psE : Expr} {pks : List Nat},
      HListRepK h.cells psE ps pks →
      ∀ {vsE : Expr} {vs : List Expr} {vks : List Nat},
      HListRepK h.cells vsE vs vks →
      (∀ p ∈ ps, p.is_symbol = true) → ps.length = vs.length →
      ∀ {L : Nat} {par bnd : Expr} {m : Bool} {sk : List Nat} {al : List (Expr × Expr)},
      cellAt h.cells L = some (par, bnd, m) →
      AlistRep h.cells bnd sk al → (L :: sk).Nodup →
      (∀ j ∈ L :: sk, j ∉ pks ∧ j ∉ vks) →
      ∀ {n fuel : Nat}, ps.length < n → al.length + ps.length < fuel →
      ∃ h' bnd' sk',
        bindLoop fuel n h (.Pair L) psE vsE = (.ok (), h') ∧
        h'.symbols = h.symbols ∧ h'.root_env = h.root_env ∧
        h.cells.length ≤ h'.cells.length ∧
        cellAt h'.cells L = some (par, bnd', m) ∧
        AlistRep h'.cells bnd' sk'
          ((ps.zip vs).foldl (fun a p => alUpdate a p.1 p.2) al) ∧
        (L :: sk').Nodup ∧
        (∀ j ∈ sk', j ∈ sk ∨ h.cells.length ≤ j) ∧
        (∀ k c, cellAt h.cells k = some c → k ≠ L → k ∉ sk →
          cellAt h'.cells k = some c) := by
  intro ps
  induction ps with
  | nil =>
    intro h psE pks hps vsE vs vks hvs hsym hlen L par bnd m sk al hc ha hnd hdisj n fuel hn hf
    cases hps
    cases vs with
    | cons v vs' => simp at hlen
    | nil =>
      cases hvs
      cases n with
      | zero => omega
      | succ n' =>
        refine ⟨h, bnd, sk, ?_, rfl, rfl, le_refl _, hc, ?_, hnd,
          fun j hj => .inl hj, fun k c hck _ _ => hck⟩
        · simp [bindLoop]
        · simpa using ha
  | cons p ps' ih =>
    intro h psE pks hps vsE vs vks hvs hsym hlen L par bnd m sk al hc ha hnd hdisj n fuel hn hf
    obtain ⟨pk, psE', mp, pks', rfl, rfl, hcp, tlp⟩ := HListRepK_cons_inv hps
    cases vs with
    | nil => simp at hlen
    | cons v vs' =>
      obtain ⟨vk, vsE', mv, vks'0, rfl, rfl, hcv, tlv⟩ := HListRepK_cons_inv hvs
      cases n with
      | zero => omega
      | succ n' =>
          have hgp : get_first h (.Pair pk) = .ok p := by simp [get_first, hcp]
          have hgv : get_first h (.Pair vk) = .ok v := by simp [get_first, hcv]
          have hpsym : p.is_symbol = true := hsym p (by simp)
          have hpkne : pk ≠ L := by
            intro hx
            exact (hdisj L (by simp)).1 (hx ▸ List.mem_cons_self pk pks')
          have hpknsk : pk ∉ sk := by
            intro hx
            exact (hdisj pk (by simp [hx])).1 (List.mem_cons_self pk pks')
          have hvkne : vk ≠ L := by
            intro hx
            exact (hdisj L (by simp)).2 (hx ▸ List.mem_cons_self vk vks'0)
          have hvknsk : vk ∉ sk := by
            intro hx
            exact (hdisj vk (by simp [hx])).2 (List.mem_cons_self vk vks'0)
          obtain ⟨h1, bnd1, sk1, heq1, hsy1, hre1, hln1, hcL1, harep1, hnd1,
            hskf1, hout1⟩ :=
            env_set_rep hc ha hnd hpsym v
              (show al.length < fuel by simp only [List.length_cons] at hf; omega)
          have hc1p : cellAt h1.cells pk = some (p, psE', mp) :=
            hout1 pk _ hcp hpkne hpknsk
          have hc1v : cellAt h1.cells vk = some (v, vsE', mv) :=
            hout1 vk _ hcv hvkne hvknsk
          have hg1p : get_rest h1 (.Pair pk) = .ok psE' := by simp [get_rest, hc1p]
          have hg1v : get_rest h1 (.Pair vk) = .ok vsE' := by simp [get_rest, hc1v]
          have hstab : ∀ (ks0 : List Nat), (∀ j ∈ ks0, j ∈ pks' ∨ j ∈ vks'0) →
              ∀ j ∈ ks0, cellAt h1.cells j = cellAt h.cells j := by
            intro ks0 hks0 j hj
            have hjne : j ≠ L ∧ j ∉ sk := by
              rcases hks0 j hj with hjp | hjv
              · constructor
                · intro hx
                  exact (hdisj L (by simp)).1 (hx ▸ (by simp [hjp]))
                · intro hx
                  exact (hdisj j (by simp [hx])).1 (by simp [hjp])
              · constructor
                · intro hx
                  exact (hdisj L (by simp)).2 (hx ▸ (by simp [hjv]))
                · intro hx
                  exact (hdisj j (by simp [hx])).2 (by simp [hjv])
            rcases hks0 j hj with hjp | hjv
            · obtain ⟨c0, hc0⟩ := HListRepK_mem_cell tlp j hjp
              rw [hout1 j c0 hc0 hjne.1 hjne.2, hc0]
            · obtain ⟨c0, hc0⟩ := HListRepK_mem_cell tlv j hjv
              rw [hout1 j c0 hc0 hjne.1 hjne.2, hc0]
          have htlp1 : HListRepK h1.cells psE' ps' pks' :=
            HListRepK_stable (hstab pks' (fun j hj => .inl hj)) tlp
          have htlv1 : HListRepK h1.cells vsE' vs' vks'0 :=
            HListRepK_stable (hstab vks'0 (fun j hj => .inr hj)) tlv
          have hdisj1 : ∀ j ∈ L :: sk1, j ∉ pks' ∧ j ∉ vks'0 := by
            intro j hj
            rcases List.mem_cons.mp hj with hjL | hjsk1
            · subst hjL
              exact ⟨fun hx => (hdisj j (by simp)).1 (by simp [hx]),
                fun hx => (hdisj j (by simp)).2 (by simp [hx])⟩
            · rcases hskf1 j hjsk1 with hjsk | hjfresh
              · exact ⟨fun hx => (hdisj j (by simp [hjsk])).1 (by simp [hx]),
                  fun hx => (hdisj j (by simp [hjsk])).2 (by simp [hx])⟩
              · constructor
                · intro hx
                  have := HListRepK_keys_lt tlp j hx
                  omega
                · intro hx
                  have := HListRepK_keys_lt tlv j hx
                  omega
          have hn2 : ps'.length < n' := by
            simp only [List.length_cons] at hn; omega
          have hfuel2 : (alUpdate al p v).length + ps'.length < fuel := by
            have hupd := alUpdate_length_le al p v
            simp only [List.length_cons] at hf
            omega
          obtain ⟨h2, bnd2, sk2, heq2, hsy2, hre2, hln2, hcL2, harep2, hnd2,
            hskf2, hout2⟩ :=
            ih htlp1 htlv1 (fun q hq => hsym q (by simp [hq]))
              (by simpa using hlen) hcL1 harep1 hnd1 hdisj1
              hn2 hfuel2
          refine ⟨h2, bnd2, sk2, ?_, hsy2.trans hsy1, hre2.trans hre1,
            le_trans hln1 hln2, hcL2, ?_, hnd2, ?_, ?_⟩
          · simp only [bindLoop, is_nil_Pair, Bool.false_eq_true, if_false,
              hgp, hgv, heq1, hg1p, hg1v]
            exact heq2
          · simpa using harep2
          · intro j hj
            rcases hskf2 j hj with hjsk1 | hjf
            · rcases hskf1 j hjsk1 with hjs | hjf'
              · exact .inl hjs
              · exact .inr hjf'
            · exact .inr (le_trans hln1 hjf)
          · intro k c hck hkL hksk
            have hk1 : cellAt h1.cells k = some c := hout1 k c hck hkL hksk
            have hknsk1 : k ∉ sk1 := by
              intro hx
              rcases hskf1 k hx with hks | hkf
              · exact hksk hks
              · have := cellAt_lt_length hck
                omega
            exact hout2 k c hk1 hkL hknsk1

/-!  Pure association-list lemmas for the lockstep binding loop. -/

theorem alLookup_alReplace (al : List (Expr × Expr)) (n v q : Expr)
    (hfound : alLookup al n ≠ none) :
    alLookup (alReplace al n v) q = if q = n then some v else alLookup al q := by
  induction al with
  | nil => simp [alLookup] at hfound
  | cons p t ih =>
    obtain ⟨k, w⟩ := p
    by_cases hk : k = n
    · subst hk
      by_cases hq : q = k
      · subst hq
        simp [alReplace, alLookup]
      · have hkq : ¬ k = q := fun hx => hq hx.symm
        simp [alReplace, alLookup, hq, hkq]
    · have hfound' : alLookup t n ≠ none := by
        simpa [alLookup, hk] using hfound
      by_cases hq : k = q
      · have hqn : ¬ (q = n) := fun hx => hk (hq.trans hx)
        simp [alReplace, hk, alLookup, hq, hqn]
      · simp [alReplace, hk, alLookup, hq, ih hfound']

theorem alLookup_alUpdate (al : List (Expr × Expr)) (n v q : Expr) :
    alLookup (alUpdate al n v) q = if q = n then some v else alLookup al q := by
  rw [alUpdate]
  by_cases hl : alLookup al n = none
  · rw [if_pos hl]
    by_cases hq : q = n
    · subst hq; simp [alLookup]
    · have hnq : ¬ n = q := fun hx => hq hx.symm
      simp [alLookup, hnq, hq]
  · rw [if_neg hl]
    exact alLookup_alReplace al n v q hl

theorem list_find?_append {α : Type} (p : α → Bool) :
    ∀ xs ys : List α, List.find? p (xs ++ ys) =
      match List.find? p xs with
      | some a => some a
      | none => List.find? p ys := by
  intro xs ys
  induction xs with
  | nil => simp
  | cons x t ih =>
    by_cases hx : p x
    · simp [List.find?, hx]
    · simp only [List.cons_append, List.find?, hx]
      exact ih

/-- The value bound by the last occurrence of a name in a zipped
parameter/argument sequence. -/
def lastBind (l : List (Expr × Expr)) (q : Expr) : Option Expr :=
  (l.reverse.find? fun p => decide (p.1 = q)).map Prod.snd

theorem alLookup_foldl_update :
    ∀ (l : List (Expr × Expr)) (al : List (Expr × Expr)) (q : Expr),
      alLookup (l.foldl (fun a p => alUpdate a p.1 p.2) al) q =
        match lastBind l q with
        | some v => some v
        | none => alLookup al q := by
  intro l
  induction l with
  | nil => intro al q; simp [lastBind]
  | cons p l' ih =>
    intro al q
    rw [List.foldl_cons, ih]
    have hsplit : lastBind (p :: l') q =
        match lastBind l' q with
        | some v => some v
        | none => if p.1 = q then some p.2 else none := by
      rw [lastBind, lastBind, List.reverse_cons,
        list_find?_append (fun r => decide (r.1 = q)) l'.reverse [p]]
      cases hfind : List.find? (fun r => decide (r.1 = q)) l'.reverse with
      | some r => simp
      | none =>
        by_cases hp : p.1 = q
        · simp [List.find?, hp]
        · simp [List.find?, hp]
    rw [hsplit]
    cases hlast : lastBind l' q with
    | some v => simp
    | none =>
      rw [alLookup_alUpdate]
      by_cases hq : q = p.1
      · rw [if_pos hq, if_pos hq.symm]
      · rw [if_neg hq, if_neg (fun hx : p.1 = q => hq hx.symm)]

theorem foldl_update_length_le :
    ∀ (l : List (Expr × Expr)) (al : List (Expr × Expr)),
      ((l.foldl (fun a p => alUpdate a p.1 p.2) al)).length ≤ al.length + l.length := by
  intro l
  induction l with
  | nil => intro al; simp
  | cons p l' ih =>
    intro al
    rw [List.foldl_cons]
    have h1 := ih (alUpdate al p.1 p.2)
    have h2 := alUpdate_length_le al p.1 p.2
    simp only [List.length_cons]
    omega

theorem lastBind_isSome {l : List (Expr × Expr)} {q : Expr}
    (hmem : q ∈ l.map Prod.fst) : ∃ v, lastBind l q = some v := by
  obtain ⟨p, hp, hq⟩ := List.mem_map.mp hmem
  have hrev : p ∈ l.reverse := List.mem_reverse.mpr hp
  have : (List.find? (fun r => decide (r.1 = q)) l.reverse).isSome := by
    rw [List.find?_isSome]
    exact ⟨p, hrev, by simp [hq]⟩
  obtain ⟨r, hr⟩ := Option.isSome_iff_exists.mp this
  exact ⟨r.2, by rw [lastBind, hr]; rfl⟩

/-!  Claim C10: duplicate parameter names. -/

/-- Claim C10.  Applying a closure whose parameter list repeats a symbol
to a matching-length argument list succeeds; the lockstep `env_set`
calls make each later binding overwrite the earlier one in the same
fresh frame, so the symbol is bound to the argument at its last
occurrence, and a body consisting of that symbol returns exactly that
value. -/
theorem c10_duplicate_params (fuel : Nat) (h : Heap) (ck ki kb : Nat)
    (envc paramsE argsE : Expr) (mc mi mb : Bool) (ps vs : List Expr)
    (pks vks : List Nat) (s : List Char)
    (hck : cellAt h.cells ck = some (envc, .Pair ki, mc))
    (hki : cellAt h.cells ki = some (paramsE, .Pair kb, mi))
    (hkb : cellAt h.cells kb = some (.Symbol s, .Nil, mb))
    (hps : HListRepK h.cells paramsE ps pks)
    (hvs : HListRepK h.cells argsE vs vks)
    (hsym : ∀ p ∈ ps, p.is_symbol = true)
    (hlen : ps.length = vs.length)
    (hdup : 2 ≤ (ps.filter fun p => decide (p = .Symbol s)).length)
    (hfuel : ps.length + 2 ≤ fuel) :
    ∃ v h', lastBind (ps.zip vs) (.Symbol s) = some v ∧
      applyFn (fuel + 1) h (.Closure ck) argsE = (.ok v, h') := by
  obtain ⟨g, rfl⟩ : ∃ g, fuel = g + 2 := ⟨fuel - 2, by omega⟩
  have hpsg : ps.length ≤ g := by omega
  have hckn : ck < h.cells.length := cellAt_lt_length hck
  have hkin : ki < h.cells.length := cellAt_lt_length hki
  have hkbn : kb < h.cells.length := cellAt_lt_length hkb
  -- the fresh frame
  have hpres1 : PreservesCells h.cells
      (h.cells ++ [some (envc, .Nil, false)]) :=
    preservesCells_append _ _
  have hps1 : HListRepK (h.cells ++ [some (envc, .Nil, false)]) paramsE ps pks :=
    HListRepK_mono hpres1 hps
  have hvs1 : HListRepK (h.cells ++ [some (envc, .Nil, false)]) argsE vs vks :=
    HListRepK_mono hpres1 hvs
  have hcN : cellAt (h.cells ++ [some (envc, .Nil, false)]) h.cells.length =
      some (envc, .Nil, false) := cellAt_append_self _ _
  have hdisjN : ∀ j ∈ [h.cells.length], j ∉ pks ∧ j ∉ vks := by
    intro j hj
    have hjN : j = h.cells.length := by simpa using hj
    subst hjN
    constructor
    · intro hx; have := HListRepK_keys_lt hps _ hx; omega
    · intro hx; have := HListRepK_keys_lt hvs _ hx; omega
  have hbn : ps.length < g + 3 := by omega
  have hbf : ([] : List (Expr × Expr)).length + ps.length < g + 3 := by simp; omega
  obtain ⟨h2, bnd2, sk2, heqB, hsy2, hre2, hln2, hcL2, harep2, hnd2, hskf2, hout2⟩ :=
    bindLoop_rep ps (h := { h with cells := h.cells ++ [some (envc, .Nil, false)] })
      hps1 hvs1 hsym hlen hcN .nil (by simp) hdisjN hbn hbf
  -- old cells survive frame creation and binding
  have hsurv : ∀ k c, cellAt h.cells k = some c → cellAt h2.cells k = some c := by
    intro k c hkc
    have hklt := cellAt_lt_length hkc
    exact hout2 k c (hpres1 k c hkc) (by omega) (by simp)
  have hck2 : cellAt h2.cells ck = some (envc, .Pair ki, mc) := hsurv ck _ hck
  have hki2 : cellAt h2.cells ki = some (paramsE, .Pair kb, mi) := hsurv ki _ hki
  have hkb2 : cellAt h2.cells kb = some (.Symbol s, .Nil, mb) := hsurv kb _ hkb
  -- the looked-up value
  have hmem : (Expr.Symbol s) ∈ ps := by
    rcases hfl : ps.filter (fun p => decide (p = .Symbol s)) with _ | ⟨x, t⟩
    · rw [hfl] at hdup; simp at hdup
    · have hx : x ∈ ps.filter (fun p => decide (p = .Symbol s)) := by
        rw [hfl]; simp
      have := List.of_mem_filter hx
      have hxe : x = .Symbol s := by simpa using this
      exact hxe ▸ List.mem_of_mem_filter hx
  have hmem2 : (Expr.Symbol s) ∈ (ps.zip vs).map Prod.fst := by
    rw [List.map_fst_zip ps vs (le_of_eq hlen)]
    exact hmem
  obtain ⟨v, hv⟩ := lastBind_isSome hmem2
  have hlook : alLookup ((ps.zip vs).foldl (fun a p => alUpdate a p.1 p.2) [])
      (.Symbol s) = some v := by
    rw [alLookup_foldl_update, hv]
  have halen : ((ps.zip vs).foldl (fun a p => alUpdate a p.1 p.2) []).length < g + 1 := by
    have h1 := foldl_update_length_le (ps.zip vs) []
    simp only [List.length_nil, Nat.zero_add] at h1
    have hzl : (ps.zip vs).length = ps.length := by
      rw [List.length_zip, hlen]
      exact Nat.min_self _
    omega
  have hsymS : (Expr.Symbol s).is_symbol = true := rfl
  have henvget : env_get h2 (g + 1) (.Pair h.cells.length) (.Symbol s) = .ok v :=
    env_get_found hcL2 harep2 hsymS hlook halen
  have heval : evalIn (g + 1) h2 (.Pair h.cells.length) (.Symbol s) = (.ok v, h2) := by
    simp [evalIn, henvget]
  have hbody : evalBody (g + 2) h2 (.Pair h.cells.length) (.Pair kb) .Nil =
      (.ok v, h2) := by
    have hgf : get_first h2 (.Pair kb) = .ok (.Symbol s) := by simp [get_first, hkb2]
    have hgr : get_rest h2 (.Pair kb) = .ok .Nil := by simp [get_rest, hkb2]
    simp [evalBody, hgf, hgr, heval]
  have hle : get_lambda_env h (.Closure ck) = .ok envc := by
    simp [get_lambda_env, hck]
  have hc1ck : cellAt (h.cells ++ [some (envc, .Nil, false)]) ck =
      some (envc, .Pair ki, mc) := hpres1 ck _ hck
  have hc1ki : cellAt (h.cells ++ [some (envc, .Nil, false)]) ki =
      some (paramsE, .Pair kb, mi) := hpres1 ki _ hki
  have hla : get_lambda_args { h with cells := h.cells ++ [some (envc, .Nil, false)] }
      (.Closure ck) = .ok paramsE := by
    simp [get_lambda_args, hc1ck, get_first, hc1ki]
  have hlb : get_lambda_body h2 (.Closure ck) = .ok (.Pair kb) := by
    simp [get_lambda_body, hck2, get_rest, hki2]
  refine ⟨v, h2, hv, ?_⟩
  simp only [applyFn, hle, make_env, make_cons]
  simp only [hla, heqB, hlb, hbody]

/-!  Write confinement of evaluation.  Evaluation with a current frame
mutates only that frame's cell, its binding cells, and freshly allocated
cells; every other live cell (below a protection boundary `N`) is left
intact.  This is the key fact behind the stability of a closure's body
cells during the evaluation of earlier body forms. -/

/-- Frame-confinement record: running some step from `h` to `h'` with
current frame cell `L` kept the heap fields, grew the arena, kept the
frame cell (same parent and mark) with possibly new bindings `bnd'`
(represented by `sk'`, `al'`), introduced only fresh spine keys, and
preserved every live cell below `N` outside the frame's own cells. -/
def FCB (N : Nat) (h h' : Heap) (L : Nat) (par : Expr) (m : Bool) (sk : List Nat)
    (bnd' : Expr) (sk' : List Nat) (al' : List (Expr × Expr)) : Prop :=
  h'.symbols = h.symbols ∧ h'.root_env = h.root_env ∧
  h.cells.length ≤ h'.cells.length ∧
  cellAt h'.cells L = some (par, bnd', m) ∧
  AlistRep h'.cells bnd' sk' al' ∧
  (L :: sk').Nodup ∧
  (∀ j ∈ sk', j ∈ sk ∨ h.cells.length ≤ j) ∧
  (∀ k c, cellAt h.cells k = some c → k < N → k ≠ L → k ∉ sk →
    cellAt h'.cells k = some c)

theorem FCB_refl {N : Nat} {h : Heap} {L : Nat} {par bnd : Expr} {m : Bool}
    {sk : List Nat} {al : List (Expr × Expr)}
    (hc : cellAt h.cells L = some (par, bnd, m))
    (ha : AlistRep h.cells bnd sk al) (hnd : (L :: sk).Nodup) :
    FCB N h h L par m sk bnd sk al :=
  ⟨rfl, rfl, le_refl _, hc, ha, hnd, fun j hj => .inl hj,
    fun _ _ hck _ _ _ => hck⟩

theorem FCB_trans {N : Nat} {h h1 h2 : Heap} {L : Nat} {par : Expr} {m : Bool}
    {sk sk1 sk2 : List Nat} {bnd1 bnd2 : Expr} {al1 al2 : List (Expr × Expr)}
    (hN : N ≤ h.cells.length)
    (f1 : FCB N h h1 L par m sk bnd1 sk1 al1)
    (f2 : FCB N h1 h2 L par m sk1 bnd2 sk2 al2) :
    FCB N h h2 L par m sk bnd2 sk2 al2 := by
  obtain ⟨s1, r1, l1, c1, a1, n1, e1, p1⟩ := f1
  obtain ⟨s2, r2, l2, c2, a2, n2, e2, p2⟩ := f2
  refine ⟨s2.trans s1, r2.trans r1, le_trans l1 l2, c2, a2, n2, ?_, ?_⟩
  · intro j hj
    rcases e2 j hj with hjs | hjf
    · rcases e1 j hjs with hjs' | hjf'
      · exact .inl hjs'
      · exact .inr hjf'
    · exact .inr (le_trans l1 hjf)
  · intro k c hck hkN hkL hksk
    have hk1 : cellAt h1.cells k = some c := p1 k c hck hkN hkL hksk
    have hknsk1 : k ∉ sk1 := by
      intro hx
      rcases e1 k hx with hks | hkf
      · exact hksk hks
      · have := cellAt_lt_length hck
        omega
    exact p2 k c hk1 hkN hkL hknsk1

/-- A step that preserves every live cell unconditionally (only
allocations) yields frame confinement with unchanged bindings. -/
theorem FCB_of_preserveAll {N : Nat} {h h' : Heap} {L : Nat} {par bnd : Expr}
    {m : Bool} {sk : List Nat} {al : List (Expr × Expr)}
    (hc : cellAt h.cells L = some (par, bnd, m))
    (ha : AlistRep h.cells bnd sk al) (hnd : (L :: sk).Nodup)
    (hs : h'.symbols = h.symbols) (hr : h'.root_env = h.root_env)
    (hl : h.cells.length ≤ h'.cells.length)
    (hp : ∀ k c, cellAt h.cells k = some c → cellAt h'.cells k = some c) :
    FCB N h h' L par m sk bnd sk al :=
  ⟨hs, hr, hl, hp _ _ hc, AlistRep_mono hp ha, hnd, fun j hj => .inl hj,
    fun k c hck _ _ _ => hp k c hck⟩

/-- `make_closure` never mutates an existing cell. -/
theorem make_closure_preserves {fuel : Nat} {h : Heap} {env al body : Expr}
    {st : Res Expr} {h' : Heap}
    (heq : make_closure fuel h env al body = (st, h')) :
    h'.symbols = h.symbols ∧ h'.root_env = h.root_env ∧
    h.cells.length ≤ h'.cells.length ∧
    (∀ k c, cellAt h.cells k = some c → cellAt h'.cells k = some c) := by
  rw [make_closure] at heq
  rcases hpc : paramCheck h fuel al with _ | er
  · rw [hpc] at heq
    simp only [make_cons] at heq
    obtain ⟨rfl, rfl⟩ : st = _ ∧ h' = _ := by
      constructor
      · exact (Prod.mk.injEq .. ▸ heq).1.symm
      · exact (Prod.mk.injEq .. ▸ heq).2.symm
    refine ⟨rfl, rfl, by simp, ?_⟩
    intro k c hck
    have h1 : k < h.cells.length := cellAt_lt_length hck
    rw [cellAt_append (by simp; omega), cellAt_append h1]
    exact hck
  · rw [hpc] at heq
    obtain ⟨rfl, rfl⟩ : st = .err er ∧ h' = h := by
      constructor
      · exact (Prod.mk.injEq .. ▸ heq).1.symm
      · exact (Prod.mk.injEq .. ▸ heq).2.symm
    exact ⟨rfl, rfl, le_refl _, fun _ _ hck => hck⟩
  · rw [hpc] at heq
    obtain ⟨rfl, rfl⟩ : st = .oof ∧ h' = h := by
      constructor
      · exact (Prod.mk.injEq .. ▸ heq).1.symm
      · exact (Prod.mk.injEq .. ▸ heq).2.symm
    exact ⟨rfl, rfl, le_refl _, fun _ _ hck => hck⟩
  · rw [hpc] at heq
    obtain ⟨rfl, rfl⟩ : st = .bug ∧ h' = h := by
      constructor
      · exact (Prod.mk.injEq .. ▸ heq).1.symm
      · exact (Prod.mk.injEq .. ▸ heq).2.symm
    exact ⟨rfl, rfl, le_refl _, fun _ _ hck => hck⟩

/-- Primitives never mutate an existing cell (only `cons` allocates). -/
theorem primApply_preserves {fuel : Nat} {name : List Char} {h : Heap}
    {args : Expr} {st : Res Expr} {h' : Heap}
    (heq : primApply fuel name h args = (st, h')) :
    h'.symbols = h.symbols ∧ h'.root_env = h.root_env ∧
    h.cells.length ≤ h'.cells.length ∧
    (∀ k c, cellAt h.cells k = some c → cellAt h'.cells k = some c) := by
  have hido : ∀ (x : Res Expr), (x, h) = (st, h') →
      h'.symbols = h.symbols ∧ h'.root_env = h.root_env ∧
      h.cells.length ≤ h'.cells.length ∧
      (∀ k c, cellAt h.cells k = some c → cellAt h'.cells k = some c) := by
    intro x hx
    obtain ⟨-, rfl⟩ : x = st ∧ h = h' := Prod.mk.injEq .. ▸ hx
    exact ⟨rfl, rfl, le_refl _, fun _ _ hck => hck⟩
  delta primApply at heq
  by_cases h1 : name = "first".toList
  · rw [if_pos h1] at heq; exact hido _ heq
  rw [if_neg h1] at heq
  by_cases h2 : name = "rest".toList
  · rw [if_pos h2] at heq; exact hido _ heq
  rw [if_neg h2] at heq
  by_cases h3 : name = "list?".toList
  · rw [if_pos h3] at heq; exact hido _ heq
  rw [if_neg h3] at heq
  by_cases h4 : name = "cons".toList
  · rw [if_pos h4] at heq
    rw [prim_cons] at heq
    split at heq
    · split at heq
      · split at heq
        · simp only [make_cons] at heq
          obtain ⟨-, rfl⟩ : _ ∧ h' = _ := by
            constructor
            · exact (Prod.mk.injEq .. ▸ heq).1.symm
            · exact (Prod.mk.injEq .. ▸ heq).2.symm
          refine ⟨rfl, rfl, by simp, ?_⟩
          intro k c hck
          rw [cellAt_append (cellAt_lt_length hck)]
          exact hck
        · exact hido _ heq
        · exact hido _ heq
        · exact hido _ heq
      · exact hido _ heq
      · exact hido _ heq
      · exact hido _ heq
    · exact hido _ heq
    · exact hido _ heq
    · exact hido _ heq
  rw [if_neg h4] at heq
  by_cases h5 : name = "+".toList
  · rw [if_pos h5] at heq; exact hido _ heq
  rw [if_neg h5] at heq
  by_cases h6 : name = "-".toList
  · rw [if_pos h6] at heq; exact hido _ heq
  rw [if_neg h6] at heq
  by_cases h7 : name = "*".toList
  · rw [if_pos h7] at heq; exact hido _ heq
  rw [if_neg h7] at heq
  by_cases h8 : name = "/".toList
  · rw [if_pos h8] at heq; exact hido _ heq
  rw [if_neg h8] at heq
  by_cases h9 : name = "=".toList
  · rw [if_pos h9] at heq; exact hido _ heq
  rw [if_neg h9] at heq
  by_cases h10 : name = "<".toList
  · rw [if_pos h10] at heq; exact hido _ heq
  rw [if_neg h10] at heq
  by_cases h11 : name = "<=".toList
  · rw [if_pos h11] at heq; exact hido _ heq
  rw [if_neg h11] at heq
  by_cases h12 : name = ">".toList
  · rw [if_pos h12] at heq; exact hido _ heq
  rw [if_neg h12] at heq
  by_cases h13 : name = ">=".toList
  · rw [if_pos h13] at heq; exact hido _ heq
  rw [if_neg h13] at heq
  exact hido _ heq

/-- Any outcome of the `env_set` bindings scan keeps the heap fields and
arena size, keeps the spine shape of the frame bindings (with a possibly
updated association list), and preserves every cell outside the spine. -/
theorem envSetScan_confine {h : Heap} {bnd : Expr} {sk : List Nat}
    {al : List (Expr × Expr)} (ha : AlistRep h.cells bnd sk al) (hnd : sk.Nodup)
    (name val : Expr) :
    ∀ {fuel : Nat} {st : Res Bool} {h' : Heap},
      envSetScan name val fuel h bnd = (st, h') →
      ∃ al', h'.symbols = h.symbols ∧ h'.root_env = h.root_env ∧
        h'.cells.length = h.cells.length ∧
        AlistRep h'.cells bnd sk al' ∧
        (∀ k c, cellAt h.cells k = some c → k ∉ sk → cellAt h'.cells k = some c) := by
  induction ha with
  | nil =>
    intro fuel st h' heq
    cases fuel with
    | zero =>
      simp only [envSetScan] at heq
      cases heq
      exact ⟨[], rfl, rfl, rfl, .nil, fun _ _ hck _ => hck⟩
    | succ f =>
      simp only [envSetScan, is_nil_Nil, if_true] at heq
      cases heq
      exact ⟨[], rfl, rfl, rfl, .nil, fun _ _ hck _ => hck⟩
  | @cons ks kb rest ms mb n v sk' al' hs hb tl ih =>
    intro fuel st h' heq
    have hndtail : sk'.Nodup := by
      simp only [List.nodup_cons] at hnd
      exact hnd.2.2
    have hkbnotin : kb ∉ sk' := by
      simp only [List.nodup_cons] at hnd
      exact hnd.2.1
    have hksne : ks ≠ kb ∧ ks ∉ sk' := by
      simp only [List.nodup_cons] at hnd
      exact ⟨fun hx => hnd.1 (by simp [hx]), fun hx => hnd.1 (by simp [hx])⟩
    cases fuel with
    | zero =>
      simp only [envSetScan] at heq
      cases heq
      exact ⟨(n, v) :: al', rfl, rfl, rfl, .cons hs hb tl, fun _ _ hck _ => hck⟩
    | succ f =>
      have hfr : get_first_rest h (.Pair ks) = .ok (.Pair kb, rest) := by
        simp [get_first_rest, getFR, hs]
      have hfr2 : get_first_rest h (.Pair kb) = .ok (n, v) := by
        simp [get_first_rest, getFR, hb]
      by_cases hkn : n = name
      · subst hkn
        simp only [envSetScan, is_nil_Pair, Bool.false_eq_true, if_false, hfr,
          hfr2, is_pair_Pair, if_true, set_rest, hb] at heq
        cases heq
        refine ⟨(n, val) :: al', rfl, rfl, by simp, ?_, ?_⟩
        · have hset : cellAt (h.cells.set kb (some (n, val, mb))) kb =
              some (n, val, mb) :=
            cellAt_set_self _ _ (cellAt_lt_length hb) _
          have hsp : cellAt (h.cells.set kb (some (n, val, mb))) ks =
              some (.Pair kb, rest, ms) := by
            rw [cellAt_set_ne _ _ _ (fun hx => hksne.1 hx.symm)]
            exact hs
          have htl : AlistRep (h.cells.set kb (some (n, val, mb))) rest sk' al' := by
            refine AlistRep_stable (fun j hj => ?_) tl
            exact cellAt_set_ne _ _ _ (ne_of_not_mem_list hkbnotin hj) _
          exact AlistRep.cons hsp hset htl
        · intro k c hck hk
          rw [cellAt_set_ne _ _ _ (fun hx => hk (by rw [← hx]; simp))]
          exact hck
      · simp only [envSetScan, is_nil_Pair, Bool.false_eq_true, if_false, hfr,
          hfr2, is_pair_Pair, if_true, hkn, if_neg] at heq
        obtain ⟨al'', hsy, hre, hln, hrep, hpres⟩ := ih hndtail heq
        refine ⟨(n, v) :: al'', hsy, hre, hln, ?_, ?_⟩
        · have hsp : cellAt h'.cells ks = some (.Pair kb, rest, ms) :=
            hpres ks _ hs hksne.2
          have hbp : cellAt h'.cells kb = some (n, v, mb) :=
            hpres kb _ hb hkbnotin
          exact AlistRep.cons hsp hbp hrep
        · intro k c hck hk
          exact hpres k c hck (fun hx => hk (by simp [hx]))

/-- Any outcome of `Heap::env_set` on a well-formed frame is frame
confined: only the frame cell, its binding cells, and fresh cells can
change. -/
theorem env_set_confine {N : Nat} {h : Heap} {L : Nat} {par bnd : Expr} {m : Bool}
    {sk : List Nat} {al : List (Expr × Expr)}
    (hc : cellAt h.cells L = some (par, bnd, m))
    (ha : AlistRep h.cells bnd sk al) (hnd : (L :: sk).Nodup)
    {fuel : Nat} {name val : Expr} {st : Res Unit} {h' : Heap}
    (heq : env_set fuel h (.Pair L) name val = (st, h')) :
    ∃ bnd' sk' al', FCB N h h' L par m sk bnd' sk' al' := by
  have hndsk : sk.Nodup := (List.nodup_cons.mp hnd).2
  have hLsk : L ∉ sk := (List.nodup_cons.mp hnd).1
  have hfr : get_first_rest h (.Pair L) = .ok (par, bnd) := by
    simp [get_first_rest, getFR, hc]
  rw [env_set] at heq
  simp only [is_pair_Pair, Bool.not_true, Bool.false_eq_true, if_false, hfr] at heq
  cases name with
  | Symbol s =>
    rcases hscan : envSetScan (.Symbol s) val fuel h bnd with ⟨st0, h0⟩
    obtain ⟨al0, hsy0, hre0, hln0, hrep0, hpres0⟩ :=
      envSetScan_confine ha hndsk (.Symbol s) val hscan
    have hcL0 : cellAt h0.cells L = some (par, bnd, m) := hpres0 L _ hc hLsk
    rw [hscan] at heq
    cases st0 with
    | ok b =>
      cases b with
      | true =>
        cases heq
        exact ⟨bnd, sk, al0, hsy0, hre0, le_of_eq hln0.symm, hcL0, hrep0,
          hnd, fun j hj => .inl hj, fun k c hck _ _ hksk => hpres0 k c hck hksk⟩
      | false =>
        simp only [make_cons] at heq
        have hL0lt : L < h0.cells.length := cellAt_lt_length hcL0
        have hcL2 : cellAt (h0.cells ++ [some (Expr.Symbol s, val, false)] ++
            [some (Expr.Pair h0.cells.length, bnd, false)]) L = some (par, bnd, m) := by
          rw [cellAt_append (by simp; omega)]
          rw [cellAt_append hL0lt]
          exact hcL0
        simp only [set_rest, List.length_append, List.length_cons,
          List.length_nil, hcL2] at heq
        cases heq
        have hsklt : ∀ j ∈ sk, j < h.cells.length := AlistRep_keys_lt ha
        have hLlt : L < h.cells.length := cellAt_lt_length hc
        refine ⟨.Pair (h0.cells.length + 1),
          (h0.cells.length + 1) :: h0.cells.length :: sk,
          (.Symbol s, val) :: al0, hsy0, hre0, ?_, ?_, ?_, ?_, ?_, ?_⟩
        · simp; omega
        · have := cellAt_set_self (h0.cells ++ [some (Expr.Symbol s, val, false)] ++
              [some (Expr.Pair h0.cells.length, bnd, false)]) L (by simp; omega)
            (some (par, Expr.Pair (h0.cells.length + 1), m))
          simpa using this
        · have hLne1 : L ≠ h0.cells.length + 1 := by omega
          have hLne0 : L ≠ h0.cells.length := by omega
          have hc1 : cellAt ((h0.cells ++ [some (Expr.Symbol s, val, false)] ++
              [some (Expr.Pair h0.cells.length, bnd, false)]).set L
                (some (par, Expr.Pair (h0.cells.length + 1), m)))
              (h0.cells.length + 1) = some (Expr.Pair h0.cells.length, bnd, false) := by
            rw [cellAt_set_ne _ _ _ hLne1]
            have : h0.cells.length + 1 =
                (h0.cells ++ [some (Expr.Symbol s, val, false)]).length := by simp
            rw [this, cellAt_append_self]
          have hc2 : cellAt ((h0.cells ++ [some (Expr.Symbol s, val, false)] ++
              [some (Expr.Pair h0.cells.length, bnd, false)]).set L
                (some (par, Expr.Pair (h0.cells.length + 1), m)))
              h0.cells.length = some (Expr.Symbol s, val, false) := by
            rw [cellAt_set_ne _ _ _ hLne0]
            rw [cellAt_append (by simp)]
            rw [cellAt_append_self]
          refine AlistRep.cons hc1 hc2 ?_
          have hrep1 : AlistRep (h0.cells ++ [some (Expr.Symbol s, val, false)] ++
              [some (Expr.Pair h0.cells.length, bnd, false)]) bnd sk al0 :=
            AlistRep_mono (fun k c hck => by
              rw [cellAt_append (by
                have := cellAt_lt_length hck
                simp; omega)]
              rw [cellAt_append (cellAt_lt_length hck)]
              exact hck) hrep0
          refine AlistRep_stable (fun j hj => ?_) hrep1
          exact cellAt_set_ne _ _ _ (fun hx => hLsk (by rw [hx]; exact hj)) _
        · have hm1 : h0.cells.length ∉ sk := fun hx => by
            have := hsklt _ hx
            omega
          have hm2 : h0.cells.length + 1 ∉ sk := fun hx => by
            have := hsklt _ hx
            omega
          have hm3 : L ∉ (h0.cells.length + 1) :: h0.cells.length :: sk := by
            simp only [List.mem_cons]
            push_neg
            exact ⟨by omega, by omega, hLsk⟩
          refine List.nodup_cons.mpr ⟨hm3, List.nodup_cons.mpr ⟨?_,
            List.nodup_cons.mpr ⟨hm1, hndsk⟩⟩⟩
          simp only [List.mem_cons]
          push_neg
          exact ⟨by omega, hm2⟩
        · intro j hj
          rcases List.mem_cons.mp hj with h1 | h2
          · right; omega
          · rcases List.mem_cons.mp h2 with h3 | h4
            · right; omega
            · exact .inl h4
        · intro k c hck hkN hkL hksk
          have hk0 : cellAt h0.cells k = some c := hpres0 k c hck hksk
          have hklt : k < h0.cells.length := cellAt_lt_length hk0
          rw [cellAt_set_ne _ _ _ (fun hx => hkL hx.symm)]
          rw [cellAt_append (by simp; omega)]
          rw [cellAt_append hklt]
          exact hk0
    | err er =>
      cases heq
      exact ⟨bnd, sk, al0, hsy0, hre0, le_of_eq hln0.symm, hcL0, hrep0,
        hnd, fun j hj => .inl hj, fun k c hck _ _ hksk => hpres0 k c hck hksk⟩
    | oof =>
      cases heq
      exact ⟨bnd, sk, al0, hsy0, hre0, le_of_eq hln0.symm, hcL0, hrep0,
        hnd, fun j hj => .inl hj, fun k c hck _ _ hksk => hpres0 k c hck hksk⟩
    | bug =>
      cases heq
      exact ⟨bnd, sk, al0, hsy0, hre0, le_of_eq hln0.symm, hcL0, hrep0,
        hnd, fun j hj => .inl hj, fun k c hck _ _ hksk => hpres0 k c hck hksk⟩
  | Nil =>
    cases heq
    exact ⟨bnd, sk, al, FCB_refl hc ha hnd⟩
  | Boolean b =>
    cases heq
    exact ⟨bnd, sk, al, FCB_refl hc ha hnd⟩
  | Integer n =>
    cases heq
    exact ⟨bnd, sk, al, FCB_refl hc ha hnd⟩
  | Pair k =>
    cases heq
    exact ⟨bnd, sk, al, FCB_refl hc ha hnd⟩
  | Closure k =>
    cases heq
    exact ⟨bnd, sk, al, FCB_refl hc ha hnd⟩
  | Primitive d =>
    cases heq
    exact ⟨bnd, sk, al, FCB_refl hc ha hnd⟩

/-- Any outcome of the parameter-binding loop of `Heap::apply` is frame
confined. -/
theorem bindLoop_confine {N : Nat} : ∀ {n fuel : Nat} {h : Heap} {L : Nat}
    {par bnd : Expr} {m : Bool} {sk : List Nat} {al : List (Expr × Expr)}
    {ps vs : Expr} {st : Res Unit} {h' : Heap},
    cellAt h.cells L = some (par, bnd, m) →
    AlistRep h.cells bnd sk al → (L :: sk).Nodup → N ≤ h.cells.length →
    bindLoop fuel n h (.Pair L) ps vs = (st, h') →
    ∃ bnd' sk' al', FCB N h h' L par m sk bnd' sk' al' := by
  intro n
  induction n with
  | zero =>
    intro fuel h L par bnd m sk al ps vs st h' hc ha hnd hN heq
    simp only [bindLoop] at heq
    cases heq
    exact ⟨bnd, sk, al, FCB_refl hc ha hnd⟩
  | succ n' ih =>
    intro fuel h L par bnd m sk al ps vs st h' hc ha hnd hN heq
    simp only [bindLoop] at heq
    by_cases hips : ps.is_nil = true
    · rw [if_pos hips] at heq
      split at heq
      · cases heq
        exact ⟨bnd, sk, al, FCB_refl hc ha hnd⟩
      · cases heq
        exact ⟨bnd, sk, al, FCB_refl hc ha hnd⟩
    · rw [if_neg hips] at heq
      by_cases hivs : vs.is_nil = true
      · rw [if_pos hivs] at heq
        cases heq
        exact ⟨bnd, sk, al, FCB_refl hc ha hnd⟩
      · rw [if_neg hivs] at heq
        cases hgp : get_first h ps with
        | ok param =>
          simp only [hgp] at heq
          cases hgv : get_first h vs with
          | ok arg =>
            simp only [hgv] at heq
            rcases hset : env_set fuel h (.Pair L) param arg with ⟨st1, h1⟩
            obtain ⟨bnd1, sk1, al1, f1⟩ := env_set_confine (N := N) hc ha hnd hset
            obtain ⟨hsy1, hre1, hln1, hcL1, ha1, hnd1, hfr1, hp1⟩ := f1
            cases st1 with
            | ok u =>
              simp only [hset] at heq
              cases hgr1 : get_rest h1 ps with
              | ok ps2 =>
                simp only [hgr1] at heq
                cases hgr2 : get_rest h1 vs with
                | ok vs2 =>
                  simp only [hgr2] at heq
                  obtain ⟨bnd2, sk2, al2, f2⟩ :=
                    ih hcL1 ha1 hnd1 (le_trans hN hln1) heq
                  exact ⟨bnd2, sk2, al2, FCB_trans hN
                    ⟨hsy1, hre1, hln1, hcL1, ha1, hnd1, hfr1, hp1⟩ f2⟩
                | err er =>
                  simp only [hgr2] at heq
                  cases heq
                  exact ⟨bnd1, sk1, al1, hsy1, hre1, hln1, hcL1, ha1, hnd1, hfr1, hp1⟩
                | oof =>
                  simp only [hgr2] at heq
                  cases heq
                  exact ⟨bnd1, sk1, al1, hsy1, hre1, hln1, hcL1, ha1, hnd1, hfr1, hp1⟩
                | bug =>
                  simp only [hgr2] at heq
                  cases heq
                  exact ⟨bnd1, sk1, al1, hsy1, hre1, hln1, hcL1, ha1, hnd1, hfr1, hp1⟩
              | err er =>
                simp only [hgr1] at heq
                cases heq
                exact ⟨bnd1, sk1, al1, hsy1, hre1, hln1, hcL1, ha1, hnd1, hfr1, hp1⟩
              | oof =>
                simp only [hgr1] at heq
                cases heq
                exact ⟨bnd1, sk1, al1, hsy1, hre1, hln1, hcL1, ha1, hnd1, hfr1, hp1⟩
              | bug =>
                simp only [hgr1] at heq
                cases heq
                exact ⟨bnd1, sk1, al1, hsy1, hre1, hln1, hcL1, ha1, hnd1, hfr1, hp1⟩
            | err er =>
              simp only [hset] at heq
              cases heq
              exact ⟨bnd1, sk1, al1, hsy1, hre1, hln1, hcL1, ha1, hnd1, hfr1, hp1⟩
            | oof =>
              simp only [hset] at heq
              cases heq
              exact ⟨bnd1, sk1, al1, hsy1, hre1, hln1, hcL1, ha1, hnd1, hfr1, hp1⟩
            | bug =>
              simp only [hset] at heq
              cases heq
              exact ⟨bnd1, sk1, al1, hsy1, hre1, hln1, hcL1, ha1, hnd1, hfr1, hp1⟩
          | err er =>
            simp only [hgv] at heq
            cases heq
            exact ⟨bnd, sk, al, FCB_refl hc ha hnd⟩
          | oof =>
            simp only [hgv] at heq
            cases heq
            exact ⟨bnd, sk, al, FCB_refl hc ha hnd⟩
          | bug =>
            simp only [hgv] at heq
            cases heq
            exact ⟨bnd, sk, al, FCB_refl hc ha hnd⟩
        | err er =>
          simp only [hgp] at heq
          cases heq
          exact ⟨bnd, sk, al, FCB_refl hc ha hnd⟩
        | oof =>
          simp only [hgp] at heq
          cases heq
          exact ⟨bnd, sk, al, FCB_refl hc ha hnd⟩
        | bug =>
          simp only [hgp] at heq
          cases heq
          exact ⟨bnd, sk, al, FCB_refl hc ha hnd⟩

/-- Confinement statement for `evalIn` at one fuel level: evaluation in a
well-formed frame is frame confined. -/
def ConfIn (fuel : Nat) : Prop :=
  ∀ {N : Nat} {h : Heap} {L : Nat} {e : Expr} {st : Res Expr} {h' : Heap}
    {par bnd : Expr} {m : Bool} {sk : List Nat} {al : List (Expr × Expr)},
    cellAt h.cells L = some (par, bnd, m) →
    AlistRep h.cells bnd sk al → (L :: sk).Nodup → N ≤ h.cells.length →
    evalIn fuel h (.Pair L) e = (st, h') →
    ∃ bnd' sk' al', FCB N h h' L par m sk bnd' sk' al'

/-- Confinement statement for `evalList` at one fuel level. -/
def ConfList (fuel : Nat) : Prop :=
  ∀ {N : Nat} {h : Heap} {L : Nat} {list : Expr} {st : Res Expr} {h' : Heap}
    {par bnd : Expr} {m : Bool} {sk : List Nat} {al : List (Expr × Expr)},
    cellAt h.cells L = some (par, bnd, m) →
    AlistRep h.cells bnd sk al → (L :: sk).Nodup → N ≤ h.cells.length →
    evalList fuel h (.Pair L) list = (st, h') →
    ∃ bnd' sk' al', FCB N h h' L par m sk bnd' sk' al'

/-- Confinement statement for `evalListAux` at one fuel level: the result
tail cell written by the loop is fresh (at or above the boundary) and
apart from the frame. -/
def ConfListAux (fuel : Nat) : Prop :=
  ∀ {N : Nat} {h : Heap} {L : Nat} {rest result : Expr} {kt : Nat}
    {st : Res Expr} {h' : Heap}
    {par bnd : Expr} {m : Bool} {sk : List Nat} {al : List (Expr × Expr)},
    cellAt h.cells L = some (par, bnd, m) →
    AlistRep h.cells bnd sk al → (L :: sk).Nodup → N ≤ h.cells.length →
    N ≤ kt → kt ≠ L → kt ∉ sk → kt < h.cells.length →
    evalListAux fuel h (.Pair L) rest (.Pair kt) result = (st, h') →
    ∃ bnd' sk' al', FCB N h h' L par m sk bnd' sk' al'

/-- Confinement statement for `applyFn` at one fuel level: application
never mutates a pre-existing cell (it writes only to its fresh frame,
fresh binding cells, and fresh result cells). -/
def ConfApply (fuel : Nat) : Prop :=
  ∀ {h : Heap} {op args : Expr} {st : Res Expr} {h' : Heap},
    applyFn fuel h op args = (st, h') →
    h'.symbols = h.symbols ∧ h'.root_env = h.root_env ∧
    h.cells.length ≤ h'.cells.length ∧
    (∀ k c, cellAt h.cells k = some c → cellAt h'.cells k = some c)

/-- Confinement statement for `evalBody` at one fuel level. -/
def ConfBody (fuel : Nat) : Prop :=
  ∀ {N : Nat} {h : Heap} {L : Nat} {body result : Expr} {st : Res Expr} {h' : Heap}
    {par bnd : Expr} {m : Bool} {sk : List Nat} {al : List (Expr × Expr)},
    cellAt h.cells L = some (par, bnd, m) →
    AlistRep h.cells bnd sk al → (L :: sk).Nodup → N ≤ h.cells.length →
    evalBody fuel h (.Pair L) body result = (st, h') →
    ∃ bnd' sk' al', FCB N h h' L par m sk bnd' sk' al'

theorem conf_zero : ConfIn 0 ∧ ConfList 0 ∧ ConfListAux 0 ∧ ConfApply 0 ∧ ConfBody 0 := by
  refine ⟨?_, ?_, ?_, ?_, ?_⟩
  · intro N h L e st h' par bnd m sk al hc ha hnd hN heq
    simp only [evalIn] at heq
    cases heq
    exact ⟨bnd, sk, al, FCB_refl hc ha hnd⟩
  · intro N h L list st h' par bnd m sk al hc ha hnd hN heq
    simp only [evalList] at heq
    cases heq
    exact ⟨bnd, sk, al, FCB_refl hc ha hnd⟩
  · intro N h L rest result kt st h' par bnd m sk al hc ha hnd hN hk1 hk2 hk3 hk4 heq
    simp only [evalListAux] at heq
    cases heq
    exact ⟨bnd, sk, al, FCB_refl hc ha hnd⟩
  · intro h op args st h' heq
    simp only [applyFn] at heq
    cases heq
    exact ⟨rfl, rfl, le_refl _, fun _ _ hck => hck⟩
  · intro N h L body result st h' par bnd m sk al hc ha hnd hN heq
    simp only [evalBody] at heq
    cases heq
    exact ⟨bnd, sk, al, FCB_refl hc ha hnd⟩

theorem confBody_step (f : Nat) (ihIn : ConfIn f) (ihBody : ConfBody f) :
    ConfBody (f + 1) := by
  intro N h L body result st h' par bnd m sk al hc ha hnd hN heq
  have hrefl : ∀ (x : Res Expr), (x, h) = (st, h') →
      ∃ bnd' sk' al', FCB N h h' L par m sk bnd' sk' al' := by
    intro x hx
    obtain ⟨-, rfl⟩ : x = st ∧ h = h' := Prod.mk.injEq .. ▸ hx
    exact ⟨bnd, sk, al, FCB_refl hc ha hnd⟩
  simp only [evalBody] at heq
  by_cases hin : body.is_nil = true
  · rw [if_pos hin] at heq
    exact hrefl _ heq
  · rw [if_neg hin] at heq
    cases hgf : get_first h body with
    | ok form =>
      simp only [hgf] at heq
      rcases hev : evalIn f h (.Pair L) form with ⟨st1, h1⟩
      obtain ⟨bnd1, sk1, al1, f1⟩ := ihIn hc ha hnd hN hev
      obtain ⟨hsy1, hre1, hln1, hcL1, ha1, hnd1, hfr1, hp1⟩ := f1
      cases st1 with
      | ok r =>
        simp only [hev] at heq
        cases hgr : get_rest h1 body with
        | ok body2 =>
          simp only [hgr] at heq
          obtain ⟨bnd2, sk2, al2, f2⟩ :=
            ihBody hcL1 ha1 hnd1 (le_trans hN hln1) heq
          exact ⟨bnd2, sk2, al2, FCB_trans hN
            ⟨hsy1, hre1, hln1, hcL1, ha1, hnd1, hfr1, hp1⟩ f2⟩
        | err er =>
          simp only [hgr] at heq
          cases heq
          exact ⟨bnd1, sk1, al1, hsy1, hre1, hln1, hcL1, ha1, hnd1, hfr1, hp1⟩
        | oof =>
          simp only [hgr] at heq
          cases heq
          exact ⟨bnd1, sk1, al1, hsy1, hre1, hln1, hcL1, ha1, hnd1, hfr1, hp1⟩
        | bug =>
          simp only [hgr] at heq
          cases heq
          exact ⟨bnd1, sk1, al1, hsy1, hre1, hln1, hcL1, ha1, hnd1, hfr1, hp1⟩
      | err er =>
        simp only [hev] at heq
        cases heq
        exact ⟨bnd1, sk1, al1, hsy1, hre1, hln1, hcL1, ha1, hnd1, hfr1, hp1⟩
      | oof =>
        simp only [hev] at heq
        cases heq
        exact ⟨bnd1, sk1, al1, hsy1, hre1, hln1, hcL1, ha1, hnd1, hfr1, hp1⟩
      | bug =>
        simp only [hev] at heq
        cases heq
        exact ⟨bnd1, sk1, al1, hsy1, hre1, hln1, hcL1, ha1, hnd1, hfr1, hp1⟩
    | err er =>
      simp only [hgf] at heq
      exact hrefl _ heq
    | oof =>
      simp only [hgf] at heq
      exact hrefl _ heq
    | bug =>
      simp only [hgf] at heq
      exact hrefl _ heq

theorem confApply_step (f : Nat) (ihBody : ConfBody f) : ConfApply (f + 1) := by
  intro h op args st h' heq
  have hido : ∀ (x : Res Expr), (x, h) = (st, h') →
      h'.symbols = h.symbols ∧ h'.root_env = h.root_env ∧
      h.cells.length ≤ h'.cells.length ∧
      (∀ k c, cellAt h.cells k = some c → cellAt h'.cells k = some c) := by
    intro x hx
    obtain ⟨-, rfl⟩ : x = st ∧ h = h' := Prod.mk.injEq .. ▸ hx
    exact ⟨rfl, rfl, le_refl _, fun _ _ hck => hck⟩
  cases op with
  | Primitive name =>
    simp only [applyFn] at heq
    exact primApply_preserves heq
  | Closure ck =>
    simp only [applyFn] at heq
    cases hle : get_lambda_env h (.Closure ck) with
    | ok parent =>
      simp only [hle, make_env, make_cons] at heq
      have hido1 : ∀ (x : Res Expr),
          (x, { h with cells := h.cells ++ [some (parent, Expr.Nil, false)] }) = (st, h') →
          h'.symbols = h.symbols ∧ h'.root_env = h.root_env ∧
          h.cells.length ≤ h'.cells.length ∧
          (∀ k c, cellAt h.cells k = some c → cellAt h'.cells k = some c) := by
        intro x hx
        obtain ⟨-, rfl⟩ : x = st ∧
            { h with cells := h.cells ++ [some (parent, Expr.Nil, false)] } = h' :=
          Prod.mk.injEq .. ▸ hx
        refine ⟨rfl, rfl, by simp, ?_⟩
        intro k c hck
        exact (cellAt_append (cellAt_lt_length hck)).symm ▸ hck
      cases hla : get_lambda_args
          { h with cells := h.cells ++ [some (parent, Expr.Nil, false)] }
          (.Closure ck) with
      | ok param_list =>
        simp only [hla] at heq
        rcases hbl : bindLoop (f + 1) (f + 1)
            { h with cells := h.cells ++ [some (parent, Expr.Nil, false)] }
            (.Pair h.cells.length) param_list args with ⟨st1, h2⟩
        have hcL0 : cellAt (h.cells ++ [some (parent, Expr.Nil, false)])
            h.cells.length = some (parent, .Nil, false) := cellAt_append_self _ _
        obtain ⟨bnd2, sk2, al2, f1⟩ :=
          bindLoop_confine (N := h.cells.length + 1) hcL0 .nil (by simp) (by simp) hbl
        obtain ⟨hsy1, hre1, hln1, hcL1, ha1, hnd1, hfr1, hp1⟩ := f1
        have hpres12 : ∀ k c, cellAt h.cells k = some c →
            cellAt h2.cells k = some c := by
          intro k c hck
          have hklt : k < h.cells.length := cellAt_lt_length hck
          refine hp1 k c ?_ (by omega) (by omega) (by simp)
          rw [cellAt_append hklt]
          exact hck
        have hln02 : h.cells.length ≤ h2.cells.length := by
          simp only [List.length_append, List.length_cons, List.length_nil] at hln1
          omega
        cases st1 with
        | ok u =>
          simp only [hbl] at heq
          cases hlb : get_lambda_body h2 (.Closure ck) with
          | ok body =>
            simp only [hlb] at heq
            obtain ⟨bnd3, sk3, al3, f2⟩ :=
              ihBody (N := h.cells.length) hcL1 ha1 hnd1 hln02 heq
            obtain ⟨hsy2, hre2, hln2, hcL2, ha2, hnd2, hfr2, hp2⟩ := f2
            refine ⟨hsy2.trans hsy1, hre2.trans hre1, ?_, ?_⟩
            · exact le_trans hln02 hln2
            · intro k c hck
              have hklt : k < h.cells.length := cellAt_lt_length hck
              refine hp2 k c (hpres12 k c hck) hklt (by omega) ?_
              intro hx
              rcases hfr1 k hx with hk0 | hkf
              · simp at hk0
              · simp only [List.length_append, List.length_cons,
                  List.length_nil] at hkf
                omega
          | err er =>
            simp only [hlb] at heq
            cases heq
            exact ⟨hsy1, hre1, hln02, hpres12⟩
          | oof =>
            simp only [hlb] at heq
            cases heq
            exact ⟨hsy1, hre1, hln02, hpres12⟩
          | bug =>
            simp only [hlb] at heq
            cases heq
            exact ⟨hsy1, hre1, hln02, hpres12⟩
        | err er =>
          simp only [hbl] at heq
          cases heq
          exact ⟨hsy1, hre1, hln02, hpres12⟩
        | oof =>
          simp only [hbl] at heq
          cases heq
          exact ⟨hsy1, hre1, hln02, hpres12⟩
        | bug =>
          simp only [hbl] at heq
          cases heq
          exact ⟨hsy1, hre1, hln02, hpres12⟩
      | err er =>
        simp only [hla] at heq
        exact hido1 _ heq
      | oof =>
        simp only [hla] at heq
        exact hido1 _ heq
      | bug =>
        simp only [hla] at heq
        exact hido1 _ heq
    | err er =>
      simp only [hle] at heq
      exact hido _ heq
    | oof =>
      simp only [hle] at heq
      exact hido _ heq
    | bug =>
      simp only [hle] at heq
      exact hido _ heq
  | Nil =>
    simp only [applyFn] at heq
    exact hido _ heq
  | Boolean b =>
    simp only [applyFn] at heq
    exact hido _ heq
  | Integer n =>
    simp only [applyFn] at heq
    exact hido _ heq
  | Symbol s =>
    simp only [applyFn] at heq
    exact hido _ heq
  | Pair k =>
    simp only [applyFn] at heq
    exact hido _ heq

theorem confListAux_step (f : Nat) (ihIn : ConfIn f) (ihAux : ConfListAux f) :
    ConfListAux (f + 1) := by
  intro N h L rest result kt st h' par bnd m sk al hc ha hnd hN hktN hktL hktsk hktlt heq
  have hrefl : ∀ (x : Res Expr), (x, h) = (st, h') →
      ∃ bnd' sk' al', FCB N h h' L par m sk bnd' sk' al' := by
    intro x hx
    obtain ⟨-, rfl⟩ : x = st ∧ h = h' := Prod.mk.injEq .. ▸ hx
    exact ⟨bnd, sk, al, FCB_refl hc ha hnd⟩
  simp only [evalListAux] at heq
  by_cases hin : rest.is_nil = true
  · rw [if_pos hin] at heq
    exact hrefl _ heq
  · rw [if_neg hin] at heq
    by_cases hip : rest.is_pair = true
    · rw [if_pos hip] at heq
      cases hfr : get_first_rest h rest with
      | ok pr =>
        obtain ⟨first, rest2⟩ := pr
        simp only [hfr] at heq
        rcases hev : evalIn f h (.Pair L) first with ⟨st1, h1⟩
        obtain ⟨bnd1, sk1, al1, f1⟩ := ihIn hc ha hnd hN hev
        obtain ⟨hsy1, hre1, hln1, hcL1, ha1, hnd1, hfr1, hp1⟩ := f1
        cases st1 with
        | ok val =>
          simp only [hev, make_cons] at heq
          have hsk1lt : ∀ j ∈ sk1, j < h1.cells.length := AlistRep_keys_lt ha1
          have hktnsk1 : kt ∉ sk1 := by
            intro hx
            rcases hfr1 kt hx with hks | hkf
            · exact hktsk hks
            · omega
          cases hck : cellAt (h1.cells ++ [some (val, Expr.Nil, false)]) kt with
          | none =>
            simp only [set_rest, hck] at heq
            cases heq
            refine ⟨bnd1, sk1, al1, hsy1, hre1, by simp only
              [List.length_append, List.length_cons, List.length_nil]; omega,
              ?_, ?_, hnd1, hfr1, ?_⟩
            · rw [cellAt_append (cellAt_lt_length hcL1)]
              exact hcL1
            · exact AlistRep_mono (fun k c hkc => by
                rw [cellAt_append (cellAt_lt_length hkc)]; exact hkc) ha1
            · intro k c hkc hkN hkL hksk
              rw [cellAt_append (by omega)]
              exact hp1 k c hkc hkN hkL hksk
          | some c0 =>
            obtain ⟨c0f, c0r, c0m⟩ := c0
            simp only [set_rest, hck] at heq
            have hktlt1 : kt < h1.cells.length := by omega
            have ha2app : AlistRep (h1.cells ++ [some (val, Expr.Nil, false)])
                bnd1 sk1 al1 :=
              AlistRep_mono (fun k c hkc => by
                rw [cellAt_append (cellAt_lt_length hkc)]
                exact hkc) ha1
            have hcL3 : cellAt ((h1.cells ++ [some (val, Expr.Nil, false)]).set kt
                (some (c0f, Expr.Pair h1.cells.length, c0m))) L =
                some (par, bnd1, m) := by
              rw [cellAt_set_ne _ _ _ hktL]
              rw [cellAt_append (cellAt_lt_length hcL1)]
              exact hcL1
            have ha3 : AlistRep ((h1.cells ++ [some (val, Expr.Nil, false)]).set kt
                (some (c0f, Expr.Pair h1.cells.length, c0m))) bnd1 sk1 al1 := by
              refine AlistRep_stable (fun j hj => ?_) ha2app
              exact cellAt_set_ne _ _ _ (ne_of_not_mem_list hktnsk1 hj) _
            have hB : N ≤ ((h1.cells ++ [some (val, Expr.Nil, false)]).set kt
                (some (c0f, Expr.Pair h1.cells.length, c0m))).length := by
              simp only [List.length_set, List.length_append, List.length_cons,
                List.length_nil]
              omega
            have hA : N ≤ h1.cells.length := by omega
            have hC : h1.cells.length ≠ L := fun hx => by
              have := cellAt_lt_length hcL1
              omega
            have hD : h1.cells.length ∉ sk1 := fun hx => by
              have := hsk1lt _ hx
              omega
            have hE : h1.cells.length < ((h1.cells ++
                [some (val, Expr.Nil, false)]).set kt
                (some (c0f, Expr.Pair h1.cells.length, c0m))).length := by
              simp only [List.length_set, List.length_append, List.length_cons,
                List.length_nil]
              omega
            obtain ⟨bnd2, sk2, al2, f2⟩ :=
              ihAux hcL3 ha3 hnd1 hB hA hC hD hE heq
            have fmid : FCB N h1
                { symbols := h1.symbols, root_env := h1.root_env,
                  cells := (h1.cells ++ [some (val, Expr.Nil, false)]).set kt
                    (some (c0f, Expr.Pair h1.cells.length, c0m)) }
                L par m sk1 bnd1 sk1 al1 := by
              refine ⟨rfl, rfl, ?_, hcL3, ha3, hnd1, fun j hj => .inl hj, ?_⟩
              · simp only [List.length_set, List.length_append, List.length_cons,
                  List.length_nil]
                omega
              · intro k c hkc hkN hkL hksk
                rw [cellAt_set_ne _ _ _ (fun hx => by omega)]
                rw [cellAt_append (cellAt_lt_length hkc)]
                exact hkc
            exact ⟨bnd2, sk2, al2, FCB_trans hN
              ⟨hsy1, hre1, hln1, hcL1, ha1, hnd1, hfr1, hp1⟩
              (FCB_trans (by omega) fmid f2)⟩
        | err er =>
          simp only [hev] at heq
          cases heq
          exact ⟨bnd1, sk1, al1, hsy1, hre1, hln1, hcL1, ha1, hnd1, hfr1, hp1⟩
        | oof =>
          simp only [hev] at heq
          cases heq
          exact ⟨bnd1, sk1, al1, hsy1, hre1, hln1, hcL1, ha1, hnd1, hfr1, hp1⟩
        | bug =>
          simp only [hev] at heq
          cases heq
          exact ⟨bnd1, sk1, al1, hsy1, hre1, hln1, hcL1, ha1, hnd1, hfr1, hp1⟩
      | err er =>
        simp only [hfr] at heq
        exact hrefl _ heq
      | oof =>
        simp only [hfr] at heq
        exact hrefl _ heq
      | bug =>
        simp only [hfr] at heq
        exact hrefl _ heq
    · rw [if_neg hip] at heq
      exact hrefl _ heq

theorem confList_step (f : Nat) (ihIn : ConfIn f) (ihAux : ConfListAux f) :
    ConfList (f + 1) := by
  intro N h L list st h' par bnd m sk al hc ha hnd hN heq
  have hrefl : ∀ (x : Res Expr), (x, h) = (st, h') →
      ∃ bnd' sk' al', FCB N h h' L par m sk bnd' sk' al' := by
    intro x hx
    obtain ⟨-, rfl⟩ : x = st ∧ h = h' := Prod.mk.injEq .. ▸ hx
    exact ⟨bnd, sk, al, FCB_refl hc ha hnd⟩
  simp only [evalList] at heq
  by_cases hin : list.is_nil = true
  · rw [if_pos hin] at heq
    exact hrefl _ heq
  · rw [if_neg hin] at heq
    cases hfr : get_first_rest h list with
    | ok pr =>
      obtain ⟨first, rest⟩ := pr
      simp only [hfr] at heq
      rcases hev : evalIn f h (.Pair L) first with ⟨st1, h1⟩
      obtain ⟨bnd1, sk1, al1, f1⟩ := ihIn hc ha hnd hN hev
      obtain ⟨hsy1, hre1, hln1, hcL1, ha1, hnd1, hfr1, hp1⟩ := f1
      cases st1 with
      | ok val =>
        simp only [hev, make_cons] at heq
        have hsk1lt : ∀ j ∈ sk1, j < h1.cells.length := AlistRep_keys_lt ha1
        have ha2app : AlistRep (h1.cells ++ [some (val, Expr.Nil, false)])
            bnd1 sk1 al1 :=
          AlistRep_mono (fun k c hkc => by
            rw [cellAt_append (cellAt_lt_length hkc)]
            exact hkc) ha1
        have hcL2 : cellAt (h1.cells ++ [some (val, Expr.Nil, false)]) L =
            some (par, bnd1, m) := by
          rw [cellAt_append (cellAt_lt_length hcL1)]
          exact hcL1
        have hB : N ≤ (h1.cells ++ [some (val, Expr.Nil, false)]).length := by
          simp only [List.length_append, List.length_cons, List.length_nil]
          omega
        have hA : N ≤ h1.cells.length := by omega
        have hC : h1.cells.length ≠ L := fun hx => by
          have := cellAt_lt_length hcL1
          omega
        have hD : h1.cells.length ∉ sk1 := fun hx => by
          have := hsk1lt _ hx
          omega
        have hE : h1.cells.length <
            (h1.cells ++ [some (val, Expr.Nil, false)]).length := by
          simp only [List.length_append, List.length_cons, List.length_nil]
          omega
        obtain ⟨bnd2, sk2, al2, f2⟩ :=
          ihAux hcL2 ha2app hnd1 hB hA hC hD hE heq
        have fmid : FCB N h1
            { symbols := h1.symbols, root_env := h1.root_env,
              cells := h1.cells ++ [some (val, Expr.Nil, false)] }
            L par m sk1 bnd1 sk1 al1 := by
          refine ⟨rfl, rfl, ?_, hcL2, ha2app, hnd1, fun j hj => .inl hj, ?_⟩
          · simp only [List.length_append, List.length_cons, List.length_nil]
            omega
          · intro k c hkc hkN hkL hksk
            rw [cellAt_append (cellAt_lt_length hkc)]
            exact hkc
        exact ⟨bnd2, sk2, al2, FCB_trans hN
          ⟨hsy1, hre1, hln1, hcL1, ha1, hnd1, hfr1, hp1⟩
          (FCB_trans (by omega) fmid f2)⟩
      | err er =>
        simp only [hev] at heq
        cases heq
        exact ⟨bnd1, sk1, al1, hsy1, hre1, hln1, hcL1, ha1, hnd1, hfr1, hp1⟩
      | oof =>
        simp only [hev] at heq
        cases heq
        exact ⟨bnd1, sk1, al1, hsy1, hre1, hln1, hcL1, ha1, hnd1, hfr1, hp1⟩
      | bug =>
        simp only [hev] at heq
        cases heq
        exact ⟨bnd1, sk1, al1, hsy1, hre1, hln1, hcL1, ha1, hnd1, hfr1, hp1⟩
    | err er =>
      simp only [hfr] at heq
      exact hrefl _ heq
    | oof =>
      simp only [hfr] at heq
      exact hrefl _ heq
    | bug =>
      simp only [hfr] at heq
      exact hrefl _ heq

theorem confIn_step (f : Nat) (ihIn : ConfIn f) (ihList : ConfList f)
    (ihApply : ConfApply f) : ConfIn (f + 1) := by
  intro N h L e st h' par bnd m sk al hc ha hnd hN heq
  have hrefl : ∀ (x : Res Expr), (x, h) = (st, h') →
      ∃ bnd' sk' al', FCB N h h' L par m sk bnd' sk' al' := by
    intro x hx
    obtain ⟨-, rfl⟩ : x = st ∧ h = h' := Prod.mk.injEq .. ▸ hx
    exact ⟨bnd, sk, al, FCB_refl hc ha hnd⟩
  cases e with
  | Nil =>
    simp only [evalIn] at heq
    exact hrefl _ heq
  | Boolean b =>
    simp only [evalIn] at heq
    exact hrefl _ heq
  | Integer n =>
    simp only [evalIn] at heq
    exact hrefl _ heq
  | Closure c =>
    simp only [evalIn] at heq
    exact hrefl _ heq
  | Primitive p =>
    simp only [evalIn] at heq
    exact hrefl _ heq
  | Symbol s =>
    simp only [evalIn] at heq
    exact hrefl _ heq
  | Pair kp =>
    simp only [evalIn] at heq
    cases hfr : get_first_rest h (.Pair kp) with
    | err er =>
      simp only [hfr] at heq
      exact hrefl _ heq
    | oof =>
      simp only [hfr] at heq
      exact hrefl _ heq
    | bug =>
      simp only [hfr] at heq
      exact hrefl _ heq
    | ok pr =>
      obtain ⟨first, rest⟩ := pr
      simp only [hfr] at heq
      by_cases hq : first.is_specific_symbol "QUOTE".toList = true
      · rw [if_pos hq] at heq
        cases htl : test_length h rest 1 with
        | ok b =>
          cases b with
          | true =>
            simp only [htl] at heq
            exact hrefl _ heq
          | false =>
            simp only [htl] at heq
            exact hrefl _ heq
        | err er =>
          simp only [htl] at heq
          exact hrefl _ heq
        | oof =>
          simp only [htl] at heq
          exact hrefl _ heq
        | bug =>
          simp only [htl] at heq
          exact hrefl _ heq
      · rw [if_neg hq] at heq
        by_cases hd : first.is_specific_symbol "DEFINE".toList = true
        · rw [if_pos hd] at heq
          cases htl : test_length h rest 2 with
          | ok b =>
            cases b with
            | false =>
              simp only [htl] at heq
              exact hrefl _ heq
            | true =>
              simp only [htl] at heq
              cases hg1 : get_first h rest with
              | ok sym =>
                simp only [hg1] at heq
                cases hg2 : rbind (get_rest h rest) fun r => get_first h r with
                | ok rexpr =>
                  simp only [hg2] at heq
                  cases hsb : sym.is_symbol with
                  | false =>
                    simp only [hsb, Bool.not_false, if_true] at heq
                    exact hrefl _ heq
                  | true =>
                    simp only [hsb, Bool.not_true, Bool.false_eq_true,
                      if_false] at heq
                    rcases hev : evalIn f h (.Pair L) rexpr with ⟨st1, h1⟩
                    obtain ⟨bnd1, sk1, al1, f1⟩ := ihIn hc ha hnd hN hev
                    obtain ⟨hsy1, hre1, hln1, hcL1, ha1, hnd1, hfr1, hp1⟩ := f1
                    cases st1 with
                    | ok val =>
                      simp only [hev] at heq
                      rcases hst : env_set (f + 1) h1 (.Pair L) sym val
                        with ⟨st2, h2⟩
                      obtain ⟨bnd2, sk2, al2, f2⟩ :=
                        env_set_confine (N := N) hcL1 ha1 hnd1 hst
                      cases st2 with
                      | ok u =>
                        simp only [hst] at heq
                        cases heq
                        exact ⟨bnd2, sk2, al2, FCB_trans hN
                          ⟨hsy1, hre1, hln1, hcL1, ha1, hnd1, hfr1, hp1⟩ f2⟩
                      | err er =>
                        simp only [hst] at heq
                        cases heq
                        exact ⟨bnd2, sk2, al2, FCB_trans hN
                          ⟨hsy1, hre1, hln1, hcL1, ha1, hnd1, hfr1, hp1⟩ f2⟩
                      | oof =>
                        simp only [hst] at heq
                        cases heq
                        exact ⟨bnd2, sk2, al2, FCB_trans hN
                          ⟨hsy1, hre1, hln1, hcL1, ha1, hnd1, hfr1, hp1⟩ f2⟩
                      | bug =>
                        simp only [hst] at heq
                        cases heq
                        exact ⟨bnd2, sk2, al2, FCB_trans hN
                          ⟨hsy1, hre1, hln1, hcL1, ha1, hnd1, hfr1, hp1⟩ f2⟩
                    | err er =>
                      simp only [hev] at heq
                      cases heq
                      exact ⟨bnd1, sk1, al1, hsy1, hre1, hln1, hcL1, ha1,
                        hnd1, hfr1, hp1⟩
                    | oof =>
                      simp only [hev] at heq
                      cases heq
                      exact ⟨bnd1, sk1, al1, hsy1, hre1, hln1, hcL1, ha1,
                        hnd1, hfr1, hp1⟩
                    | bug =>
                      simp only [hev] at heq
                      cases heq
                      exact ⟨bnd1, sk1, al1, hsy1, hre1, hln1, hcL1, ha1,
                        hnd1, hfr1, hp1⟩
                | err er =>
                  simp only [hg2] at heq
                  exact hrefl _ heq
                | oof =>
                  simp only [hg2] at heq
                  exact hrefl _ heq
                | bug =>
                  simp only [hg2] at heq
                  exact hrefl _ heq
              | err er =>
                simp only [hg1] at heq
                exact hrefl _ heq
              | oof =>
                simp only [hg1] at heq
                exact hrefl _ heq
              | bug =>
                simp only [hg1] at heq
                exact hrefl _ heq
          | err er =>
            simp only [htl] at heq
            exact hrefl _ heq
          | oof =>
            simp only [htl] at heq
            exact hrefl _ heq
          | bug =>
            simp only [htl] at heq
            exact hrefl _ heq
        · rw [if_neg hd] at heq
          by_cases hi : first.is_specific_symbol "IF".toList = true
          · rw [if_pos hi] at heq
            cases htl : test_length h rest 3 with
            | ok b =>
              cases b with
              | false =>
                simp only [htl] at heq
                exact hrefl _ heq
              | true =>
                simp only [htl] at heq
                cases hg1 : get_first h rest with
                | ok test_expr =>
                  simp only [hg1] at heq
                  cases hg2 : rbind (get_rest h rest) fun r => get_first h r with
                  | ok true_expr =>
                    simp only [hg2] at heq
                    cases hg3 : rbind (get_rest h rest) fun r =>
                        rbind (get_rest h r) fun r' => get_first h r' with
                    | ok false_expr =>
                      simp only [hg3] at heq
                      rcases hev : evalIn f h (.Pair L) test_expr with ⟨st1, h1⟩
                      obtain ⟨bnd1, sk1, al1, f1⟩ := ihIn hc ha hnd hN hev
                      obtain ⟨hsy1, hre1, hln1, hcL1, ha1, hnd1, hfr1, hp1⟩ := f1
                      cases st1 with
                      | ok t =>
                        simp only [hev] at heq
                        by_cases htr : t.is_truthy = true
                        · rw [if_pos htr] at heq
                          obtain ⟨bnd2, sk2, al2, f2⟩ :=
                            ihIn hcL1 ha1 hnd1 (le_trans hN hln1) heq
                          exact ⟨bnd2, sk2, al2, FCB_trans hN
                            ⟨hsy1, hre1, hln1, hcL1, ha1, hnd1, hfr1, hp1⟩ f2⟩
                        · rw [if_neg htr] at heq
                          obtain ⟨bnd2, sk2, al2, f2⟩ :=
                            ihIn hcL1 ha1 hnd1 (le_trans hN hln1) heq
                          exact ⟨bnd2, sk2, al2, FCB_trans hN
                            ⟨hsy1, hre1, hln1, hcL1, ha1, hnd1, hfr1, hp1⟩ f2⟩
                      | err er =>
                        simp only [hev] at heq
                        cases heq
                        exact ⟨bnd1, sk1, al1, hsy1, hre1, hln1, hcL1, ha1,
                          hnd1, hfr1, hp1⟩
                      | oof =>
                        simp only [hev] at heq
                        cases heq
                        exact ⟨bnd1, sk1, al1, hsy1, hre1, hln1, hcL1, ha1,
                          hnd1, hfr1, hp1⟩
                      | bug =>
                        simp only [hev] at heq
                        cases heq
                        exact ⟨bnd1, sk1, al1, hsy1, hre1, hln1, hcL1, ha1,
                          hnd1, hfr1, hp1⟩
                    | err er =>
                      simp only [hg3] at heq
                      exact hrefl _ heq
                    | oof =>
                      simp only [hg3] at heq
                      exact hrefl _ heq
                    | bug =>
                      simp only [hg3] at heq
                      exact hrefl _ heq
                  | err er =>
                    simp only [hg2] at heq
                    exact hrefl _ heq
                  | oof =>
                    simp only [hg2] at heq
                    exact hrefl _ heq
                  | bug =>
                    simp only [hg2] at heq
                    exact hrefl _ heq
                | err er =>
                  simp only [hg1] at heq
                  exact hrefl _ heq
                | oof =>
                  simp only [hg1] at heq
                  exact hrefl _ heq
                | bug =>
                  simp only [hg1] at heq
                  exact hrefl _ heq
            | err er =>
              simp only [htl] at heq
              exact hrefl _ heq
            | oof =>
              simp only [htl] at heq
              exact hrefl _ heq
            | bug =>
              simp only [htl] at heq
              exact hrefl _ heq
          · rw [if_neg hi] at heq
            by_cases hl : first.is_specific_symbol "LAMBDA".toList = true
            · rw [if_pos hl] at heq
              cases htl : test_length h rest 2 with
              | ok b =>
                cases b with
                | false =>
                  simp only [htl] at heq
                  exact hrefl _ heq
                | true =>
                  simp only [htl] at heq
                  cases hg1 : get_first h rest with
                  | ok arg_list =>
                    simp only [hg1] at heq
                    cases hg2 : get_rest h rest with
                    | ok body =>
                      simp only [hg2] at heq
                      obtain ⟨hsy2, hre2, hln2, hp2⟩ := make_closure_preserves heq
                      exact ⟨bnd, sk, al,
                        FCB_of_preserveAll hc ha hnd hsy2 hre2 hln2 hp2⟩
                    | err er =>
                      simp only [hg2] at heq
                      exact hrefl _ heq
                    | oof =>
                      simp only [hg2] at heq
                      exact hrefl _ heq
                    | bug =>
                      simp only [hg2] at heq
                      exact hrefl _ heq
                  | err er =>
                    simp only [hg1] at heq
                    exact hrefl _ heq
                  | oof =>
                    simp only [hg1] at heq
                    exact hrefl _ heq
                  | bug =>
                    simp only [hg1] at heq
                    exact hrefl _ heq
              | err er =>
                simp only [htl] at heq
                exact hrefl _ heq
              | oof =>
                simp only [htl] at heq
                exact hrefl _ heq
              | bug =>
                simp only [htl] at heq
                exact hrefl _ heq
            · rw [if_neg hl] at heq
              rcases hev : evalIn f h (.Pair L) first with ⟨st1, h1⟩
              obtain ⟨bnd1, sk1, al1, f1⟩ := ihIn hc ha hnd hN hev
              obtain ⟨hsy1, hre1, hln1, hcL1, ha1, hnd1, hfr1, hp1⟩ := f1
              cases st1 with
              | ok op =>
                simp only [hev] at heq
                rcases hevl : evalList f h1 (.Pair L) rest with ⟨st2, h2⟩
                obtain ⟨bnd2, sk2, al2, f2⟩ :=
                  ihList hcL1 ha1 hnd1 (le_trans hN hln1) hevl
                obtain ⟨hsy2, hre2, hln2, hcL2, ha2, hnd2, hfr2, hp2⟩ := f2
                cases st2 with
                | ok args =>
                  simp only [hevl] at heq
                  obtain ⟨hsy3, hre3, hln3, hp3⟩ := ihApply heq
                  exact ⟨bnd2, sk2, al2, FCB_trans hN
                    ⟨hsy1, hre1, hln1, hcL1, ha1, hnd1, hfr1, hp1⟩
                    (FCB_trans (le_trans hN hln1)
                      ⟨hsy2, hre2, hln2, hcL2, ha2, hnd2, hfr2, hp2⟩
                      (FCB_of_preserveAll hcL2 ha2 hnd2 hsy3 hre3 hln3 hp3))⟩
                | err er =>
                  simp only [hevl] at heq
                  cases heq
                  exact ⟨bnd2, sk2, al2, FCB_trans hN
                    ⟨hsy1, hre1, hln1, hcL1, ha1, hnd1, hfr1, hp1⟩
                    ⟨hsy2, hre2, hln2, hcL2, ha2, hnd2, hfr2, hp2⟩⟩
                | oof =>
                  simp only [hevl] at heq
                  cases heq
                  exact ⟨bnd2, sk2, al2, FCB_trans hN
                    ⟨hsy1, hre1, hln1, hcL1, ha1, hnd1, hfr1, hp1⟩
                    ⟨hsy2, hre2, hln2, hcL2, ha2, hnd2, hfr2, hp2⟩⟩
                | bug =>
                  simp only [hevl] at heq
                  cases heq
                  exact ⟨bnd2, sk2, al2, FCB_trans hN
                    ⟨hsy1, hre1, hln1, hcL1, ha1, hnd1, hfr1, hp1⟩
                    ⟨hsy2, hre2, hln2, hcL2, ha2, hnd2, hfr2, hp2⟩⟩
              | err er =>
                simp only [hev] at heq
                cases heq
                exact ⟨bnd1, sk1, al1, hsy1, hre1, hln1, hcL1, ha1, hnd1,
                  hfr1, hp1⟩
              | oof =>
                simp only [hev] at heq
                cases heq
                exact ⟨bnd1, sk1, al1, hsy1, hre1, hln1, hcL1, ha1, hnd1,
                  hfr1, hp1⟩
              | bug =>
                simp only [hev] at heq
                cases heq
                exact ⟨bnd1, sk1, al1, hsy1, hre1, hln1, hcL1, ha1, hnd1,
                  hfr1, hp1⟩

/-- The five confinement statements hold at every fuel level. -/
theorem evalConf (fuel : Nat) :
    ConfIn fuel ∧ ConfList fuel ∧ ConfListAux fuel ∧ ConfApply fuel ∧
    ConfBody fuel := by
  induction fuel with
  | zero => exact conf_zero
  | succ f ih =>
    obtain ⟨ihIn, ihList, ihAux, ihApply, ihBody⟩ := ih
    exact ⟨confIn_step f ihIn ihList ihApply, confList_step f ihIn ihAux,
      confListAux_step f ihIn ihAux, confApply_step f ihBody,
      confBody_step f ihIn ihBody⟩

/-- `Heap::apply` never mutates a pre-existing cell: it writes only to
its freshly allocated frame, binding cells, and argument-list cells. -/
theorem applyFn_preserves {fuel : Nat} {h : Heap} {op args : Expr}
    {st : Res Expr} {h' : Heap} (heq : applyFn fuel h op args = (st, h')) :
    h'.symbols = h.symbols ∧ h'.root_env = h.root_env ∧
    h.cells.length ≤ h'.cells.length ∧
    (∀ k c, cellAt h.cells k = some c → cellAt h'.cells k = some c) :=
  (evalConf fuel).2.2.2.1 heq

/-- Evaluation in a well-formed environment frame is frame confined:
every pre-existing cell below the protection boundary other than the
frame cell and its binding cells is preserved. -/
theorem evalIn_confine {fuel N : Nat} {h : Heap} {L : Nat} {e : Expr}
    {st : Res Expr} {h' : Heap} {par bnd : Expr} {m : Bool} {sk : List Nat}
    {al : List (Expr × Expr)}
    (hc : cellAt h.cells L = some (par, bnd, m))
    (ha : AlistRep h.cells bnd sk al) (hnd : (L :: sk).Nodup)
    (hN : N ≤ h.cells.length)
    (heq : evalIn fuel h (.Pair L) e = (st, h')) :
    ∃ bnd' sk' al', FCB N h h' L par m sk bnd' sk' al' :=
  (evalConf fuel).1 hc ha hnd hN heq

/-!  Claim C1: the LAMBDA special form and closure application. -/

/-- The parameter-validation loop of `make_closure` accepts any proper
list of symbols (given enough fuel). -/
theorem paramCheck_ok {h : Heap} {e : Expr} {ps : List Expr}
    (hr : HListRep h.cells e ps) (hsym : ∀ p ∈ ps, p.is_symbol = true) :
    ∀ {fuel : Nat}, ps.length < fuel → paramCheck h fuel e = .ok () := by
  obtain ⟨ks, hk⟩ := hr
  induction hk with
  | nil =>
    intro fuel hf
    cases fuel with
    | zero => omega
    | succ f => simp [paramCheck]
  | @cons k x rest m xs ks0 hck tl ih =>
    intro fuel hf
    cases fuel with
    | zero => omega
    | succ f =>
      have hgf : get_first h (.Pair k) = .ok x := by simp [get_first, hck]
      have hgr : get_rest h (.Pair k) = .ok rest := by simp [get_rest, hck]
      have hxs : x.is_symbol = true := hsym x (by simp)
      have hih := ih (fun p hp => hsym p (by simp [hp]))
        (show xs.length < f by simp only [List.length_cons] at hf; omega)
      simp [paramCheck, hgf, hgr, hxs, rbind, hih]

/-- Counterexample heap for C1: the form `(LAMBDA (X) 1 2)` — a
parameter list followed by two body forms — in a trivial environment. -/
def lambdaArityHeap : Heap :=
  { symbols := .Nil, root_env := .Pair 0, cells :=
      [some (.Nil, .Nil, false),
       some (.Symbol "X".toList, .Nil, false),
       some (.Integer 2, .Nil, false),
       some (.Integer 1, .Pair 2, false),
       some (.Pair 1, .Pair 3, false),
       some (.Symbol "LAMBDA".toList, .Pair 4, false)] }

/-- C1 counterexample: `(LAMBDA (X) 1 2)` passes LAMBDA three arguments
(one parameter list and two body forms).  The claim says any argument
list of length ≥ 2 is accepted and yields a closure, but the interpreter
rejects it with `WrongNumberOfArgs`: `test_length(args, 2)` is an exact
length test, not a minimum. -/
theorem c1_counterexample :
    HListRep lambdaArityHeap.cells (.Pair 5)
      [.Symbol "LAMBDA".toList, .Pair 1, .Integer 1, .Integer 2] ∧
    evalIn 2 lambdaArityHeap (.Pair 0) (.Pair 5) =
      (.err .WrongNumberOfArgs, lambdaArityHeap) := by
  constructor
  · exact ⟨[5, 4, 3, 2], .cons rfl (.cons rfl (.cons rfl (.cons rfl .nil)))⟩
  · decide

/-- C1 (amended): the LAMBDA special form requires exactly two
arguments — one parameter list and exactly one body form.  (a) With
exactly two arguments, a proper parameter list of symbols, it evaluates
to a closure capturing the environment by reference, the parameter list,
and the one-form body list.  (b) With any other argument count it
signals `WrongNumberOfArgs`.  (c) Applying such a closure to a matching
argument list binds the parameters in a fresh frame on the captured
environment and returns exactly the value that the single body form
evaluates to in that frame. -/
theorem c1_lambda_two_args :
    (∀ (fuel : Nat) (h : Heap) (env paramsE b : Expr) (ps : List Expr)
      (k0 k1 k2 : Nat) (m0 m1 m2 : Bool),
      cellAt h.cells k0 = some (.Symbol "LAMBDA".toList, .Pair k1, m0) →
      cellAt h.cells k1 = some (paramsE, .Pair k2, m1) →
      cellAt h.cells k2 = some (b, .Nil, m2) →
      HListRep h.cells paramsE ps →
      (∀ p ∈ ps, p.is_symbol = true) →
      ps.length < fuel + 1 →
      evalIn (fuel + 1) h env (.Pair k0) =
        (.ok (.Closure (h.cells.length + 1)),
          { h with cells := h.cells ++
            [some (paramsE, .Pair k2, false),
             some (env, .Pair h.cells.length, false)] })) ∧
    (∀ (fuel : Nat) (h : Heap) (env rest : Expr) (xs : List Expr)
      (k0 : Nat) (m0 : Bool),
      cellAt h.cells k0 = some (.Symbol "LAMBDA".toList, rest, m0) →
      HListRep h.cells rest xs →
      xs.length ≠ 2 →
      evalIn (fuel + 1) h env (.Pair k0) = (.err .WrongNumberOfArgs, h)) ∧
    (∀ (g : Nat) (h : Heap) (ck ki kb : Nat) (envc paramsE b argsE : Expr)
      (mc mi mb : Bool) (ps vs : List Expr) (pks vks : List Nat),
      cellAt h.cells ck = some (envc, .Pair ki, mc) →
      cellAt h.cells ki = some (paramsE, .Pair kb, mi) →
      cellAt h.cells kb = some (b, .Nil, mb) →
      HListRepK h.cells paramsE ps pks →
      HListRepK h.cells argsE vs vks →
      (∀ p ∈ ps, p.is_symbol = true) →
      ps.length = vs.length →
      1 ≤ g → ps.length < g + 2 →
      ∃ h2 bnd2 sk2,
        bindLoop (g + 2) (g + 2)
          { h with cells := h.cells ++ [some (envc, .Nil, false)] }
          (.Pair h.cells.length) paramsE argsE = (.ok (), h2) ∧
        cellAt h2.cells h.cells.length = some (envc, bnd2, false) ∧
        AlistRep h2.cells bnd2 sk2
          ((ps.zip vs).foldl (fun a p => alUpdate a p.1 p.2) []) ∧
        cellAt h2.cells kb = some (b, .Nil, mb) ∧
        (∀ (v : Expr) (h3 : Heap),
          evalIn g h2 (.Pair h.cells.length) b = (.ok v, h3) →
          applyFn (g + 2) h (.Closure ck) argsE = (.ok v, h3))) := by
  refine ⟨?_, ?_, ?_⟩
  · intro fuel h env paramsE b ps k0 k1 k2 m0 m1 m2 hc0 hc1 hc2 hps hsym hfl
    have hfr : get_first_rest h (.Pair k0) =
        .ok (.Symbol "LAMBDA".toList, .Pair k1) := by
      simp [get_first_rest, getFR, hc0]
    have htl : test_length h (.Pair k1) 2 = .ok true := by
      rw [test_length_rep ⟨[k1, k2], .cons hc1 (.cons hc2 .nil)⟩ 2]
      rfl
    have hg1 : get_first h (.Pair k1) = .ok paramsE := by simp [get_first, hc1]
    have hg2 : get_rest h (.Pair k1) = .ok (.Pair k2) := by simp [get_rest, hc1]
    have hpc : paramCheck h (fuel + 1) paramsE = .ok () :=
      paramCheck_ok hps hsym hfl
    simp +decide [evalIn, hfr, htl, hg1, hg2, make_closure, hpc, make_cons]
  · intro fuel h env rest xs k0 m0 hc0 hxs hne
    have hfr : get_first_rest h (.Pair k0) =
        .ok (.Symbol "LAMBDA".toList, rest) := by
      simp [get_first_rest, getFR, hc0]
    have hb2 : (2 == xs.length) = false := by
      cases hq : (2 == xs.length) with
      | false => rfl
      | true =>
        have h2x : (2 : Nat) = xs.length := by simpa using hq
        exact absurd h2x.symm hne
    have htl : test_length h rest 2 = .ok false := by
      rw [test_length_rep hxs 2, hb2]
    simp +decide [evalIn, hfr, htl]
  · intro g h ck ki kb envc paramsE b argsE mc mi mb ps vs pks vks
      hck hki hkb hps hvs hsym hlen hg hpl
    have hckn : ck < h.cells.length := cellAt_lt_length hck
    have hkin : ki < h.cells.length := cellAt_lt_length hki
    have hkbn : kb < h.cells.length := cellAt_lt_length hkb
    have hpres1 : PreservesCells h.cells
        (h.cells ++ [some (envc, .Nil, false)]) :=
      preservesCells_append _ _
    have hps1 : HListRepK (h.cells ++ [some (envc, .Nil, false)]) paramsE ps pks :=
      HListRepK_mono hpres1 hps
    have hvs1 : HListRepK (h.cells ++ [some (envc, .Nil, false)]) argsE vs vks :=
      HListRepK_mono hpres1 hvs
    have hcN : cellAt (h.cells ++ [some (envc, .Nil, false)]) h.cells.length =
        some (envc, .Nil, false) := cellAt_append_self _ _
    have hdisjN : ∀ j ∈ [h.cells.length], j ∉ pks ∧ j ∉ vks := by
      intro j hj
      have hjN : j = h.cells.length := by simpa using hj
      subst hjN
      constructor
      · intro hx
        have := HListRepK_keys_lt hps _ hx
        omega
      · intro hx
        have := HListRepK_keys_lt hvs _ hx
        omega
    have hbn : ps.length < g + 2 := hpl
    have hbf : ([] : List (Expr × Expr)).length + ps.length < g + 2 := by
      simp
      omega
    obtain ⟨h2, bnd2, sk2, heqB, hsy2, hre2, hln2, hcL2, harep2, hnd2, hskf2,
      hout2⟩ :=
      bindLoop_rep ps (h := { h with cells := h.cells ++ [some (envc, .Nil, false)] })
        hps1 hvs1 hsym hlen hcN .nil (by simp) hdisjN hbn hbf
    have hsurv : ∀ k c, cellAt h.cells k = some c → cellAt h2.cells k = some c := by
      intro k c hkc
      have hklt := cellAt_lt_length hkc
      exact hout2 k c (hpres1 k c hkc) (by omega) (by simp)
    have hck2 : cellAt h2.cells ck = some (envc, .Pair ki, mc) := hsurv ck _ hck
    have hki2 : cellAt h2.cells ki = some (paramsE, .Pair kb, mi) := hsurv ki _ hki
    have hkb2 : cellAt h2.cells kb = some (b, .Nil, mb) := hsurv kb _ hkb
    refine ⟨h2, bnd2, sk2, heqB, hcL2, harep2, hkb2, ?_⟩
    intro v h3 hev
    have hln12 : h.cells.length + 1 ≤ h2.cells.length := by
      simpa using hln2
    obtain ⟨bnd3, sk3, al3, f3⟩ :=
      evalIn_confine (N := h.cells.length) hcL2 harep2 hnd2 (by omega) hev
    obtain ⟨hsy3, hre3, hln3, hcL3, ha3, hnd3, hfr3, hp3⟩ := f3
    have hkb3 : cellAt h3.cells kb = some (b, .Nil, mb) := by
      refine hp3 kb _ hkb2 hkbn (by omega) ?_
      intro hx
      rcases hskf2 kb hx with hk0 | hkf
      · simp at hk0
      · simp only [List.length_append, List.length_cons, List.length_nil] at hkf
        omega
    obtain ⟨q, rfl⟩ : ∃ q, g = q + 1 := ⟨g - 1, by omega⟩
    have hgf2 : get_first h2 (.Pair kb) = .ok b := by simp [get_first, hkb2]
    have hgr3 : get_rest h3 (.Pair kb) = .ok .Nil := by simp [get_rest, hkb3]
    have hlast : evalBody (q + 1) h3 (.Pair h.cells.length) .Nil v =
        (.ok v, h3) := by
      simp [evalBody]
    have hbody : evalBody (q + 1 + 1) h2 (.Pair h.cells.length) (.Pair kb) .Nil =
        (.ok v, h3) := by
      simp [evalBody, hgf2, hev, hgr3, hlast]
    have hle : get_lambda_env h (.Closure ck) = .ok envc := by
      simp [get_lambda_env, hck]
    have hc1ck : cellAt (h.cells ++ [some (envc, .Nil, false)]) ck =
        some (envc, .Pair ki, mc) := hpres1 ck _ hck
    have hc1ki : cellAt (h.cells ++ [some (envc, .Nil, false)]) ki =
        some (paramsE, .Pair kb, mi) := hpres1 ki _ hki
    have hla : get_lambda_args
        { h with cells := h.cells ++ [some (envc, .Nil, false)] }
        (.Closure ck) = .ok paramsE := by
      simp [get_lambda_args, hc1ck, get_first, hc1ki]
    have hlb : get_lambda_body h2 (.Closure ck) = .ok (.Pair kb) := by
      simp [get_lambda_body, hck2, get_rest, hki2]
    show applyFn (q + 2 + 1) h (.Closure ck) argsE = (.ok v, h3)
    simp only [applyFn, hle, make_env, make_cons]
    simp only [hla, heqB, hlb, hbody]

/-- Witness heap for C1 (a): `(LAMBDA (X) X)` in a trivial frame. -/
def c1LamHeap : Heap :=
  { symbols := .Nil, root_env := .Pair 0, cells :=
      [some (.Nil, .Nil, false),
       some (.Symbol "X".toList, .Nil, false),
       some (.Symbol "X".toList, .Nil, false),
       some (.Pair 1, .Pair 2, false),
       some (.Symbol "LAMBDA".toList, .Pair 3, false)] }

/-- Witness heap for C1 (c): a closure `(LAMBDA (X) X)` applied to the
argument list `(7)`. -/
def c1AppHeap : Heap :=
  { symbols := .Nil, root_env := .Pair 0, cells :=
      [some (.Nil, .Nil, false),
       some (.Symbol "X".toList, .Nil, false),
       some (.Symbol "X".toList, .Nil, false),
       some (.Pair 1, .Pair 2, false),
       some (.Pair 0, .Pair 3, false),
       some (.Integer 7, .Nil, false)] }

theorem c1_lambda_two_args_witness :
    (evalIn 2 c1LamHeap (.Pair 0) (.Pair 4) =
      (.ok (.Closure 6),
        { c1LamHeap with cells := c1LamHeap.cells ++
          [some (.Pair 1, .Pair 2, false), some (.Pair 0, .Pair 5, false)] })) ∧
    (evalIn 2 lambdaArityHeap (.Pair 0) (.Pair 5) =
      (.err .WrongNumberOfArgs, lambdaArityHeap)) ∧
    (∃ h2 bnd2 sk2,
      bindLoop 4 4 { c1AppHeap with cells :=
          c1AppHeap.cells ++ [some (.Pair 0, .Nil, false)] }
        (.Pair 6) (.Pair 1) (.Pair 5) = (.ok (), h2) ∧
      cellAt h2.cells 6 = some (.Pair 0, bnd2, false) ∧
      AlistRep h2.cells bnd2 sk2
        (([(Expr.Symbol "X".toList, Expr.Integer 7)] :
          List (Expr × Expr)).foldl (fun a p => alUpdate a p.1 p.2) []) ∧
      cellAt h2.cells 2 = some (.Symbol "X".toList, .Nil, false) ∧
      (∀ (v : Expr) (h3 : Heap),
        evalIn 2 h2 (.Pair 6) (.Symbol "X".toList) = (.ok v, h3) →
        applyFn 4 c1AppHeap (.Closure 4) (.Pair 5) = (.ok v, h3))) := by
  refine ⟨?_, ?_, ?_⟩
  · exact c1_lambda_two_args.1 1 c1LamHeap (.Pair 0) (.Pair 1)
      (.Symbol "X".toList) [.Symbol "X".toList] 4 3 2 false false false
      rfl rfl rfl ⟨[1], .cons rfl .nil⟩ (by decide) (by decide)
  · exact c1_lambda_two_args.2.1 1 lambdaArityHeap (.Pair 0) (.Pair 4)
      [.Pair 1, .Integer 1, .Integer 2] 5 false rfl
      ⟨[4, 3, 2], .cons rfl (.cons rfl (.cons rfl .nil))⟩ (by decide)
  · have hz : (([(Expr.Symbol "X".toList, Expr.Integer 7)] :
        List (Expr × Expr))) =
        ([Expr.Symbol "X".toList].zip [Expr.Integer 7]) := rfl
    rw [hz]
    exact c1_lambda_two_args.2.2 2 c1AppHeap 4 3 2 (.Pair 0) (.Pair 1)
      (.Symbol "X".toList) (.Pair 5) false false false
      [.Symbol "X".toList] [.Integer 7] [1] [5]
      rfl rfl rfl (.cons rfl .nil) (.cons rfl .nil) (by decide) rfl
      (by decide) (by decide)

/-- Witness heap for C10: the closure `(LAMBDA (X X) X)` applied to the
argument list `(1 2)`. -/
def c10Heap : Heap :=
  { symbols := .Nil, root_env := .Pair 0, cells :=
      [some (.Nil, .Nil, false),
       some (.Symbol "X".toList, .Pair 2, false),
       some (.Symbol "X".toList, .Nil, false),
       some (.Symbol "X".toList, .Nil, false),
       some (.Pair 1, .Pair 3, false),
       some (.Pair 0, .Pair 4, false),
       some (.Integer 1, .Pair 7, false),
       some (.Integer 2, .Nil, false)] }

theorem c10_duplicate_params_witness :
    ∃ v h', lastBind ([Expr.Symbol "X".toList, Expr.Symbol "X".toList].zip
        [Expr.Integer 1, Expr.Integer 2]) (.Symbol "X".toList) = some v ∧
      applyFn 5 c10Heap (.Closure 5) (.Pair 6) = (.ok v, h') :=
  c10_duplicate_params 4 c10Heap 5 4 3 (.Pair 0) (.Pair 1) (.Pair 6)
    false false false [.Symbol "X".toList, .Symbol "X".toList]
    [.Integer 1, .Integer 2] [1, 2] [6, 7] "X".toList
    rfl rfl rfl (.cons rfl (.cons rfl .nil)) (.cons rfl (.cons rfl .nil))
    (by decide) rfl (by decide) (by decide)

/-!  Claim C3: the garbage collector preserves every root-reachable
cell.  The mark phase is analysed through unfolding equations, a
mark-monotonicity lemma, a soundness lemma (marked ⊆ reachable) and a
completeness invariant (reachable ⊆ marked). -/

theorem markLoop_nil (cs : List (Option CCell)) : markLoop cs [] = cs := by
  simp [markLoop]

theorem markLoop_pair_false {cs : List (Option CCell)} {k : Nat} {f r : Expr}
    (hc : cellAt cs k = some (f, r, false)) (rest : List Expr) :
    markLoop cs (.Pair k :: rest) =
      markLoop (cs.set k (some (f, r, true))) (r :: f :: rest) := by
  simp only [markLoop]
  split
  · rename_i f2 r2 hc2
    rw [hc] at hc2
    simp only [Option.some.injEq, Prod.mk.injEq] at hc2
    obtain ⟨h1, h2, -⟩ := hc2
    subst h1
    subst h2
    rfl
  · rename_i f2 r2 hc2
    rw [hc] at hc2
    simp at hc2
  · rename_i hc2
    rw [hc] at hc2
    simp at hc2

theorem markLoop_pair_true {cs : List (Option CCell)} {k : Nat} {f r : Expr}
    (hc : cellAt cs k = some (f, r, true)) (rest : List Expr) :
    markLoop cs (.Pair k :: rest) = markLoop cs rest := by
  simp only [markLoop]
  split
  all_goals first
    | rfl
    | (rename_i hc2
       rw [hc] at hc2
       simp at hc2)

theorem markLoop_pair_none {cs : List (Option CCell)} {k : Nat}
    (hc : cellAt cs k = none) (rest : List Expr) :
    markLoop cs (.Pair k :: rest) = markLoop cs rest := by
  simp only [markLoop]
  split
  all_goals first
    | rfl
    | (rename_i hc2
       rw [hc] at hc2
       simp at hc2)

theorem markLoop_closure_false {cs : List (Option CCell)} {k : Nat} {f r : Expr}
    (hc : cellAt cs k = some (f, r, false)) (rest : List Expr) :
    markLoop cs (.Closure k :: rest) =
      markLoop (cs.set k (some (f, r, true))) (r :: f :: rest) := by
  simp only [markLoop]
  split
  · rename_i f2 r2 hc2
    rw [hc] at hc2
    simp only [Option.some.injEq, Prod.mk.injEq] at hc2
    obtain ⟨h1, h2, -⟩ := hc2
    subst h1
    subst h2
    rfl
  · rename_i f2 r2 hc2
    rw [hc] at hc2
    simp at hc2
  · rename_i hc2
    rw [hc] at hc2
    simp at hc2

theorem markLoop_closure_true {cs : List (Option CCell)} {k : Nat} {f r : Expr}
    (hc : cellAt cs k = some (f, r, true)) (rest : List Expr) :
    markLoop cs (.Closure k :: rest) = markLoop cs rest := by
  simp only [markLoop]
  split
  all_goals first
    | rfl
    | (rename_i hc2
       rw [hc] at hc2
       simp at hc2)

theorem markLoop_closure_none {cs : List (Option CCell)} {k : Nat}
    (hc : cellAt cs k = none) (rest : List Expr) :
    markLoop cs (.Closure k :: rest) = markLoop cs rest := by
  simp only [markLoop]
  split
  all_goals first
    | rfl
    | (rename_i hc2
       rw [hc] at hc2
       simp at hc2)

theorem cellAt_clearMarks (cs : List (Option CCell)) (k : Nat) :
    cellAt (clearMarks cs) k =
      (cellAt cs k).map fun c => (c.1, c.2.1, false) := by
  induction cs generalizing k with
  | nil => simp [clearMarks, cellAt]
  | cons x t ih =>
    cases k with
    | zero =>
      cases x with
      | none => simp [clearMarks, cellAt]
      | some c => simp [clearMarks, cellAt]
    | succ j =>
      have := ih j
      simpa [clearMarks, cellAt] using this

theorem cellAt_sweep (cs : List (Option CCell)) (k : Nat) :
    cellAt (sweep cs) k =
      match cellAt cs k with
      | some (f, r, true) => some (f, r, true)
      | _ => none := by
  induction cs generalizing k with
  | nil => simp [sweep, cellAt]
  | cons x t ih =>
    cases k with
    | zero =>
      cases x with
      | none => simp [sweep, cellAt]
      | some c =>
        obtain ⟨f, r, m⟩ := c
        cases m with
        | false => simp [sweep, cellAt]
        | true => simp [sweep, cellAt]
    | succ j =>
      have := ih j
      simpa [sweep, cellAt] using this

/-- The mark phase changes no cell except by flipping an unmarked live
cell's mark to `true`. -/
theorem markLoop_shape (cs : List (Option CCell)) (wl : List Expr) :
    ∀ k, cellAt (markLoop cs wl) k = cellAt cs k ∨
      ∃ f r, cellAt cs k = some (f, r, false) ∧
        cellAt (markLoop cs wl) k = some (f, r, true) := by
  induction cs, wl using markLoop.induct with
  | case1 cs => intro k; exact .inl (by rw [markLoop_nil])
  | case2 cs rest k0 f r hc ih =>
    intro k
    rw [markLoop_pair_false hc]
    rcases ih k with h1 | ⟨f2, r2, h2, h3⟩
    · by_cases hk : k = k0
      · subst hk
        refine .inr ⟨f, r, hc, ?_⟩
        rw [h1, cellAt_set_self _ _ (cellAt_lt_length hc)]
      · rw [h1, cellAt_set_ne _ _ _ (fun hx => hk hx.symm)]
        exact .inl rfl
    · by_cases hk : k = k0
      · subst hk
        rw [cellAt_set_self _ _ (cellAt_lt_length hc)] at h2
        simp at h2
      · rw [cellAt_set_ne _ _ _ (fun hx => hk hx.symm)] at h2
        exact .inr ⟨f2, r2, h2, h3⟩
  | case3 cs rest k0 f r hc ih =>
    intro k
    rw [markLoop_pair_true hc]
    exact ih k
  | case4 cs rest k0 hc ih =>
    intro k
    rw [markLoop_pair_none hc]
    exact ih k
  | case5 cs rest k0 f r hc ih =>
    intro k
    rw [markLoop_closure_false hc]
    rcases ih k with h1 | ⟨f2, r2, h2, h3⟩
    · by_cases hk : k = k0
      · subst hk
        refine .inr ⟨f, r, hc, ?_⟩
        rw [h1, cellAt_set_self _ _ (cellAt_lt_length hc)]
      · rw [h1, cellAt_set_ne _ _ _ (fun hx => hk hx.symm)]
        exact .inl rfl
    · by_cases hk : k = k0
      · subst hk
        rw [cellAt_set_self _ _ (cellAt_lt_length hc)] at h2
        simp at h2
      · rw [cellAt_set_ne _ _ _ (fun hx => hk hx.symm)] at h2
        exact .inr ⟨f2, r2, h2, h3⟩
  | case6 cs rest k0 f r hc ih =>
    intro k
    rw [markLoop_closure_true hc]
    exact ih k
  | case7 cs rest k0 hc ih =>
    intro k
    rw [markLoop_closure_none hc]
    exact ih k
  | case8 cs e rest hnp hnc ih =>
    intro k
    have hstep : markLoop cs (e :: rest) = markLoop cs rest := by
      cases e with
      | Pair j => exact absurd rfl (hnp j)
      | Closure j => exact absurd rfl (hnc j)
      | Nil => simp [markLoop]
      | Boolean b => simp [markLoop]
      | Integer n => simp [markLoop]
      | Symbol s => simp [markLoop]
      | Primitive d => simp [markLoop]
    rw [hstep]
    exact ih k

/-- Cell keys reachable from a value through the `first`/`rest` fields
of cells — exactly the cells `Heap::collect` can mark from that value. -/
inductive Reach (cs : List (Option CCell)) : Expr → Nat → Prop where
  | pair (k : Nat) : Reach cs (.Pair k) k
  | closure (k : Nat) : Reach cs (.Closure k) k
  | fst {e : Expr} {k j : Nat} {c : CCell} :
      Reach cs e k → cellAt cs k = some c → Reach cs c.1 j → Reach cs e j
  | snd {e : Expr} {k j : Nat} {c : CCell} :
      Reach cs e k → cellAt cs k = some c → Reach cs c.2.1 j → Reach cs e j

/-- Reachability only depends on the fields of live cells. -/
theorem Reach_congr {cs cs' : List (Option CCell)}
    (hag : ∀ k c, cellAt cs k = some c →
      ∃ m', cellAt cs' k = some (c.1, c.2.1, m')) :
    ∀ {e : Expr} {j : Nat}, Reach cs e j → Reach cs' e j := by
  intro e j hre
  induction hre with
  | pair k => exact .pair k
  | closure k => exact .closure k
  | @fst e k j c h1 hc h2 ih1 ih2 =>
    obtain ⟨m', hc'⟩ := hag k c hc
    exact .fst ih1 hc' ih2
  | @snd e k j c h1 hc h2 ih1 ih2 =>
    obtain ⟨m', hc'⟩ := hag k c hc
    exact .snd ih1 hc' ih2

/-- Every derivation of reachability starts from the value's own
reference. -/
theorem Reach_cases {cs : List (Option CCell)} {e : Expr} {k : Nat}
    (h : Reach cs e k) :
    (e = .Pair k ∨ e = .Closure k) ∨
    (∃ j c, (e = .Pair j ∨ e = .Closure j) ∧ cellAt cs j = some c ∧
      (Reach cs c.1 k ∨ Reach cs c.2.1 k)) := by
  induction h with
  | pair k => exact .inl (.inl rfl)
  | closure k => exact .inl (.inr rfl)
  | @fst e k j c h1 hc h2 ih1 ih2 =>
    rcases ih1 with he | ⟨j0, c0, he0, hc0, hr0⟩
    · exact .inr ⟨k, c, he, hc, .inl h2⟩
    · rcases hr0 with hr1 | hr2
      · exact .inr ⟨j0, c0, he0, hc0, .inl (.fst hr1 hc h2)⟩
      · exact .inr ⟨j0, c0, he0, hc0, .inr (.fst hr2 hc h2)⟩
  | @snd e k j c h1 hc h2 ih1 ih2 =>
    rcases ih1 with he | ⟨j0, c0, he0, hc0, hr0⟩
    · exact .inr ⟨k, c, he, hc, .inr h2⟩
    · rcases hr0 with hr1 | hr2
      · exact .inr ⟨j0, c0, he0, hc0, .inl (.snd hr1 hc h2)⟩
      · exact .inr ⟨j0, c0, he0, hc0, .inr (.snd hr2 hc h2)⟩

theorem markLoop_other {cs : List (Option CCell)} {e : Expr}
    (hnp : ∀ j, e = .Pair j → False) (hnc : ∀ j, e = .Closure j → False)
    (rest : List Expr) : markLoop cs (e :: rest) = markLoop cs rest := by
  cases e with
  | Pair j => exact absurd rfl (hnp j)
  | Closure j => exact absurd rfl (hnc j)
  | Nil => simp [markLoop]
  | Boolean b => simp [markLoop]
  | Integer n => simp [markLoop]
  | Symbol s => simp [markLoop]
  | Primitive d => simp [markLoop]

/-- Soundness of the mark phase: a cell marked by the worklist loop was
already marked, or is reachable (in the reference heap `cs0`, which
agrees with `cs` on fields) from some worklist entry. -/
theorem markLoop_sound (cs0 : List (Option CCell)) :
    ∀ (cs : List (Option CCell)) (wl : List Expr),
    (∀ k c, cellAt cs k = some c →
      ∃ m', cellAt cs0 k = some (c.1, c.2.1, m')) →
    ∀ k f r, cellAt (markLoop cs wl) k = some (f, r, true) →
      cellAt cs k = some (f, r, true) ∨ ∃ e ∈ wl, Reach cs0 e k := by
  intro cs wl
  induction cs, wl using markLoop.induct with
  | case1 cs =>
    intro hfe k f r hm
    rw [markLoop_nil] at hm
    exact .inl hm
  | case2 cs rest k0 f0 r0 hc ih =>
    intro hfe k f r hm
    rw [markLoop_pair_false hc] at hm
    have hfe2 : ∀ k c, cellAt (cs.set k0 (some (f0, r0, true))) k = some c →
        ∃ m', cellAt cs0 k = some (c.1, c.2.1, m') := by
      intro k c hkc
      by_cases hk : k0 = k
      · subst hk
        rw [cellAt_set_self _ _ (cellAt_lt_length hc)] at hkc
        cases hkc
        exact hfe k0 (f0, r0, false) hc
      · rw [cellAt_set_ne _ _ _ hk] at hkc
        exact hfe k c hkc
    rcases ih hfe2 k f r hm with h1 | ⟨e, he, hre⟩
    · by_cases hk : k0 = k
      · subst hk
        exact .inr ⟨.Pair k0, by simp, Reach.pair k0⟩
      · rw [cellAt_set_ne _ _ _ hk] at h1
        exact .inl h1
    · rcases List.mem_cons.mp he with he1 | he2
      · obtain ⟨m', hc0⟩ := hfe k0 (f0, r0, false) hc
        exact .inr ⟨.Pair k0, by simp, Reach.snd (Reach.pair k0) hc0 (he1 ▸ hre)⟩
      · rcases List.mem_cons.mp he2 with he1 | he3
        · obtain ⟨m', hc0⟩ := hfe k0 (f0, r0, false) hc
          exact .inr ⟨.Pair k0, by simp, Reach.fst (Reach.pair k0) hc0 (he1 ▸ hre)⟩
        · exact .inr ⟨e, by simp [he3], hre⟩
  | case3 cs rest k0 f0 r0 hc ih =>
    intro hfe k f r hm
    rw [markLoop_pair_true hc] at hm
    rcases ih hfe k f r hm with h1 | ⟨e, he, hre⟩
    · exact .inl h1
    · exact .inr ⟨e, by simp [he], hre⟩
  | case4 cs rest k0 hc ih =>
    intro hfe k f r hm
    rw [markLoop_pair_none hc] at hm
    rcases ih hfe k f r hm with h1 | ⟨e, he, hre⟩
    · exact .inl h1
    · exact .inr ⟨e, by simp [he], hre⟩
  | case5 cs rest k0 f0 r0 hc ih =>
    intro hfe k f r hm
    rw [markLoop_closure_false hc] at hm
    have hfe2 : ∀ k c, cellAt (cs.set k0 (some (f0, r0, true))) k = some c →
        ∃ m', cellAt cs0 k = some (c.1, c.2.1, m') := by
      intro k c hkc
      by_cases hk : k0 = k
      · subst hk
        rw [cellAt_set_self _ _ (cellAt_lt_length hc)] at hkc
        cases hkc
        exact hfe k0 (f0, r0, false) hc
      · rw [cellAt_set_ne _ _ _ hk] at hkc
        exact hfe k c hkc
    rcases ih hfe2 k f r hm with h1 | ⟨e, he, hre⟩
    · by_cases hk : k0 = k
      · subst hk
        exact .inr ⟨.Closure k0, by simp, Reach.closure k0⟩
      · rw [cellAt_set_ne _ _ _ hk] at h1
        exact .inl h1
    · rcases List.mem_cons.mp he with he1 | he2
      · obtain ⟨m', hc0⟩ := hfe k0 (f0, r0, false) hc
        exact .inr ⟨.Closure k0, by simp, Reach.snd (Reach.closure k0) hc0 (he1 ▸ hre)⟩
      · rcases List.mem_cons.mp he2 with he1 | he3
        · obtain ⟨m', hc0⟩ := hfe k0 (f0, r0, false) hc
          exact .inr ⟨.Closure k0, by simp, Reach.fst (Reach.closure k0) hc0 (he1 ▸ hre)⟩
        · exact .inr ⟨e, by simp [he3], hre⟩
  | case6 cs rest k0 f0 r0 hc ih =>
    intro hfe k f r hm
    rw [markLoop_closure_true hc] at hm
    rcases ih hfe k f r hm with h1 | ⟨e, he, hre⟩
    · exact .inl h1
    · exact .inr ⟨e, by simp [he], hre⟩
  | case7 cs rest k0 hc ih =>
    intro hfe k f r hm
    rw [markLoop_closure_none hc] at hm
    rcases ih hfe k f r hm with h1 | ⟨e, he, hre⟩
    · exact .inl h1
    · exact .inr ⟨e, by simp [he], hre⟩
  | case8 cs e rest hnp hnc ih =>
    intro hfe k f r hm
    rw [markLoop_other hnp hnc] at hm
    rcases ih hfe k f r hm with h1 | ⟨e2, he, hre⟩
    · exact .inl h1
    · exact .inr ⟨e2, by simp [he], hre⟩

/-- All cell references of a value are marked (or dead) in `cs`. -/
def RefsMarked (cs : List (Option CCell)) (e : Expr) : Prop :=
  ∀ j, (e = .Pair j ∨ e = .Closure j) →
    (∃ f r, cellAt cs j = some (f, r, true)) ∨ cellAt cs j = none

/-- The mark phase never unmarks a cell. -/
theorem marked_mono {cs : List (Option CCell)} (wl : List Expr) {k : Nat}
    {f r : Expr} (hm : cellAt cs k = some (f, r, true)) :
    cellAt (markLoop cs wl) k = some (f, r, true) := by
  rcases markLoop_shape cs wl k with h1 | ⟨f2, r2, h2, h3⟩
  · rw [h1]
    exact hm
  · rw [hm] at h2
    simp at h2

/-- The mark phase never revives a dead key. -/
theorem dead_mono {cs : List (Option CCell)} (wl : List Expr) {k : Nat}
    (hm : cellAt cs k = none) : cellAt (markLoop cs wl) k = none := by
  rcases markLoop_shape cs wl k with h1 | ⟨f2, r2, h2, h3⟩
  · rw [h1]
    exact hm
  · rw [hm] at h2
    simp at h2

theorem RefsMarked_mono {cs : List (Option CCell)} (wl : List Expr) {e : Expr}
    (h : RefsMarked cs e) : RefsMarked (markLoop cs wl) e := by
  intro j hj
  rcases h j hj with ⟨f, r, hm⟩ | hn
  · exact .inl ⟨f, r, marked_mono wl hm⟩
  · exact .inr (dead_mono wl hn)

/-- Completeness invariant of the mark phase: if every already-marked
cell's fields are marked-or-pending, then after the loop every marked
cell's fields are marked, and every worklist entry's references are
marked (or dead). -/
theorem markLoop_complete :
    ∀ (cs : List (Option CCell)) (wl : List Expr),
    (∀ k f r, cellAt cs k = some (f, r, true) →
      (RefsMarked cs f ∨ f ∈ wl) ∧ (RefsMarked cs r ∨ r ∈ wl)) →
    (∀ k f r, cellAt (markLoop cs wl) k = some (f, r, true) →
      RefsMarked (markLoop cs wl) f ∧ RefsMarked (markLoop cs wl) r) ∧
    (∀ e ∈ wl, RefsMarked (markLoop cs wl) e) := by
  intro cs wl
  induction cs, wl using markLoop.induct with
  | case1 cs =>
    intro hinv
    rw [markLoop_nil]
    constructor
    · intro k f r hm
      obtain ⟨h1, h2⟩ := hinv k f r hm
      refine ⟨?_, ?_⟩
      · rcases h1 with h | h
        · exact h
        · simp at h
      · rcases h2 with h | h
        · exact h
        · simp at h
    · intro e he
      simp at he
  | case2 cs rest k0 f0 r0 hc ih =>
    intro hinv
    rw [markLoop_pair_false hc]
    have hk0lt : k0 < cs.length := cellAt_lt_length hc
    have hinv2 : ∀ k f r,
        cellAt (cs.set k0 (some (f0, r0, true))) k = some (f, r, true) →
        (RefsMarked (cs.set k0 (some (f0, r0, true))) f ∨ f ∈ r0 :: f0 :: rest) ∧
        (RefsMarked (cs.set k0 (some (f0, r0, true))) r ∨ r ∈ r0 :: f0 :: rest) := by
      intro k f r hm
      by_cases hk : k0 = k
      · subst hk
        rw [cellAt_set_self _ _ hk0lt] at hm
        obtain ⟨rfl, rfl, -⟩ : f0 = f ∧ r0 = r ∧ True := by
          simpa using hm
        exact ⟨.inr (by simp), .inr (by simp)⟩
      · rw [cellAt_set_ne _ _ _ hk] at hm
        have hlift : ∀ x : Expr, RefsMarked cs x ∨ x ∈ Expr.Pair k0 :: rest →
            RefsMarked (cs.set k0 (some (f0, r0, true))) x ∨
              x ∈ r0 :: f0 :: rest := by
          intro x hx
          rcases hx with hrm | hmem
          · left
            intro j hj
            rcases hrm j hj with ⟨f2, r2, hm2⟩ | hn2
            · by_cases hjk : k0 = j
              · subst hjk
                rw [hc] at hm2
                simp at hm2
              · exact .inl ⟨f2, r2, by rw [cellAt_set_ne _ _ _ hjk]; exact hm2⟩
            · by_cases hjk : k0 = j
              · subst hjk
                rw [hc] at hn2
                simp at hn2
              · exact .inr (by rw [cellAt_set_ne _ _ _ hjk]; exact hn2)
          · rcases List.mem_cons.mp hmem with hx0 | hxr
            · left
              intro j hj
              subst hx0
              have hjk : j = k0 := by
                rcases hj with hj1 | hj1
                · cases hj1
                  rfl
                · cases hj1
              subst hjk
              exact .inl ⟨f0, r0, cellAt_set_self _ _ hk0lt _⟩
            · exact .inr (by simp [hxr])
        obtain ⟨h1, h2⟩ := hinv k f r hm
        exact ⟨hlift f h1, hlift r h2⟩
    obtain ⟨hfin, hwl⟩ := ih hinv2
    refine ⟨hfin, ?_⟩
    intro e he
    rcases List.mem_cons.mp he with he0 | her
    · subst he0
      intro j hj
      have hjk : j = k0 := by
        rcases hj with hj1 | hj1
        · cases hj1
          rfl
        · cases hj1
      subst hjk
      exact .inl ⟨f0, r0, marked_mono _ (cellAt_set_self _ _ hk0lt _)⟩
    · exact hwl e (by simp [her])
  | case3 cs rest k0 f0 r0 hc ih =>
    intro hinv
    rw [markLoop_pair_true hc]
    have hinv2 : ∀ k f r, cellAt cs k = some (f, r, true) →
        (RefsMarked cs f ∨ f ∈ rest) ∧ (RefsMarked cs r ∨ r ∈ rest) := by
      intro k f r hm
      have hlift : ∀ x : Expr, RefsMarked cs x ∨ x ∈ Expr.Pair k0 :: rest →
          RefsMarked cs x ∨ x ∈ rest := by
        intro x hx
        rcases hx with hrm | hmem
        · exact .inl hrm
        · rcases List.mem_cons.mp hmem with hx0 | hxr
          · subst hx0
            left
            intro j hj
            have hjk : j = k0 := by
              rcases hj with hj1 | hj1
              · cases hj1
                rfl
              · cases hj1
            subst hjk
            exact .inl ⟨f0, r0, hc⟩
          · exact .inr hxr
      obtain ⟨h1, h2⟩ := hinv k f r hm
      exact ⟨hlift f h1, hlift r h2⟩
    obtain ⟨hfin, hwl⟩ := ih hinv2
    refine ⟨hfin, ?_⟩
    intro e he
    rcases List.mem_cons.mp he with he0 | her
    · subst he0
      intro j hj
      have hjk : j = k0 := by
        rcases hj with hj1 | hj1
        · cases hj1
          rfl
        · cases hj1
      subst hjk
      exact .inl ⟨f0, r0, marked_mono _ hc⟩
    · exact hwl e her
  | case4 cs rest k0 hc ih =>
    intro hinv
    rw [markLoop_pair_none hc]
    have hinv2 : ∀ k f r, cellAt cs k = some (f, r, true) →
        (RefsMarked cs f ∨ f ∈ rest) ∧ (RefsMarked cs r ∨ r ∈ rest) := by
      intro k f r hm
      have hlift : ∀ x : Expr, RefsMarked cs x ∨ x ∈ Expr.Pair k0 :: rest →
          RefsMarked cs x ∨ x ∈ rest := by
        intro x hx
        rcases hx with hrm | hmem
        · exact .inl hrm
        · rcases List.mem_cons.mp hmem with hx0 | hxr
          · subst hx0
            left
            intro j hj
            have hjk : j = k0 := by
              rcases hj with hj1 | hj1
              · cases hj1
                rfl
              · cases hj1
            subst hjk
            exact .inr hc
          · exact .inr hxr
      obtain ⟨h1, h2⟩ := hinv k f r hm
      exact ⟨hlift f h1, hlift r h2⟩
    obtain ⟨hfin, hwl⟩ := ih hinv2
    refine ⟨hfin, ?_⟩
    intro e he
    rcases List.mem_cons.mp he with he0 | her
    · subst he0
      intro j hj
      have hjk : j = k0 := by
        rcases hj with hj1 | hj1
        · cases hj1
          rfl
        · cases hj1
      subst hjk
      exact .inr (dead_mono _ hc)
    · exact hwl e her
  | case5 cs rest k0 f0 r0 hc ih =>
    intro hinv
    rw [markLoop_closure_false hc]
    have hk0lt : k0 < cs.length := cellAt_lt_length hc
    have hinv2 : ∀ k f r,
        cellAt (cs.set k0 (some (f0, r0, true))) k = some (f, r, true) →
        (RefsMarked (cs.set k0 (some (f0, r0, true))) f ∨ f ∈ r0 :: f0 :: rest) ∧
        (RefsMarked (cs.set k0 (some (f0, r0, true))) r ∨ r ∈ r0 :: f0 :: rest) := by
      intro k f r hm
      by_cases hk : k0 = k
      · subst hk
        rw [cellAt_set_self _ _ hk0lt] at hm
        obtain ⟨rfl, rfl, -⟩ : f0 = f ∧ r0 = r ∧ True := by
          simpa using hm
        exact ⟨.inr (by simp), .inr (by simp)⟩
      · rw [cellAt_set_ne _ _ _ hk] at hm
        have hlift : ∀ x : Expr, RefsMarked cs x ∨ x ∈ Expr.Closure k0 :: rest →
            RefsMarked (cs.set k0 (some (f0, r0, true))) x ∨
              x ∈ r0 :: f0 :: rest := by
          intro x hx
          rcases hx with hrm | hmem
          · left
            intro j hj
            rcases hrm j hj with ⟨f2, r2, hm2⟩ | hn2
            · by_cases hjk : k0 = j
              · subst hjk
                rw [hc] at hm2
                simp at hm2
              · exact .inl ⟨f2, r2, by rw [cellAt_set_ne _ _ _ hjk]; exact hm2⟩
            · by_cases hjk : k0 = j
              · subst hjk
                rw [hc] at hn2
                simp at hn2
              · exact .inr (by rw [cellAt_set_ne _ _ _ hjk]; exact hn2)
          · rcases List.mem_cons.mp hmem with hx0 | hxr
            · left
              intro j hj
              subst hx0
              have hjk : j = k0 := by
                rcases hj with hj1 | hj1
                · cases hj1
                · cases hj1
                  rfl
              subst hjk
              exact .inl ⟨f0, r0, cellAt_set_self _ _ hk0lt _⟩
            · exact .inr (by simp [hxr])
        obtain ⟨h1, h2⟩ := hinv k f r hm
        exact ⟨hlift f h1, hlift r h2⟩
    obtain ⟨hfin, hwl⟩ := ih hinv2
    refine ⟨hfin, ?_⟩
    intro e he
    rcases List.mem_cons.mp he with he0 | her
    · subst he0
      intro j hj
      have hjk : j = k0 := by
        rcases hj with hj1 | hj1
        · cases hj1
        · cases hj1
          rfl
      subst hjk
      exact .inl ⟨f0, r0, marked_mono _ (cellAt_set_self _ _ hk0lt _)⟩
    · exact hwl e (by simp [her])
  | case6 cs rest k0 f0 r0 hc ih =>
    intro hinv
    rw [markLoop_closure_true hc]
    have hinv2 : ∀ k f r, cellAt cs k = some (f, r, true) →
        (RefsMarked cs f ∨ f ∈ rest) ∧ (RefsMarked cs r ∨ r ∈ rest) := by
      intro k f r hm
      have hlift : ∀ x : Expr, RefsMarked cs x ∨ x ∈ Expr.Closure k0 :: rest →
          RefsMarked cs x ∨ x ∈ rest := by
        intro x hx
        rcases hx with hrm | hmem
        · exact .inl hrm
        · rcases List.mem_cons.mp hmem with hx0 | hxr
          · subst hx0
            left
            intro j hj
            have hjk : j = k0 := by
              rcases hj with hj1 | hj1
              · cases hj1
              · cases hj1
                rfl
            subst hjk
            exact .inl ⟨f0, r0, hc⟩
          · exact .inr hxr
      obtain ⟨h1, h2⟩ := hinv k f r hm
      exact ⟨hlift f h1, hlift r h2⟩
    obtain ⟨hfin, hwl⟩ := ih hinv2
    refine ⟨hfin, ?_⟩
    intro e he
    rcases List.mem_cons.mp he with he0 | her
    · subst he0
      intro j hj
      have hjk : j = k0 := by
        rcases hj with hj1 | hj1
        · cases hj1
        · cases hj1
          rfl
      subst hjk
      exact .inl ⟨f0, r0, marked_mono _ hc⟩
    · exact hwl e her
  | case7 cs rest k0 hc ih =>
    intro hinv
    rw [markLoop_closure_none hc]
    have hinv2 : ∀ k f r, cellAt cs k = some (f, r, true) →
        (RefsMarked cs f ∨ f ∈ rest) ∧ (RefsMarked cs r ∨ r ∈ rest) := by
      intro k f r hm
      have hlift : ∀ x : Expr, RefsMarked cs x ∨ x ∈ Expr.Closure k0 :: rest →
          RefsMarked cs x ∨ x ∈ rest := by
        intro x hx
        rcases hx with hrm | hmem
        · exact .inl hrm
        · rcases List.mem_cons.mp hmem with hx0 | hxr
          · subst hx0
            left
            intro j hj
            have hjk : j = k0 := by
              rcases hj with hj1 | hj1
              · cases hj1
              · cases hj1
                rfl
            subst hjk
            exact .inr hc
          · exact .inr hxr
      obtain ⟨h1, h2⟩ := hinv k f r hm
      exact ⟨hlift f h1, hlift r h2⟩
    obtain ⟨hfin, hwl⟩ := ih hinv2
    refine ⟨hfin, ?_⟩
    intro e he
    rcases List.mem_cons.mp he with he0 | her
    · subst he0
      intro j hj
      have hjk : j = k0 := by
        rcases hj with hj1 | hj1
        · cases hj1
        · cases hj1
          rfl
      subst hjk
      exact .inr (dead_mono _ hc)
    · exact hwl e her
  | case8 cs e rest hnp hnc ih =>
    intro hinv
    rw [markLoop_other hnp hnc]
    have hinv2 : ∀ k f r, cellAt cs k = some (f, r, true) →
        (RefsMarked cs f ∨ f ∈ rest) ∧ (RefsMarked cs r ∨ r ∈ rest) := by
      intro k f r hm
      have hlift : ∀ x : Expr, RefsMarked cs x ∨ x ∈ e :: rest →
          RefsMarked cs x ∨ x ∈ rest := by
        intro x hx
        rcases hx with hrm | hmem
        · exact .inl hrm
        · rcases List.mem_cons.mp hmem with hx0 | hxr
          · subst hx0
            left
            intro j hj
            rcases hj with hj1 | hj1
            · exact absurd hj1 (fun hx => hnp j hx)
            · exact absurd hj1 (fun hx => hnc j hx)
          · exact .inr hxr
      obtain ⟨h1, h2⟩ := hinv k f r hm
      exact ⟨hlift f h1, hlift r h2⟩
    obtain ⟨hfin, hwl⟩ := ih hinv2
    refine ⟨hfin, ?_⟩
    intro e2 he
    rcases List.mem_cons.mp he with he0 | her
    · subst he0
      intro j hj
      rcases hj with hj1 | hj1
      · exact absurd hj1 (fun hx => hnp j hx)
      · exact absurd hj1 (fun hx => hnc j hx)
    · exact hwl e2 her

/-- After a mark phase whose result `R` agrees with the reference heap
`cs0` on fields and satisfies the completeness invariant, every key
reachable from a value with marked references — with all intermediate
cells live — ends up marked, with its fields intact. -/
theorem reach_marked {cs0 R : List (Option CCell)}
    (hRf : ∀ k c, cellAt cs0 k = some c →
      ∃ m', cellAt R k = some (c.1, c.2.1, m'))
    (hfin : ∀ k f r, cellAt R k = some (f, r, true) →
      RefsMarked R f ∧ RefsMarked R r) :
    ∀ {e : Expr} {k : Nat}, Reach cs0 e k → RefsMarked R e →
      (∀ j, Reach cs0 e j → ∃ c, cellAt cs0 j = some c) →
      ∃ c, cellAt cs0 k = some c ∧ cellAt R k = some (c.1, c.2.1, true) := by
  intro e k hre
  induction hre with
  | pair k =>
    intro hrm hlive
    obtain ⟨c, hc⟩ := hlive k (Reach.pair k)
    obtain ⟨m', hR⟩ := hRf k c hc
    rcases hrm k (.inl rfl) with ⟨f, r, hm⟩ | hnone
    · rw [hR] at hm
      obtain ⟨h1, h2, h3⟩ : c.1 = f ∧ c.2.1 = r ∧ m' = true := by simpa using hm
      exact ⟨c, hc, by rw [hR, h3]⟩
    · rw [hR] at hnone
      simp at hnone
  | closure k =>
    intro hrm hlive
    obtain ⟨c, hc⟩ := hlive k (Reach.closure k)
    obtain ⟨m', hR⟩ := hRf k c hc
    rcases hrm k (.inr rfl) with ⟨f, r, hm⟩ | hnone
    · rw [hR] at hm
      obtain ⟨h1, h2, h3⟩ : c.1 = f ∧ c.2.1 = r ∧ m' = true := by simpa using hm
      exact ⟨c, hc, by rw [hR, h3]⟩
    · rw [hR] at hnone
      simp at hnone
  | @fst e k0 j c h1 hc2 h2 ih1 ih2 =>
    intro hrm hlive
    obtain ⟨c0, hc0, hR0⟩ := ih1 hrm hlive
    rw [hc2] at hc0
    obtain rfl : c = c0 := by simpa using hc0
    have hrm1 : RefsMarked R c.1 := (hfin _ _ _ hR0).1
    have hlive1 : ∀ i, Reach cs0 c.1 i → ∃ cc, cellAt cs0 i = some cc :=
      fun i hi => hlive i (Reach.fst h1 hc2 hi)
    exact ih2 hrm1 hlive1
  | @snd e k0 j c h1 hc2 h2 ih1 ih2 =>
    intro hrm hlive
    obtain ⟨c0, hc0, hR0⟩ := ih1 hrm hlive
    rw [hc2] at hc0
    obtain rfl : c = c0 := by simpa using hc0
    have hrm1 : RefsMarked R c.2.1 := (hfin _ _ _ hR0).2
    have hlive1 : ∀ i, Reach cs0 c.2.1 i → ∃ cc, cellAt cs0 i = some cc :=
      fun i hi => hlive i (Reach.snd h1 hc2 hi)
    exact ih2 hrm1 hlive1

/-- Printing only reads the fields of cells reachable from the printed
value, so two heaps agreeing there (regardless of marks) format any such
value identically. -/
theorem format_agree : ∀ (fuel : Nat),
    (∀ (cs cs' : List (Option CCell)) (e : Expr) (acc : List Char),
      (∀ k, Reach cs e k → ∃ f r m m', cellAt cs k = some (f, r, m) ∧
        cellAt cs' k = some (f, r, m')) →
      formatInner fuel cs' e acc = formatInner fuel cs e acc) ∧
    (∀ (cs cs' : List (Option CCell)) (first rest : Expr) (acc : List Char),
      (∀ k, Reach cs first k ∨ Reach cs rest k → ∃ f r m m',
        cellAt cs k = some (f, r, m) ∧ cellAt cs' k = some (f, r, m')) →
      formatLoop fuel cs' first rest acc = formatLoop fuel cs first rest acc) := by
  intro fuel
  induction fuel with
  | zero =>
    constructor
    · intro cs cs' e acc hag
      cases e with
      | Boolean b => cases b <;> rfl
      | Nil => rfl
      | Integer n => rfl
      | Symbol s => rfl
      | Closure k => rfl
      | Primitive d => rfl
      | Pair k => rfl
    · intro cs cs' first rest acc hag
      rfl
  | succ f ih =>
    obtain ⟨ihInner, ihLoop⟩ := ih
    constructor
    · intro cs cs' e acc hag
      cases e with
      | Boolean b => cases b <;> rfl
      | Nil => rfl
      | Integer n => rfl
      | Symbol s => rfl
      | Closure k => rfl
      | Primitive d => rfl
      | Pair k =>
        obtain ⟨f0, r0, m0, m0', hc, hc'⟩ := hag k (Reach.pair k)
        have hfr : getFR cs (.Pair k) = .ok (f0, r0) := by simp [getFR, hc]
        have hfr' : getFR cs' (.Pair k) = .ok (f0, r0) := by simp [getFR, hc']
        have hsub : ∀ j, Reach cs f0 j ∨ Reach cs r0 j → ∃ f2 r2 m2 m2',
            cellAt cs j = some (f2, r2, m2) ∧ cellAt cs' j = some (f2, r2, m2') := by
          intro j hj
          rcases hj with hj1 | hj2
          · exact hag j (Reach.fst (Reach.pair k) hc hj1)
          · exact hag j (Reach.snd (Reach.pair k) hc hj2)
        simp only [formatInner, hfr, hfr', rbind_ok]
        exact ihLoop cs cs' f0 r0 (acc ++ "(".toList) hsub
    · intro cs cs' first rest acc hag
      have hIn : formatInner f cs' first acc = formatInner f cs first acc :=
        ihInner cs cs' first acc (fun k hk => hag k (.inl hk))
      simp only [formatLoop, hIn]
      rcases hv : formatInner f cs first acc with acc1 | er
      · simp only [rbind_ok]
        cases rest with
        | Nil => rfl
        | Boolean b => cases b with
          | false =>
            have hIn2 := ihInner cs cs' (.Boolean false) (acc1 ++ " . ".toList)
              (fun k hk => hag k (.inr hk))
            rw [hIn2]
          | true =>
            have hIn2 := ihInner cs cs' (.Boolean true) (acc1 ++ " . ".toList)
              (fun k hk => hag k (.inr hk))
            rw [hIn2]
        | Integer n =>
          have hIn2 := ihInner cs cs' (.Integer n) (acc1 ++ " . ".toList)
            (fun k hk => hag k (.inr hk))
          rw [hIn2]
        | Symbol s =>
          have hIn2 := ihInner cs cs' (.Symbol s) (acc1 ++ " . ".toList)
            (fun k hk => hag k (.inr hk))
          rw [hIn2]
        | Closure k2 =>
          have hIn2 := ihInner cs cs' (.Closure k2) (acc1 ++ " . ".toList)
            (fun k hk => hag k (.inr hk))
          rw [hIn2]
        | Primitive d =>
          have hIn2 := ihInner cs cs' (.Primitive d) (acc1 ++ " . ".toList)
            (fun k hk => hag k (.inr hk))
          rw [hIn2]
        | Pair k2 =>
          obtain ⟨f0, r0, m0, m0', hc, hc'⟩ := hag k2 (.inr (Reach.pair k2))
          have hfr : getFR cs (.Pair k2) = .ok (f0, r0) := by simp [getFR, hc]
          have hfr' : getFR cs' (.Pair k2) = .ok (f0, r0) := by simp [getFR, hc']
          have hsub : ∀ j, Reach cs f0 j ∨ Reach cs r0 j → ∃ f2 r2 m2 m2',
              cellAt cs j = some (f2, r2, m2) ∧
              cellAt cs' j = some (f2, r2, m2') := by
            intro j hj
            rcases hj with hj1 | hj2
            · exact hag j (.inr (Reach.fst (Reach.pair k2) hc hj1))
            · exact hag j (.inr (Reach.snd (Reach.pair k2) hc hj2))
          simp only [hfr, hfr', rbind_ok]
          exact ihLoop cs cs' f0 r0 (acc1 ++ " ".toList) hsub
      · simp only [rbind_err]
      · simp only [rbind_oof]
      · simp only [rbind_bug]

/-- C3: after `collect`, every cell reachable from the symbol list or
the root environment is still present under the same key with unchanged
`first` and `rest` (and mark set), only unreachable cells are removed,
the roots themselves are unchanged, and every root-reachable value
prints to exactly the same text as before the collection.  The liveness
hypothesis (every root-reachable key is a live cell) is exactly the
condition under which the source's `unwrap` in the mark loop cannot
panic. -/
theorem c3_collect_preserves_reachable (h : Heap)
    (hlive : ∀ k, Reach h.cells h.root_env k ∨ Reach h.cells h.symbols k →
      ∃ c, cellAt h.cells k = some c) :
    ((collect h).root_env = h.root_env ∧ (collect h).symbols = h.symbols) ∧
    (∀ k c, cellAt h.cells k = some c →
      (Reach h.cells h.root_env k ∨ Reach h.cells h.symbols k) →
      cellAt (collect h).cells k = some (c.1, c.2.1, true)) ∧
    (∀ k c, cellAt (collect h).cells k = some c →
      Reach h.cells h.root_env k ∨ Reach h.cells h.symbols k) ∧
    (∀ fuel v, (∀ k, Reach h.cells v k →
        Reach h.cells h.root_env k ∨ Reach h.cells h.symbols k) →
      format_expr fuel (collect h).cells v = format_expr fuel h.cells v) := by
  have hRf : ∀ k c, cellAt h.cells k = some c →
      ∃ m', cellAt (markLoop (clearMarks h.cells) [h.root_env, h.symbols]) k =
        some (c.1, c.2.1, m') := by
    intro k c hc
    have hC : cellAt (clearMarks h.cells) k = some (c.1, c.2.1, false) := by
      rw [cellAt_clearMarks, hc]
      rfl
    rcases markLoop_shape (clearMarks h.cells) [h.root_env, h.symbols] k with
      h1 | ⟨f2, r2, h2, h3⟩
    · exact ⟨false, by rw [h1]; exact hC⟩
    · rw [hC] at h2
      obtain ⟨rfl, rfl⟩ : c.1 = f2 ∧ c.2.1 = r2 := by simpa using h2
      exact ⟨true, h3⟩
  have hfeC : ∀ k c, cellAt (clearMarks h.cells) k = some c →
      ∃ m', cellAt h.cells k = some (c.1, c.2.1, m') := by
    intro k c hc
    rw [cellAt_clearMarks] at hc
    rcases hc0 : cellAt h.cells k with _ | c2
    · rw [hc0] at hc
      simp at hc
    · rw [hc0] at hc
      obtain rfl : (c2.1, c2.2.1, false) = c := by simpa using hc
      exact ⟨c2.2.2, rfl⟩
  have hinvC : ∀ k f r, cellAt (clearMarks h.cells) k = some (f, r, true) →
      (RefsMarked (clearMarks h.cells) f ∨ f ∈ [h.root_env, h.symbols]) ∧
      (RefsMarked (clearMarks h.cells) r ∨ r ∈ [h.root_env, h.symbols]) := by
    intro k f r hc
    rw [cellAt_clearMarks] at hc
    rcases hc0 : cellAt h.cells k with _ | c2
    · rw [hc0] at hc
      simp at hc
    · rw [hc0] at hc
      simp at hc
  obtain ⟨hfin, hwl⟩ :=
    markLoop_complete (clearMarks h.cells) [h.root_env, h.symbols] hinvC
  have hpres : ∀ k c, cellAt h.cells k = some c →
      (Reach h.cells h.root_env k ∨ Reach h.cells h.symbols k) →
      cellAt (collect h).cells k = some (c.1, c.2.1, true) := by
    intro k c hc hreach
    have hmarked : cellAt (markLoop (clearMarks h.cells)
        [h.root_env, h.symbols]) k = some (c.1, c.2.1, true) := by
      rcases hreach with hr | hr
      · obtain ⟨c2, hc2, hR2⟩ := reach_marked hRf hfin hr
          (hwl h.root_env (by simp))
          (fun j hj => hlive j (.inl hj))
        rw [hc] at hc2
        obtain rfl : c = c2 := by simpa using hc2
        exact hR2
      · obtain ⟨c2, hc2, hR2⟩ := reach_marked hRf hfin hr
          (hwl h.symbols (by simp))
          (fun j hj => hlive j (.inr hj))
        rw [hc] at hc2
        obtain rfl : c = c2 := by simpa using hc2
        exact hR2
    show cellAt (sweep (markLoop (clearMarks h.cells)
      [h.root_env, h.symbols])) k = some (c.1, c.2.1, true)
    rw [cellAt_sweep, hmarked]
  refine ⟨⟨rfl, rfl⟩, hpres, ?_, ?_⟩
  · intro k c hcR
    have hcR2 : (match cellAt (markLoop (clearMarks h.cells)
        [h.root_env, h.symbols]) k with
        | some (f, r, true) => some (f, r, true)
        | _ => none) = some c := by
      rw [← cellAt_sweep]
      exact hcR
    rcases hm : cellAt (markLoop (clearMarks h.cells)
        [h.root_env, h.symbols]) k with _ | c2
    · rw [hm] at hcR2
      simp at hcR2
    · obtain ⟨f2, r2, m2⟩ := c2
      cases m2 with
      | false =>
        rw [hm] at hcR2
        simp at hcR2
      | true =>
        rcases markLoop_sound h.cells (clearMarks h.cells)
            [h.root_env, h.symbols] hfeC k f2 r2 hm with h1 | ⟨e, he, hre⟩
        · rw [cellAt_clearMarks] at h1
          rcases hc0 : cellAt h.cells k with _ | c3
          · rw [hc0] at h1
            simp at h1
          · rw [hc0] at h1
            simp at h1
        · rcases List.mem_cons.mp he with he1 | he2
          · exact .inl (he1 ▸ hre)
          · rcases List.mem_cons.mp he2 with he3 | he4
            · exact .inr (he3 ▸ hre)
            · simp at he4
  · intro fuel v hv
    have hag : ∀ k, Reach h.cells v k → ∃ f r m m',
        cellAt h.cells k = some (f, r, m) ∧
        cellAt (collect h).cells k = some (f, r, m') := by
      intro k hk
      obtain ⟨c, hc⟩ := hlive k (hv k hk)
      obtain ⟨cf, cr, cm⟩ := c
      exact ⟨cf, cr, cm, true, hc, hpres k (cf, cr, cm) hc (hv k hk)⟩
    show formatInner fuel (collect h).cells v [] = formatInner fuel h.cells v []
    exact (format_agree fuel).1 h.cells (collect h).cells v [] hag

/-- Witness heap for C3: the root environment reaches only cell 0; cell
1 is garbage. -/
def c3Heap : Heap :=
  { symbols := .Nil, root_env := .Pair 0, cells :=
      [some (.Nil, .Nil, false),
       some (.Integer 1, .Nil, false)] }

theorem c3_collect_preserves_reachable_witness :
    ((collect c3Heap).root_env = .Pair 0 ∧ (collect c3Heap).symbols = .Nil) ∧
    cellAt (collect c3Heap).cells 0 = some (.Nil, .Nil, true) ∧
    (∀ c, cellAt (collect c3Heap).cells 1 = some c → False) ∧
    format_expr 2 (collect c3Heap).cells (.Pair 0) =
      format_expr 2 c3Heap.cells (.Pair 0) := by
  have hnil : ∀ k, ¬ Reach c3Heap.cells Expr.Nil k := by
    intro k hk
    rcases Reach_cases hk with h1 | ⟨j, c, hj, hc, hr⟩
    · rcases h1 with h | h <;> simp at h
    · rcases hj with h | h <;> simp at h
  have hp0 : ∀ k, Reach c3Heap.cells (.Pair 0) k → k = 0 := by
    intro k hk
    rcases Reach_cases hk with h1 | ⟨j, c, hj, hc, hr⟩
    · rcases h1 with h | h
      · injection h with h2
        exact h2.symm
      · simp at h
    · rcases hj with h | h
      · injection h with h2
        have hj0 : j = 0 := h2.symm
        subst hj0
        have hcv : cellAt c3Heap.cells 0 = some (Expr.Nil, Expr.Nil, false) := rfl
        rw [hcv] at hc
        obtain rfl : (Expr.Nil, Expr.Nil, false) = c := by simpa using hc
        rcases hr with hr | hr
        · exact absurd hr (hnil k)
        · exact absurd hr (hnil k)
      · simp at h
  have hlive : ∀ k, Reach c3Heap.cells c3Heap.root_env k ∨
      Reach c3Heap.cells c3Heap.symbols k →
      ∃ c, cellAt c3Heap.cells k = some c := by
    intro k hk
    rcases hk with hk | hk
    · have hk0 : k = 0 := hp0 k hk
      subst hk0
      exact ⟨(Expr.Nil, Expr.Nil, false), rfl⟩
    · exact absurd hk (hnil k)
  obtain ⟨hroots, hpres, honly, hfmt⟩ :=
    c3_collect_preserves_reachable c3Heap hlive
  refine ⟨hroots, ?_, ?_, ?_⟩
  · exact hpres 0 (Expr.Nil, Expr.Nil, false) rfl (.inl (Reach.pair 0))
  · intro c hc
    rcases honly 1 c hc with hr | hr
    · have := hp0 1 hr
      simp at this
    · exact hnil 1 hr
  · exact hfmt 2 (.Pair 0) (fun k hk => .inl hk)

/-!  Claim C4: print/parse round trip.  Parser-producible values are
captured by finite trees (`PVal`) subject to the producibility
constraints `PGood`; `render` mirrors the printer's output,
`tokensP`/`tokensTail` the lexer's view of it. -/

/-- Abstract tree of parser-producible values (no closures or
primitives, no sharing, no cycles). -/
inductive PVal where
  | nil
  | bool (b : Bool)
  | int (n : Int)
  | sym (s : List Char)
  | cons (a d : PVal)
deriving DecidableEq

/-- Node count, used for fuel bounds. -/
def S : PVal → Nat
  | .nil | .bool _ | .int _ | .sym _ => 1
  | .cons a d => S a + S d + 1

theorem S_pos (t : PVal) : 1 ≤ S t := by
  cases t <;> simp [S]

/-- A character run the lexer reads back as one atom token: nonempty,
free of whitespace and brackets, not starting with a dot or a tick. -/
def atomOK (l : List Char) : Bool :=
  match l with
  | [] => false
  | c :: _ => l.all (fun ch => !isDelimC ch) && !(c = '.') && !(c = tickChar)

/-- A symbol name the parser can produce: an atom, fixed under ASCII
upper-casing (interning upper-cases every name), not starting with `#`,
and not starting with a digit or `-` — except the symbol `-` itself. -/
def symOK (s : List Char) : Bool :=
  atomOK s && upperChars s == s &&
  (match s with
   | [] => false
   | c :: _ => !(c = '#') && (!(c.isDigit || c = '-') || s == ['-']))

/-- Producibility of a tree: integers within the `i64` range and symbol
names the parser can intern. -/
def PGood : PVal → Bool
  | .nil => true
  | .bool _ => true
  | .int n => decide (-(2 ^ 63) ≤ n) && decide (n ≤ 2 ^ 63 - 1)
  | .sym s => symOK s
  | .cons a d => PGood a && PGood d

mutual

/-- The text the printer produces for a tree (cf. `format_expr_inner`). -/
def render : PVal → List Char
  | .nil => "()".toList
  | .bool false => "#f".toList
  | .bool true => "#t".toList
  | .int n => intChars n
  | .sym s => s
  | .cons a d => '(' :: (render a ++ renderTail d)

/-- The text the printer produces for the tail of a list. -/
def renderTail : PVal → List Char
  | .nil => ")".toList
  | .cons a d => ' ' :: (render a ++ renderTail d)
  | t => " . ".toList ++ render t ++ ")".toList

end

mutual

/-- The token sequence the lexer yields for `render t`. -/
def tokensP : PVal → List Token
  | .nil => [.LBracket, .RBracket]
  | .bool false => [.Value "#f".toList]
  | .bool true => [.Value "#t".toList]
  | .int n => [.Value (intChars n)]
  | .sym s => [.Value s]
  | .cons a d => .LBracket :: (tokensP a ++ tokensTail d)

/-- The token sequence for `renderTail t`. -/
def tokensTail : PVal → List Token
  | .nil => [.RBracket]
  | .cons a d => tokensP a ++ tokensTail d
  | t => .Dot :: (tokensP t ++ [.RBracket])

end

/-- Heap value `v` represents tree `t`, with every pair cell at key
`≥ N` (the parser only builds fresh cells). -/
inductive HRepN (cs : List (Option CCell)) (N : Nat) : Expr → PVal → Prop where
  | nil : HRepN cs N .Nil .nil
  | bool (b : Bool) : HRepN cs N (.Boolean b) (.bool b)
  | int (n : Int) : HRepN cs N (.Integer n) (.int n)
  | sym (s : List Char) : HRepN cs N (.Symbol s) (.sym s)
  | cons {k : Nat} {f r : Expr} {m : Bool} {a d : PVal} :
      N ≤ k → cellAt cs k = some (f, r, m) →
      HRepN cs N f a → HRepN cs N r d → HRepN cs N (.Pair k) (.cons a d)

/-- Heap value `v` represents tree `t`. -/
def HRep (cs : List (Option CCell)) (v : Expr) (t : PVal) : Prop :=
  HRepN cs 0 v t

theorem HRepN_weaken {cs : List (Option CCell)} {N N' : Nat} (hN : N' ≤ N) :
    ∀ {v : Expr} {t : PVal}, HRepN cs N v t → HRepN cs N' v t := by
  intro v t hr
  induction hr with
  | nil => exact .nil
  | bool b => exact .bool b
  | int n => exact .int n
  | sym s => exact .sym s
  | cons hk hc _ _ ih1 ih2 => exact .cons (le_trans hN hk) hc ih1 ih2

theorem HRepN_mono {cs cs' : List (Option CCell)} {N : Nat}
    (hp : ∀ k c, N ≤ k → cellAt cs k = some c → cellAt cs' k = some c) :
    ∀ {v : Expr} {t : PVal}, HRepN cs N v t → HRepN cs' N v t := by
  intro v t hr
  induction hr with
  | nil => exact .nil
  | bool b => exact .bool b
  | int n => exact .int n
  | sym s => exact .sym s
  | @cons k f r m a d hk hc _ _ ih1 ih2 =>
    exact .cons hk (hp k _ hk hc) ih1 ih2

/-- The printer on a represented tree produces exactly `render t`. -/
theorem format_render : ∀ (fuel : Nat),
    (∀ (t : PVal) (cs : List (Option CCell)) (v : Expr) (acc : List Char),
      HRepN cs 0 v t → S t < fuel →
      formatInner fuel cs v acc = .ok (acc ++ render t)) ∧
    (∀ (a d : PVal) (cs : List (Option CCell)) (first rest : Expr)
      (acc : List Char),
      HRepN cs 0 first a → HRepN cs 0 rest d → S a + S d < fuel →
      formatLoop fuel cs first rest acc =
        .ok (acc ++ render a ++ renderTail d)) := by
  intro fuel
  induction fuel with
  | zero =>
    constructor
    · intro t cs v acc hr hS
      omega
    · intro a d cs first rest acc hra hrd hS
      omega
  | succ f ih =>
    obtain ⟨ihInner, ihLoop⟩ := ih
    constructor
    · intro t cs v acc hr hS
      cases hr with
      | nil => simp [formatInner, render]
      | bool b => cases b <;> simp [formatInner, render]
      | int n => simp [formatInner, render]
      | sym s => simp [formatInner, render]
      | @cons k f0 r0 m a d hk hc hra hrd =>
        have hfr : getFR cs (.Pair k) = .ok (f0, r0) := by simp [getFR, hc]
        have hS2 : S a + S d < f := by simp only [S] at hS; omega
        have := ihLoop a d cs f0 r0 (acc ++ "(".toList) hra hrd hS2
        simp only [formatInner, hfr, rbind_ok, this, render]
        simp
    · intro a d cs first rest acc hra hrd hS
      have hSa : S a < f := by
        have := S_pos d
        omega
      have hInner := ihInner a cs first acc hra hSa
      simp only [formatLoop, hInner, rbind_ok]
      cases hrd with
      | nil => simp [renderTail]
      | bool b =>
        have hSd : S (.bool b) < f := by
          have := S_pos a
          simp only [S] at *
          omega
        have := ihInner (.bool b) cs (.Boolean b) (acc ++ render a ++ " . ".toList)
          (.bool b) hSd
        cases b <;> simp only [this, rbind_ok, renderTail] <;> simp
      | int n =>
        have hSd : S (.int n) < f := by
          have := S_pos a
          simp only [S] at *
          omega
        have := ihInner (.int n) cs (.Integer n) (acc ++ render a ++ " . ".toList)
          (.int n) hSd
        simp only [this, rbind_ok, renderTail]
        simp
      | sym s =>
        have hSd : S (.sym s) < f := by
          have := S_pos a
          simp only [S] at *
          omega
        have := ihInner (.sym s) cs (.Symbol s) (acc ++ render a ++ " . ".toList)
          (.sym s) hSd
        simp only [this, rbind_ok, renderTail]
        simp
      | @cons k f0 r0 m a2 d2 hk hc hra2 hrd2 =>
        have hfr : getFR cs (.Pair k) = .ok (f0, r0) := by simp [getFR, hc]
        have hS2 : S a2 + S d2 < f := by
          have := S_pos a
          simp only [S] at *
          omega
        have := ihLoop a2 d2 cs f0 r0 (acc ++ render a ++ " ".toList) hra2 hrd2 hS2
        simp only [formatLoop, hfr, rbind_ok, this, renderTail]
        simp

/-!  Character-level facts for the lexer and the interner. -/

theorem char_eq_of_toNat {c d : Char} (h : c.toNat = d.toNat) : c = d := by
  apply Char.ext
  apply UInt32.ext
  exact h

theorem char_eq_iff_toNat (c d : Char) : c = d ↔ c.toNat = d.toNat :=
  ⟨fun h => h ▸ rfl, char_eq_of_toNat⟩

theorem isDigit_iff_toNat (c : Char) :
    c.isDigit = true ↔ 48 ≤ c.toNat ∧ c.toNat ≤ 57 := by
  constructor
  · intro h
    simpa [Char.isDigit] using h
  · intro h
    simpa [Char.isDigit] using h

theorem isDelimC_iff_toNat (c : Char) :
    isDelimC c = true ↔ (c.toNat = 32 ∨ c.toNat = 9 ∨ c.toNat = 13 ∨
      c.toNat = 10 ∨ c.toNat = 40 ∨ c.toNat = 41) := by
  have h1 : (c = ' ') ↔ c.toNat = 32 := char_eq_iff_toNat c ' '
  have h2 : (c = '\t') ↔ c.toNat = 9 := char_eq_iff_toNat c '\t'
  have h3 : (c = '\r') ↔ c.toNat = 13 := char_eq_iff_toNat c '\r'
  have h4 : (c = '\n') ↔ c.toNat = 10 := char_eq_iff_toNat c '\n'
  have h5 : (c = '(') ↔ c.toNat = 40 := char_eq_iff_toNat c '('
  have h6 : (c = ')') ↔ c.toNat = 41 := char_eq_iff_toNat c ')'
  simp only [isDelimC, Char.isWhitespace, Bool.or_eq_true, decide_eq_true_eq,
    h1, h2, h3, h4, h5, h6]
  tauto

theorem toUpper_toNat (c : Char) : (Char.toUpper c).toNat =
    if c.toNat ≥ 97 ∧ c.toNat ≤ 122 then c.toNat - 32 else c.toNat := by
  simp only [Char.toUpper]
  split
  · rename_i h
    have hlt : c.toNat - 32 < 55296 := by omega
    unfold Char.ofNat
    rw [dif_pos (Or.inl hlt)]
    rfl
  · rfl

theorem toUpper_idem (c : Char) :
    Char.toUpper (Char.toUpper c) = Char.toUpper c := by
  apply char_eq_of_toNat
  rw [toUpper_toNat, toUpper_toNat c]
  by_cases h : c.toNat ≥ 97 ∧ c.toNat ≤ 122
  · simp only [if_pos h]
    first
      | rfl
      | rw [if_neg (show ¬(c.toNat - 32 ≥ 97 ∧ c.toNat - 32 ≤ 122) by omega)]
  · rw [if_neg h, if_neg h]

theorem upperChars_idem (s : List Char) :
    upperChars (upperChars s) = upperChars s := by
  simp only [upperChars, List.map_map]
  apply List.map_congr_left
  intro c hc
  exact toUpper_idem c

theorem toUpper_not_delim {c : Char} (h : isDelimC c = false) :
    isDelimC (Char.toUpper c) = false := by
  by_contra hx
  have hx2 : isDelimC (Char.toUpper c) = true := by
    cases hh : isDelimC (Char.toUpper c)
    · exact absurd hh hx
    · rfl
  rw [isDelimC_iff_toNat, toUpper_toNat] at hx2
  have hc2 : ¬ (c.toNat = 32 ∨ c.toNat = 9 ∨ c.toNat = 13 ∨
      c.toNat = 10 ∨ c.toNat = 40 ∨ c.toNat = 41) := by
    intro hy
    rw [← isDelimC_iff_toNat] at hy
    rw [h] at hy
    cases hy
  by_cases hl : c.toNat ≥ 97 ∧ c.toNat ≤ 122
  · rw [if_pos hl] at hx2
    omega
  · rw [if_neg hl] at hx2
    exact hc2 hx2

theorem toUpper_ne_of_toNat {c : Char} {d : Char} (hd : d.toNat < 65 ∨ 90 < d.toNat)
    (h : c ≠ d) : Char.toUpper c ≠ d := by
  intro hx
  have hx2 : (Char.toUpper c).toNat = d.toNat := hx ▸ rfl
  rw [toUpper_toNat] at hx2
  by_cases hl : c.toNat ≥ 97 ∧ c.toNat ≤ 122
  · rw [if_pos hl] at hx2
    omega
  · rw [if_neg hl] at hx2
    exact h (char_eq_of_toNat hx2)

theorem toUpper_not_digit {c : Char} (h : c.isDigit = false) :
    (Char.toUpper c).isDigit = false := by
  by_contra hx
  have hx2 : (Char.toUpper c).isDigit = true := by
    cases hh : (Char.toUpper c).isDigit
    · exact absurd hh hx
    · rfl
  rw [isDigit_iff_toNat, toUpper_toNat] at hx2
  have hc2 : ¬ (48 ≤ c.toNat ∧ c.toNat ≤ 57) := by
    intro hy
    rw [← isDigit_iff_toNat] at hy
    rw [h] at hy
    cases hy
  by_cases hl : c.toNat ≥ 97 ∧ c.toNat ≤ 122
  · rw [if_pos hl] at hx2
    omega
  · rw [if_neg hl] at hx2
    exact hc2 hx2

theorem digitChar_toNat {d : Nat} (h : d < 10) : (digitChar d).toNat = 48 + d := by
  unfold digitChar
  unfold Char.ofNat
  rw [dif_pos (Or.inl (by omega))]
  rfl

theorem digitChar_isDigit {d : Nat} (h : d < 10) : (digitChar d).isDigit = true := by
  rw [isDigit_iff_toNat, digitChar_toNat h]
  omega

theorem digit_not_delim {c : Char} (h : c.isDigit = true) : isDelimC c = false := by
  rw [isDigit_iff_toNat] at h
  cases hh : isDelimC c
  · rfl
  · rw [isDelimC_iff_toNat] at hh
    omega

theorem digit_ne {c d : Char} (h : c.isDigit = true)
    (hd : d.toNat < 48 ∨ 57 < d.toNat) : c ≠ d := by
  rw [isDigit_iff_toNat] at h
  intro hx
  have : c.toNat = d.toNat := hx ▸ rfl
  omega

/-!  The decimal rendering of an integer parses back to the same
integer. -/

theorem natToChars_ne_nil (m : Nat) : natToChars m ≠ [] := by
  rw [natToChars]
  split
  · simp
  · simp

theorem natToChars_all_digit : ∀ (m : Nat), ∀ c ∈ natToChars m, c.isDigit = true := by
  intro m
  induction m using Nat.strong_induction_on with
  | _ m ih =>
    rw [natToChars]
    split
    · rename_i h
      intro c hc
      simp only [List.mem_singleton] at hc
      subst hc
      exact digitChar_isDigit h
    · rename_i h
      intro c hc
      rw [List.mem_append] at hc
      rcases hc with hc | hc
      · exact ih (m / 10) (Nat.div_lt_self (by omega) (by omega)) c hc
      · simp only [List.mem_singleton] at hc
        subst hc
        exact digitChar_isDigit (Nat.mod_lt _ (by omega))

theorem natToChars_foldl : ∀ (m acc : Nat),
    (natToChars m).foldl (fun a c => a * 10 + (c.toNat - 48)) acc =
      acc * 10 ^ (natToChars m).length + m := by
  intro m
  induction m using Nat.strong_induction_on with
  | _ m ih =>
    intro acc
    rw [natToChars]
    split
    · rename_i h
      simp only [List.foldl_cons, List.foldl_nil, List.length_singleton,
        pow_one, digitChar_toNat h]
      omega
    · rename_i h
      rw [List.foldl_append]
      have ih1 := ih (m / 10) (Nat.div_lt_self (by omega) (by omega)) acc
      rw [ih1]
      simp only [List.foldl_cons, List.foldl_nil, List.length_append,
        List.length_singleton, digitChar_toNat (Nat.mod_lt m (show 0 < 10 by omega))]
      calc (acc * 10 ^ (natToChars (m / 10)).length + m / 10) * 10 +
            (48 + m % 10 - 48)
          = acc * 10 ^ (natToChars (m / 10)).length * 10 +
            (m / 10 * 10 + m % 10) := by
            have : 48 + m % 10 - 48 = m % 10 := by omega
            rw [this]
            ring
        _ = acc * 10 ^ (natToChars (m / 10)).length * 10 + m := by
            have := Nat.div_add_mod m 10
            omega
        _ = acc * 10 ^ ((natToChars (m / 10)).length + 1) + m := by
            rw [pow_succ]
            ring

theorem digitsVal_natToChars (m : Nat) : digitsVal? (natToChars m) = some m := by
  obtain ⟨c, cs, heq⟩ : ∃ c cs, natToChars m = c :: cs := by
    rcases h : natToChars m with _ | ⟨c, cs⟩
    · exact absurd h (natToChars_ne_nil m)
    · exact ⟨c, cs, rfl⟩
  have hall : (natToChars m).all Char.isDigit = true := by
    rw [List.all_eq_true]
    intro c hc
    exact natToChars_all_digit m c hc
  have hfold := natToChars_foldl m 0
  rw [heq] at hall hfold ⊢
  simp only [digitsVal?, hall, if_true]
  rw [hfold]
  simp

theorem rustParseI64_other {c : Char} (h1 : c ≠ '-') (h2 : c ≠ '+')
    (cs : List Char) :
    rustParseI64 (c :: cs) = (digitsVal? (c :: cs)).bind fun m =>
      if (m : Int) ≤ 2 ^ 63 - 1 then some (m : Int) else none := by
  simp only [rustParseI64]
  split
  · rename_i rest heq
    rw [List.cons.injEq] at heq
    exact absurd heq.1 h1
  · rename_i rest heq
    rw [List.cons.injEq] at heq
    exact absurd heq.1 h2
  · rfl

/-- Rust's `i64::from_str` inverts the decimal rendering on the whole
`i64` range. -/
theorem rustParseI64_intChars {n : Int} (hlo : -(2 ^ 63) ≤ n)
    (hhi : n ≤ 2 ^ 63 - 1) : rustParseI64 (intChars n) = some n := by
  by_cases hn : n < 0
  · rw [intChars, if_pos hn]
    simp only [rustParseI64, digitsVal_natToChars, Option.some_bind]
    have h1 : ((-n).toNat : Int) = -n := Int.toNat_of_nonneg (by omega)
    rw [if_pos (by rw [h1]; omega)]
    rw [h1]
    simp
  · rw [intChars, if_neg hn]
    obtain ⟨c, cs, heq⟩ : ∃ c cs, natToChars n.toNat = c :: cs := by
      rcases h : natToChars n.toNat with _ | ⟨c, cs⟩
      · exact absurd h (natToChars_ne_nil _)
      · exact ⟨c, cs, rfl⟩
    have hdig : c.isDigit = true := by
      apply natToChars_all_digit n.toNat
      rw [heq]
      simp
    have hc1 : c ≠ '-' := digit_ne hdig (by left; decide)
    have hc2 : c ≠ '+' := digit_ne hdig (by left; decide)
    rw [heq, rustParseI64_other hc1 hc2, ← heq, digitsVal_natToChars]
    have h1 : (n.toNat : Int) = n := Int.toNat_of_nonneg (by omega)
    simp only [Option.some_bind]
    rw [if_pos (by rw [h1]; omega)]
    rw [h1]

/-!  Lexing the printed text.  -/

/-- The boundary condition after an atom: end of input or a delimiter. -/
def boundaryB (l : List Char) : Bool :=
  match l with
  | [] => true
  | c :: _ => isDelimC c

theorem takeWhile_append_stop {α : Type} {p : α → Bool} :
    ∀ {l : List α}, (∀ x ∈ l, p x = true) →
    ∀ {r : List α}, (∀ x ∈ r.head?, p x = false) →
    (l ++ r).takeWhile p = l ∧ (l ++ r).dropWhile p = r := by
  intro l
  induction l with
  | nil =>
    intro _ r hr
    rcases r with _ | ⟨x, t⟩
    · simp [List.takeWhile, List.dropWhile]
    · have hx : p x = false := hr x rfl
      simp [List.takeWhile, List.dropWhile, hx]
  | cons c t ih =>
    intro hl r hr
    have hc : p c = true := hl c (by simp)
    have ihr := ih (fun x hx => hl x (by simp [hx])) hr
    simp only [List.cons_append, List.takeWhile_cons, List.dropWhile_cons, hc,
      if_true]
    exact ⟨by rw [ihr.1], by simpa using ihr.2⟩

theorem tokenize_ws {c : Char} (hc : c.isWhitespace = true) (l : List Char) :
    tokenize (c :: l) = tokenize l := by
  rw [tokenize]
  simp [hc]

theorem tokenize_lb (l : List Char) :
    tokenize ('(' :: l) = .LBracket :: tokenize l := by
  rw [tokenize]
  simp +decide

theorem tokenize_rb (l : List Char) :
    tokenize (')' :: l) = .RBracket :: tokenize l := by
  rw [tokenize]
  simp +decide

theorem tokenize_dot (l : List Char) :
    tokenize ('.' :: l) = .Dot :: tokenize l := by
  rw [tokenize]
  simp +decide

theorem isDelimC_elim {c : Char} (h : isDelimC c = false) :
    c.isWhitespace = false ∧ c ≠ '(' ∧ c ≠ ')' := by
  simp only [isDelimC, Bool.or_eq_false_iff, decide_eq_false_iff_not] at h
  exact ⟨h.1.1, h.1.2, h.2⟩

/-- An atom run followed by a boundary lexes as a single `Value` token. -/
theorem tokenize_atom {a : List Char} (ha : atomOK a = true) {rest : List Char}
    (hb : boundaryB rest = true) :
    tokenize (a ++ rest) = .Value a :: tokenize rest := by
  rcases a with _ | ⟨c, t⟩
  · simp [atomOK] at ha
  simp only [atomOK, Bool.and_eq_true, List.all_eq_true, Bool.not_eq_true',
    decide_eq_false_iff_not] at ha
  obtain ⟨⟨hall, hdot⟩, htick⟩ := ha
  have hcd : isDelimC c = false := hall c (by simp)
  obtain ⟨hcw, hlp, hrp⟩ := isDelimC_elim hcd
  have hstop : ∀ x ∈ rest.head?, (fun ch => !isDelimC ch) x = false := by
    intro x hx
    rcases rest with _ | ⟨y, t2⟩
    · simp at hx
    · have hy : y = x := by simpa using hx
      subst hy
      have : isDelimC y = true := by simpa [boundaryB] using hb
      simp [this]
  have htw := takeWhile_append_stop
    (p := fun ch => !isDelimC ch) (l := t) (r := rest)
    (fun x hx => by simp [hall x (by simp [hx])]) hstop
  rw [List.cons_append, tokenize]
  rw [if_neg (by simp [hcw]), if_neg (by simp [hlp]), if_neg (by simp [hrp]),
    if_neg (by simp [hdot]), if_neg (by simp [htick])]
  rw [htw.1, htw.2]

/-- The first character of a printed tail is always a delimiter. -/
theorem renderTail_boundary (d : PVal) (rest : List Char) :
    boundaryB (renderTail d ++ rest) = true := by
  have hdotstr : " . ".toList = [' ', '.', ' '] := by decide
  have hrbstr : ")".toList = [')'] := by decide
  cases d with
  | nil =>
    simp only [renderTail, hrbstr, List.cons_append, List.nil_append]
    simp +decide [boundaryB]
  | cons a d2 =>
    simp only [renderTail, List.cons_append]
    simp +decide [boundaryB]
  | bool b =>
    simp only [renderTail, hdotstr, List.cons_append, List.append_assoc]
    simp +decide [boundaryB]
  | int n =>
    simp only [renderTail, hdotstr, List.cons_append, List.append_assoc]
    simp +decide [boundaryB]
  | sym s =>
    simp only [renderTail, hdotstr, List.cons_append, List.append_assoc]
    simp +decide [boundaryB]

theorem intChars_atomOK (n : Int) : atomOK (intChars n) = true := by
  by_cases hn : n < 0
  · rw [intChars, if_pos hn]
    simp only [atomOK, Bool.and_eq_true, List.all_eq_true, Bool.not_eq_true',
      decide_eq_false_iff_not]
    refine ⟨⟨?_, by decide⟩, by decide⟩
    intro x hx
    rcases List.mem_cons.mp hx with hx1 | hx2
    · subst hx1
      decide
    · simp [digit_not_delim (natToChars_all_digit _ x hx2)]
  · rw [intChars, if_neg hn]
    obtain ⟨c, cs, heq⟩ : ∃ c cs, natToChars n.toNat = c :: cs := by
      rcases h : natToChars n.toNat with _ | ⟨c, cs⟩
      · exact absurd h (natToChars_ne_nil _)
      · exact ⟨c, cs, rfl⟩
    have hdig : ∀ x ∈ natToChars n.toNat, x.isDigit = true :=
      natToChars_all_digit n.toNat
    rw [heq]
    simp only [atomOK, Bool.and_eq_true, List.all_eq_true, Bool.not_eq_true',
      decide_eq_false_iff_not]
    have hcd : c.isDigit = true := hdig c (by rw [heq]; simp)
    refine ⟨⟨?_, digit_ne hcd (by left; decide)⟩, digit_ne hcd (by left; decide)⟩
    intro x hx
    have : x.isDigit = true := hdig x (by rw [heq]; exact hx)
    simp [digit_not_delim this]

theorem symOK_parts {s : List Char} (h : symOK s = true) :
    atomOK s = true ∧ upperChars s = s := by
  simp only [symOK, Bool.and_eq_true, beq_iff_eq] at h
  exact ⟨h.1.1, h.1.2⟩

/-- Lexing the printed text of a good tree yields exactly its token
sequence (with any boundary-safe continuation). -/
theorem tokens_render : ∀ (n : Nat) (t : PVal), S t ≤ n → PGood t = true →
    (∀ rest, boundaryB rest = true →
      tokenize (render t ++ rest) = tokensP t ++ tokenize rest) ∧
    (∀ rest, boundaryB rest = true →
      tokenize (renderTail t ++ rest) = tokensTail t ++ tokenize rest) := by
  intro n
  induction n using Nat.strong_induction_on with
  | _ n ih =>
    intro t hS hg
    have hdotstr : " . ".toList = [' ', '.', ' '] := by decide
    have hrbstr : ")".toList = [')'] := by decide
    have hlbp : "()".toList = ['(', ')'] := by decide
    constructor
    · intro rest hb
      cases t with
      | nil =>
        simp only [render, hlbp, List.cons_append, tokensP, List.nil_append]
        rw [tokenize_lb, tokenize_rb]
      | bool b =>
        cases b with
        | false =>
          simp only [render, tokensP]
          rw [tokenize_atom (by decide) hb]
          rfl
        | true =>
          simp only [render, tokensP]
          rw [tokenize_atom (by decide) hb]
          rfl
      | int n0 =>
        simp only [render, tokensP]
        rw [tokenize_atom (intChars_atomOK n0) hb]
        rfl
      | sym s =>
        have hsym : symOK s = true := by simpa [PGood] using hg
        simp only [render, tokensP]
        rw [tokenize_atom (symOK_parts hsym).1 hb]
        rfl
      | cons a d =>
        have hga : PGood a = true ∧ PGood d = true := by
          simpa [PGood, Bool.and_eq_true] using hg
        have h1 := (ih (S a) (by
          simp only [S] at hS
          have := S_pos d
          omega) a (le_refl _) hga.1).1
        have h2 := (ih (S d) (by
          simp only [S] at hS
          have := S_pos a
          omega) d (le_refl _) hga.2).2
        simp only [render, tokensP, List.cons_append]
        rw [tokenize_lb, List.append_assoc]
        rw [h1 (renderTail d ++ rest) (renderTail_boundary d rest)]
        rw [h2 rest hb]
        simp
    · intro rest hb
      cases t with
      | nil =>
        simp only [renderTail, hrbstr, tokensTail, List.singleton_append]
        rw [tokenize_rb]
      | cons a d =>
        have hga : PGood a = true ∧ PGood d = true := by
          simpa [PGood, Bool.and_eq_true] using hg
        have h1 := (ih (S a) (by
          simp only [S] at hS
          have := S_pos d
          omega) a (le_refl _) hga.1).1
        have h2 := (ih (S d) (by
          simp only [S] at hS
          have := S_pos a
          omega) d (le_refl _) hga.2).2
        simp only [renderTail, tokensTail, List.cons_append]
        rw [tokenize_ws (by decide), List.append_assoc]
        rw [h1 (renderTail d ++ rest) (renderTail_boundary d rest)]
        rw [h2 rest hb]
        simp
      | bool b =>
        simp only [renderTail, hdotstr, tokensTail, List.cons_append,
          List.append_assoc, hrbstr, List.singleton_append]
        rw [tokenize_ws (by decide), tokenize_dot, tokenize_ws (by decide)]
        have hbd : boundaryB (')' :: rest) = true := by
          simp +decide [boundaryB]
        simp only [List.nil_append]
        cases b with
        | false =>
          simp only [render, tokensP]
          rw [tokenize_atom (by decide) hbd, tokenize_rb]
          rfl
        | true =>
          simp only [render, tokensP]
          rw [tokenize_atom (by decide) hbd, tokenize_rb]
          rfl
      | int n0 =>
        simp only [renderTail, hdotstr, tokensTail, List.cons_append,
          List.append_assoc, hrbstr, List.singleton_append]
        rw [tokenize_ws (by decide), tokenize_dot, tokenize_ws (by decide)]
        have hbd : boundaryB (')' :: rest) = true := by
          simp +decide [boundaryB]
        simp only [List.nil_append]
        simp only [render, tokensP]
        rw [tokenize_atom (intChars_atomOK n0) hbd, tokenize_rb]
        rfl
      | sym s =>
        have hsym : symOK s = true := by simpa [PGood] using hg
        simp only [renderTail, hdotstr, tokensTail, List.cons_append,
          List.append_assoc, hrbstr, List.singleton_append]
        rw [tokenize_ws (by decide), tokenize_dot, tokenize_ws (by decide)]
        have hbd : boundaryB (')' :: rest) = true := by
          simp +decide [boundaryB]
        simp only [List.nil_append]
        simp only [render, tokensP]
        rw [tokenize_atom (symOK_parts hsym).1 hbd, tokenize_rb]
        rfl

/-!  Interning during parsing: symbol-table discipline with explicit
spine keys. -/

theorem HListRepK_mono_keys {cs cs' : List (Option CCell)} {e : Expr}
    {xs : List Expr} {ks : List Nat}
    (hp : ∀ j c, j ∈ ks → cellAt cs j = some c → cellAt cs' j = some c)
    (hr : HListRepK cs e xs ks) : HListRepK cs' e xs ks := by
  induction hr with
  | nil => exact .nil
  | @cons k x rest m xs' ks' hc _ ih =>
    exact .cons (hp k _ (by simp) hc)
      (ih fun j c hj hjc => hp j c (List.mem_cons_of_mem _ hj) hjc)

theorem symLoop_some {h : Heap} {nm : List Char} {s : Expr} :
    ∀ {fuel : Nat} {e : Expr}, symLoop h nm fuel e = .ok (some s) →
      s = .Symbol nm := by
  intro fuel
  induction fuel with
  | zero => intro e hl; simp [symLoop] at hl
  | succ f ih =>
    intro e hl
    rw [symLoop] at hl
    by_cases hn : e.is_nil
    · rw [if_pos hn] at hl
      simp at hl
    · rw [if_neg hn] at hl
      cases hfr : get_first_rest h e with
      | ok fr =>
        rw [hfr, rbind_ok] at hl
        cases hx : fr.1 with
        | Symbol r =>
          simp only [hx] at hl
          by_cases hr : r = nm
          · rw [if_pos hr] at hl
            simp only [Res.ok.injEq, Option.some.injEq] at hl
            rw [← hl, hr]
          · rw [if_neg hr] at hl
            exact ih hl
        | Nil => simp only [hx] at hl; exact ih hl
        | Boolean b => simp only [hx] at hl; exact ih hl
        | Integer n => simp only [hx] at hl; exact ih hl
        | Pair k => simp only [hx] at hl; exact ih hl
        | Closure k => simp only [hx] at hl; exact ih hl
        | Primitive d => simp only [hx] at hl; exact ih hl
      | err e2 => rw [hfr] at hl; simp at hl
      | oof => rw [hfr] at hl; simp at hl
      | bug => rw [hfr] at hl; simp at hl

/-- `make_symbol` with enough fuel succeeds on a well-formed symbol
table, growing it by at most the one interned name. -/
theorem make_symbol_ok {h : Heap} {elems : List Expr} {ks : List Nat}
    {fuel : Nat} (name : List Char)
    (hr : HListRepK h.cells h.symbols elems ks) (hf : elems.length < fuel) :
    ∃ (h' : Heap) (elems' : List Expr) (ks' : List Nat),
      make_symbol fuel h name = (.ok (.Symbol (upperChars name)), h') ∧
      HListRepK h'.cells h'.symbols elems' ks' ∧
      elems'.length ≤ elems.length + 1 ∧
      (∀ j ∈ ks', j ∈ ks ∨ h.cells.length ≤ j) ∧
      PreservesCells h.cells h'.cells ∧
      h.cells.length ≤ h'.cells.length ∧
      h'.root_env = h.root_env := by
  have hloop := symLoop_rep (h := h) (e := h.symbols) (upperChars name) ⟨ks, hr⟩ hf
  cases hfind : findSym elems (upperChars name) with
  | some s =>
    have hs := findSym_eq_some hfind
    subst hs
    refine ⟨h, elems, ks, ?_, hr, by omega, fun j hj => Or.inl hj,
      preservesCells_refl _, le_refl _, rfl⟩
    simp [make_symbol, hloop, hfind]
  | none =>
    refine ⟨Heap.mk (.Pair h.cells.length) h.root_env
        (h.cells ++ [some (.Symbol (upperChars name), h.symbols, false)]),
      .Symbol (upperChars name) :: elems, h.cells.length :: ks, ?_, ?_, by simp,
      ?_, preservesCells_append _ _, by simp, rfl⟩
    · simp [make_symbol, hloop, hfind, make_cons]
    · exact .cons (cellAt_append_self _ _)
        (HListRepK_mono (preservesCells_append _ _) hr)
    · intro j hj
      rcases List.mem_cons.mp hj with hj1 | hj2
      · exact Or.inr (le_of_eq hj1.symm)
      · exact Or.inl hj2

/-- When `make_symbol` succeeds — at any fuel, on any well-formed symbol
table — the result is the upper-cased interned symbol and the table stays
well formed. -/
theorem make_symbol_sound {h h' : Heap} {elems : List Expr} {ks : List Nat}
    {fuel : Nat} {name : List Char} {s : Expr}
    (hr : HListRepK h.cells h.symbols elems ks)
    (hm : make_symbol fuel h name = (.ok s, h')) :
    s = .Symbol (upperChars name) ∧
    ∃ (elems' : List Expr) (ks' : List Nat),
      HListRepK h'.cells h'.symbols elems' ks' ∧
      elems'.length ≤ elems.length + 1 ∧
      (∀ j ∈ ks', j ∈ ks ∨ h.cells.length ≤ j) ∧
      PreservesCells h.cells h'.cells ∧
      h.cells.length ≤ h'.cells.length ∧
      h'.root_env = h.root_env := by
  simp only [make_symbol] at hm
  cases hsl : symLoop h (upperChars name) fuel h.symbols with
  | ok o =>
    cases o with
    | some s0 =>
      simp only [hsl, Prod.mk.injEq, Res.ok.injEq] at hm
      obtain ⟨hm1, hm2⟩ := hm
      subst hm1
      subst hm2
      exact ⟨symLoop_some hsl, elems, ks, hr, by omega, fun j hj => Or.inl hj,
        preservesCells_refl _, le_refl _, rfl⟩
    | none =>
      simp only [hsl, make_cons, Prod.mk.injEq, Res.ok.injEq] at hm
      obtain ⟨hm1, hm2⟩ := hm
      subst hm1
      subst hm2
      refine ⟨rfl, .Symbol (upperChars name) :: elems, h.cells.length :: ks,
        ?_, by simp, ?_, preservesCells_append _ _, by simp, rfl⟩
      · exact .cons (cellAt_append_self _ _)
          (HListRepK_mono (preservesCells_append _ _) hr)
      · intro j hj
        rcases List.mem_cons.mp hj with hj1 | hj2
        · exact Or.inr (le_of_eq hj1.symm)
        · exact Or.inl hj2
  | err e => simp only [hsl] at hm; simp at hm
  | oof => simp only [hsl] at hm; simp at hm
  | bug => simp only [hsl] at hm; simp at hm

/-!  `parse_value` on the printed texts of good atoms. -/

theorem parse_value_false (fuel : Nat) (h : Heap) :
    parse_value fuel "#f".toList h = (.ok (.Boolean false), h) := by
  simp only [parse_value]
  rw [if_pos (by decide)]
  simp

theorem parse_value_true (fuel : Nat) (h : Heap) :
    parse_value fuel "#t".toList h = (.ok (.Boolean true), h) := by
  simp only [parse_value]
  rw [if_pos (by decide), if_neg (by decide)]
  simp

theorem intChars_shape (n : Int) :
    ∃ c t, intChars n = c :: t ∧ (c.isDigit = true ∨ c = '-') := by
  by_cases hn : n < 0
  · exact ⟨'-', natToChars (-n).toNat, by rw [intChars, if_pos hn], Or.inr rfl⟩
  · obtain ⟨c, cs, heq⟩ : ∃ c cs, natToChars n.toNat = c :: cs := by
      rcases h : natToChars n.toNat with _ | ⟨c, cs⟩
      · exact absurd h (natToChars_ne_nil _)
      · exact ⟨c, cs, rfl⟩
    refine ⟨c, cs, by rw [intChars, if_neg hn, heq], Or.inl ?_⟩
    exact natToChars_all_digit n.toNat c (by rw [heq]; simp)

theorem parse_value_int {n : Int} (hlo : -(2 ^ 63) ≤ n) (hhi : n ≤ 2 ^ 63 - 1)
    (fuel : Nat) (h : Heap) :
    parse_value fuel (intChars n) h = (.ok (.Integer n), h) := by
  obtain ⟨c, t, heq, hc⟩ := intChars_shape n
  have hhd : (intChars n).head? = some c := by rw [heq]; rfl
  have hne : ¬ ((intChars n).head? = some '#') := by
    rw [hhd]
    intro hx
    have hx2 : c = '#' := by simpa using hx
    rcases hc with hd | hm
    · rw [hx2] at hd; exact absurd hd (by decide)
    · rw [hx2] at hm; exact absurd hm (by decide)
  have hnum : numHead (intChars n) = true := by
    rw [heq]
    simp only [numHead]
    rcases hc with hd | hm
    · simp [hd]
    · simp [hm]
  simp only [parse_value]
  rw [if_neg hne, if_pos hnum, rustParseI64_intChars hlo hhi]

theorem parse_value_sym {s : List Char} (hs : symOK s = true) {h : Heap}
    {elems : List Expr} {ks : List Nat} {fuel : Nat}
    (hr : HListRepK h.cells h.symbols elems ks) (hf : elems.length < fuel) :
    ∃ (h' : Heap) (elems' : List Expr) (ks' : List Nat),
      parse_value fuel s h = (.ok (.Symbol s), h') ∧
      HListRepK h'.cells h'.symbols elems' ks' ∧
      elems'.length ≤ elems.length + 1 ∧
      (∀ j ∈ ks', j ∈ ks ∨ h.cells.length ≤ j) ∧
      PreservesCells h.cells h'.cells ∧
      h.cells.length ≤ h'.cells.length ∧
      h'.root_env = h.root_env := by
  obtain ⟨h', elems', ks', hms, hrep, hlen, hgrow, hpres, hle, hroot⟩ :=
    make_symbol_ok s hr hf
  rw [(symOK_parts hs).2] at hms
  rcases s with _ | ⟨c, t⟩
  · simp [symOK, atomOK] at hs
  simp only [symOK, Bool.and_eq_true, Bool.not_eq_true', Bool.or_eq_true,
    beq_iff_eq, decide_eq_false_iff_not, decide_eq_true_eq] at hs
  obtain ⟨⟨hatom, hup⟩, hhash, hrest⟩ := hs
  have hne : ¬ ((c :: t).head? = some '#') := by
    intro hx
    exact hhash (by simpa using hx)
  refine ⟨h', elems', ks', ?_, hrep, hlen, hgrow, hpres, hle, hroot⟩
  rcases hrest with hnodash | hdash
  · have hnum : numHead (c :: t) = false := by
      simp only [numHead, Bool.or_eq_false_iff, decide_eq_false_iff_not]
      rcases Bool.or_eq_false_iff.mp hnodash with ⟨h1, h2⟩
      exact ⟨h1, by simpa using h2⟩
    simp only [parse_value]
    rw [if_neg hne, if_neg (by simp [hnum]), hms]
  · have hct : c :: t = ['-'] := hdash
    rw [hct] at hms ⊢
    simp only [parse_value]
    rw [if_neg (by decide), if_pos (by decide),
      show rustParseI64 ['-'] = none from by decide]
    rw [if_neg (by decide), hms]

/-!  The token stream of a printed tree: head shape, and the lexer only
emits well-formed atom tokens. -/

theorem tokensP_shape (t : PVal) : ∃ tok ts, tokensP t = tok :: ts ∧
    (tok = .LBracket ∨ ∃ v, tok = .Value v) := by
  cases t with
  | nil => exact ⟨.LBracket, [.RBracket], by simp [tokensP], Or.inl rfl⟩
  | bool b =>
    cases b with
    | false => exact ⟨.Value "#f".toList, [], by simp [tokensP], Or.inr ⟨_, rfl⟩⟩
    | true => exact ⟨.Value "#t".toList, [], by simp [tokensP], Or.inr ⟨_, rfl⟩⟩
  | int n => exact ⟨.Value (intChars n), [], by simp [tokensP], Or.inr ⟨_, rfl⟩⟩
  | sym s => exact ⟨.Value s, [], by simp [tokensP], Or.inr ⟨_, rfl⟩⟩
  | cons a d =>
    exact ⟨.LBracket, tokensP a ++ tokensTail d, by simp [tokensP], Or.inl rfl⟩

/-- Every `Value` token of the stream is a lexer-shaped atom. -/
def TokensOK (toks : List Token) : Prop :=
  ∀ v, Token.Value v ∈ toks → atomOK v = true

theorem TokensOK_tail {tok : Token} {toks : List Token}
    (h : TokensOK (tok :: toks)) : TokensOK toks :=
  fun v hv => h v (List.mem_cons_of_mem _ hv)

theorem tokenize_TokensOK_aux : ∀ (n : Nat) (l : List Char), l.length ≤ n →
    TokensOK (tokenize l) := by
  intro n
  induction n with
  | zero =>
    intro l hl
    have : l = [] := List.eq_nil_of_length_eq_zero (by omega)
    subst this
    intro v hv
    simp [tokenize] at hv
  | succ n ih =>
    intro l hl
    rcases l with _ | ⟨c, rest⟩
    · intro v hv
      simp [tokenize] at hv
    rw [tokenize]
    by_cases hw : c.isWhitespace
    · rw [if_pos hw]
      exact ih rest (by simp at hl; omega)
    rw [if_neg hw]
    by_cases hlp : c = '('
    · rw [if_pos hlp]
      intro v hv
      exact ih rest (by simp at hl; omega) v (by simpa using hv)
    rw [if_neg hlp]
    by_cases hrp : c = ')'
    · rw [if_pos hrp]
      intro v hv
      exact ih rest (by simp at hl; omega) v (by simpa using hv)
    rw [if_neg hrp]
    by_cases hdot : c = '.'
    · rw [if_pos hdot]
      intro v hv
      exact ih rest (by simp at hl; omega) v (by simpa using hv)
    rw [if_neg hdot]
    by_cases htick : c = tickChar
    · rw [if_pos htick]
      intro v hv
      exact ih rest (by simp at hl; omega) v (by simpa using hv)
    rw [if_neg htick]
    intro v hv
    rcases List.mem_cons.mp hv with hv1 | hv2
    · have hv3 : v = c :: rest.takeWhile fun ch => !isDelimC ch := by
        exact (Token.Value.injEq .. ▸ hv1 :)
      subst hv3
      simp only [atomOK, Bool.and_eq_true, List.all_eq_true, Bool.not_eq_true',
        decide_eq_false_iff_not]
      have hcnd : isDelimC c = false := by
        simp only [isDelimC, Bool.or_eq_false_iff, decide_eq_false_iff_not]
        refine ⟨⟨?_, hlp⟩, hrp⟩
        cases hcw : c.isWhitespace
        · rfl
        · exact absurd hcw hw
      refine ⟨⟨?_, hdot⟩, htick⟩
      intro x hx
      rcases List.mem_cons.mp hx with hx1 | hx2
      · subst hx1
        exact hcnd
      · have := List.mem_takeWhile_imp hx2
        simpa using this
    · have hlen := dropWhile_length_le (fun ch => !isDelimC ch) rest
      exact ih (rest.dropWhile fun ch => !isDelimC ch)
        (by simp at hl; omega) v hv2

theorem tokenize_TokensOK (l : List Char) : TokensOK (tokenize l) :=
  tokenize_TokensOK_aux l.length l (le_refl _)

/-!  Parser completeness: the token stream of a printed good tree parses
back into a fresh representation of the same tree. -/

/-- Completeness of `parse_expr` (first component) and of the list-body
loop (second component) on printed token streams, with the symbol-table
discipline and heap-growth facts threaded through. -/
theorem parse_tokens : ∀ n : Nat,
    (∀ t : PVal, S t < n → PGood t = true →
      ∀ (h : Heap) (elems : List Expr) (ks : List Nat) (rest : List Token)
        (fuel : Nat),
      HListRepK h.cells h.symbols elems ks →
      elems.length + 2 * S t ≤ fuel →
      ∃ (v : Expr) (h' : Heap) (elems' : List Expr) (ks' : List Nat),
        parse_expr fuel (tokensP t ++ rest) h = (.ok (v, rest), h') ∧
        HRepN h'.cells h.cells.length v t ∧
        HListRepK h'.cells h'.symbols elems' ks' ∧
        elems'.length ≤ elems.length + S t ∧
        (∀ j ∈ ks', j ∈ ks ∨ h.cells.length ≤ j) ∧
        PreservesCells h.cells h'.cells ∧
        h.cells.length ≤ h'.cells.length ∧
        h'.root_env = h.root_env) ∧
    (∀ d : PVal, S d + 1 < n → PGood d = true →
      ∀ (h : Heap) (elems : List Expr) (ks : List Nat) (rest : List Token)
        (fuel : Nat) (k : Nat) (x : Expr) (m : Bool) (res : Expr),
      HListRepK h.cells h.symbols elems ks →
      elems.length + 2 * S d + 1 ≤ fuel →
      cellAt h.cells k = some (x, .Nil, m) →
      k ∉ ks →
      ∃ (r : Expr) (h' : Heap) (elems' : List Expr) (ks' : List Nat),
        parseListLoop fuel (tokensTail d ++ rest) h (.Pair k) res =
          (.ok (res, rest), h') ∧
        cellAt h'.cells k = some (x, r, m) ∧
        HRepN h'.cells h.cells.length r d ∧
        HListRepK h'.cells h'.symbols elems' ks' ∧
        elems'.length ≤ elems.length + S d ∧
        (∀ j ∈ ks', j ∈ ks ∨ h.cells.length ≤ j) ∧
        (∀ j c, j ≠ k → cellAt h.cells j = some c → cellAt h'.cells j = some c) ∧
        h.cells.length ≤ h'.cells.length ∧
        h'.root_env = h.root_env) := by
  intro n
  induction n using Nat.strong_induction_on with
  | _ n ih =>
    constructor
    · intro t hSn hg h elems ks rest fuel hsy hfuel
      obtain ⟨f, rfl⟩ : ∃ f, fuel = f + 1 :=
        ⟨fuel - 1, by have := S_pos t; omega⟩
      cases t with
      | nil =>
        refine ⟨.Nil, h, elems, ks, ?_, .nil, hsy, by simp [S],
          fun j hj => Or.inl hj, preservesCells_refl _, le_refl _, rfl⟩
        simp [tokensP, parse_expr]
      | bool b =>
        refine ⟨.Boolean b, h, elems, ks, ?_, .bool b, hsy, by simp [S],
          fun j hj => Or.inl hj, preservesCells_refl _, le_refl _, rfl⟩
        cases b with
        | false =>
          simp only [tokensP, List.cons_append, List.nil_append, parse_expr]
          rw [parse_value_false]
        | true =>
          simp only [tokensP, List.cons_append, List.nil_append, parse_expr]
          rw [parse_value_true]
      | int n0 =>
        have hrange : -(2 ^ 63) ≤ n0 ∧ n0 ≤ 2 ^ 63 - 1 := by
          simpa [PGood, Bool.and_eq_true, decide_eq_true_eq] using hg
        refine ⟨.Integer n0, h, elems, ks, ?_, .int n0, hsy, by simp [S],
          fun j hj => Or.inl hj, preservesCells_refl _, le_refl _, rfl⟩
        simp only [tokensP, List.cons_append, List.nil_append, parse_expr]
        rw [parse_value_int hrange.1 hrange.2]
      | sym s0 =>
        have hsym : symOK s0 = true := by simpa [PGood] using hg
        obtain ⟨h', elems', ks', hpv, hrep', hlen', hgrow', hpres', hle', hroot'⟩ :=
          @parse_value_sym _ hsym _ _ _ (f + 1) hsy (by simp [S] at hfuel; omega)
        refine ⟨.Symbol s0, h', elems', ks', ?_, .sym s0, hrep', by
          simpa [S] using hlen', hgrow', hpres', hle', hroot'⟩
        simp only [tokensP, List.cons_append, List.nil_append, parse_expr]
        rw [hpv]
      | cons a d =>
        have hga : PGood a = true ∧ PGood d = true := by
          simpa [PGood, Bool.and_eq_true] using hg
        have hSa1 : S a + 1 < n := by
          simp only [S] at hSn
          have := S_pos d
          omega
        obtain ⟨va, h1, elems1, ks1, hpa, hrepa, hsy1, hlen1, hgrow1, hpres1,
            hle1, hroot1⟩ :=
          (ih (S a + 1) hSa1).1 a (by omega) hga.1 h elems ks
            (tokensTail d ++ rest) f hsy
            (by simp only [S] at hfuel; have := S_pos d; omega)
        have hSd2 : S d + 2 < n := by
          simp only [S] at hSn
          have := S_pos a
          omega
        have hk1 : h.cells.length ≤ h1.cells.length := hle1
        obtain ⟨r, h4, elems', ks', hloop, hcellk, hrepr, hsy4, hlen4, hgrow4,
            hpresk, hle4, hroot4⟩ :=
          (ih (S d + 2) hSd2).2 d (by omega) hga.2
            ({ h1 with cells := h1.cells ++ [some (va, Expr.Nil, false)] })
            elems1 ks1 rest f h1.cells.length va false (Expr.Pair h1.cells.length)
            (HListRepK_mono (preservesCells_append _ _) hsy1)
            (by
              simp only [S] at hfuel
              have := S_pos a
              omega)
            (cellAt_append_self _ _)
            (fun hmem => by
              have := HListRepK_keys_lt hsy1 _ hmem
              omega)
        refine ⟨.Pair h1.cells.length, h4, elems', ks', ?_, ?_, hsy4, ?_, ?_,
          ?_, ?_, ?_⟩
        · obtain ⟨tok, ts, htoks, hshape⟩ := tokensP_shape a
          rw [htoks, List.cons_append] at hpa
          simp only [tokensP, List.cons_append, List.append_assoc, htoks]
          rcases hshape with h1s | ⟨v0, h1s⟩ <;> subst h1s <;>
            · simp only [parse_expr]
              rw [hpa]
              simp only [make_cons]
              rw [hloop]
        · refine HRepN.cons hle1 hcellk ?_ ?_
          · refine HRepN_mono ?_ hrepa
            intro j c hjN hj1
            have hjlt : j < h1.cells.length := cellAt_lt_length hj1
            refine hpresk j c (by omega) ?_
            simpa using cellAt_append hjlt ▸ hj1
          · exact HRepN_weaken (by simp only [List.length_append]; omega) hrepr
        · simp only [S]
          omega
        · intro j hj
          rcases hgrow4 j hj with hj1 | hj2
          · rcases hgrow1 j hj1 with hj3 | hj4
            · exact Or.inl hj3
            · exact Or.inr hj4
          · simp only [List.length_append] at hj2
            exact Or.inr (by omega)
        · intro j c hc
          have hjlt : j < h.cells.length := cellAt_lt_length hc
          have hc1 := hpres1 j c hc
          have hjlt1 : j < h1.cells.length := cellAt_lt_length hc1
          refine hpresk j c (by omega) ?_
          simpa using cellAt_append hjlt1 ▸ hc1
        · simp only [List.length_append] at hle4
          omega
        · rw [hroot4, hroot1]
    · intro d hSn hg h elems ks rest fuel k x m res hsy hfuel hck hknotin
      obtain ⟨f, rfl⟩ : ∃ f, fuel = f + 1 := ⟨fuel - 1, by omega⟩
      have hklt : k < h.cells.length := cellAt_lt_length hck
      cases d with
      | nil =>
        refine ⟨.Nil, h, elems, ks, ?_, hck, .nil, hsy, by simp [S],
          fun j hj => Or.inl hj, fun j c _ hc => hc, le_refl _, rfl⟩
        simp [tokensTail, parseListLoop]
      | cons a d2 =>
        have hga : PGood a = true ∧ PGood d2 = true := by
          simpa [PGood, Bool.and_eq_true] using hg
        have hSa1 : S a + 1 < n := by
          simp only [S] at hSn
          have := S_pos d2
          omega
        obtain ⟨va, h1, elems1, ks1, hpa, hrepa, hsy1, hlen1, hgrow1, hpres1,
            hle1, hroot1⟩ :=
          (ih (S a + 1) hSa1).1 a (by omega) hga.1 h elems ks
            (tokensTail d2 ++ rest) f hsy
            (by simp only [S] at hfuel; have := S_pos d2; omega)
        have hcell1 : cellAt h1.cells k = some (x, .Nil, m) := hpres1 _ _ hck
        have hklt1 : k < h1.cells.length := cellAt_lt_length hcell1
        have hcell2 : cellAt (h1.cells ++ [some (va, .Nil, false)]) k =
            some (x, .Nil, m) := by
          rw [cellAt_append hklt1]
          exact hcell1
        have hsr : set_rest ({ h1 with cells :=
              h1.cells ++ [some (va, Expr.Nil, false)] })
            (Expr.Pair k) (Expr.Pair h1.cells.length) =
            (.ok (), { h1 with cells := (h1.cells ++ [some (va, Expr.Nil, false)]).set k (some (x, Expr.Pair h1.cells.length, m)) }) := by
          simp [set_rest, hcell2]
        have hSd2 : S d2 + 2 < n := by
          simp only [S] at hSn
          have := S_pos a
          omega
        obtain ⟨r2, h4, elems', ks', hloop, hcellk2, hrepr2, hsy4, hlen4,
            hgrow4, hpresk2, hle4, hroot4⟩ :=
          (ih (S d2 + 2) hSd2).2 d2 (by omega) hga.2
            ({ h1 with cells := (h1.cells ++ [some (va, Expr.Nil, false)]).set k (some (x, Expr.Pair h1.cells.length, m)) })
            elems1 ks1 rest f h1.cells.length va false res
            (by
              refine HListRepK_mono_keys ?_ hsy1
              intro j c hj hjc
              have hjne : j ≠ k := by
                rcases hgrow1 j hj with hj1 | hj2
                · intro hx; exact hknotin (hx ▸ hj1)
                · omega
              have hjlt : j < h1.cells.length := cellAt_lt_length hjc
              rw [cellAt_set_ne _ k j (fun hx => hjne hx.symm)]
              rw [cellAt_append hjlt]
              exact hjc)
            (by
              simp only [S] at hfuel
              have := S_pos a
              omega)
            (by
              rw [cellAt_set_ne _ k _ (by omega)]
              exact cellAt_append_self _ _)
            (fun hmem => by
              have := HListRepK_keys_lt hsy1 _ hmem
              omega)
        refine ⟨.Pair h1.cells.length, h4, elems', ks', ?_, ?_, ?_, hsy4, ?_,
          ?_, ?_, ?_, ?_⟩
        · obtain ⟨tok, ts, htoks, hshape⟩ := tokensP_shape a
          rw [htoks, List.cons_append] at hpa
          simp only [tokensTail, List.append_assoc, htoks, List.cons_append]
          rcases hshape with h1s | ⟨v0, h1s⟩ <;> subst h1s <;>
            · simp only [parseListLoop]
              rw [hpa]
              simp only [make_cons]
              rw [hsr]
              exact hloop
        · refine hpresk2 k _ (by omega) ?_
          rw [cellAt_set_self _ k (by simp only [List.length_append]; omega) _]
        · refine HRepN.cons (le_trans hle1 (le_refl _)) hcellk2 ?_ ?_
          · refine HRepN_mono ?_ hrepa
            intro j c hjN hj1
            have hjlt : j < h1.cells.length := cellAt_lt_length hj1
            refine hpresk2 j c (by omega) ?_
            rw [cellAt_set_ne _ k j (by omega)]
            rw [cellAt_append hjlt]
            exact hj1
          · refine HRepN_weaken ?_ hrepr2
            simp only [List.length_set, List.length_append]
            omega
        · simp only [S]
          omega
        · intro j hj
          rcases hgrow4 j hj with hj1 | hj2
          · rcases hgrow1 j hj1 with hj3 | hj4
            · exact Or.inl hj3
            · exact Or.inr hj4
          · simp only [List.length_set, List.length_append] at hj2
            exact Or.inr (by omega)
        · intro j c hjk hc
          have hjlt : j < h.cells.length := cellAt_lt_length hc
          have hc1 := hpres1 j c hc
          have hjlt1 : j < h1.cells.length := cellAt_lt_length hc1
          refine hpresk2 j c (by omega) ?_
          rw [cellAt_set_ne _ k j (fun hx => hjk hx.symm)]
          rw [cellAt_append hjlt1]
          exact hc1
        · simp only [List.length_set, List.length_append] at hle4
          omega
        · rw [hroot4]
          exact hroot1
      | bool b =>
        obtain ⟨vd, h1, elems1, ks1, hpd, hrep1, hsy1, hlen1, hgrow1, hpres1,
            hle1, hroot1⟩ :=
          (ih (S (PVal.bool b) + 1) (by omega)).1 (.bool b) (by omega) hg h
            elems ks (.RBracket :: rest) f hsy
            (by simp only [S] at hfuel ⊢; omega)
        have hcell1 : cellAt h1.cells k = some (x, .Nil, m) := hpres1 _ _ hck
        have hklt1 : k < h1.cells.length := cellAt_lt_length hcell1
        have hsr : set_rest h1 (.Pair k) vd =
            (.ok (), { h1 with cells := h1.cells.set k (some (x, vd, m)) }) := by
          simp [set_rest, hcell1]
        refine ⟨vd, { h1 with cells := h1.cells.set k (some (x, vd, m)) },
          elems1, ks1, ?_, ?_, ?_, ?_, by simpa [S] using hlen1, hgrow1, ?_, ?_,
          hroot1⟩
        · simp only [tokensTail, List.cons_append, List.append_assoc,
            List.singleton_append, List.nil_append, parseListLoop]
          rw [hpd]
          simp only [hsr]
        · exact cellAt_set_self _ k hklt1 _
        · refine HRepN_mono ?_ hrep1
          intro j c hjN hj1
          rw [cellAt_set_ne _ k j (by omega)]
          exact hj1
        · refine HListRepK_mono_keys ?_ hsy1
          intro j c hj hjc
          have hjne : j ≠ k := by
            rcases hgrow1 j hj with hj1 | hj2
            · intro hx; exact hknotin (hx ▸ hj1)
            · omega
          rw [cellAt_set_ne _ k j (fun hx => hjne hx.symm)]
          exact hjc
        · intro j c hjk hc
          rw [cellAt_set_ne _ k j (fun hx => hjk hx.symm)]
          exact hpres1 j c hc
        · simp only [List.length_set]
          omega
      | int n0 =>
        obtain ⟨vd, h1, elems1, ks1, hpd, hrep1, hsy1, hlen1, hgrow1, hpres1,
            hle1, hroot1⟩ :=
          (ih (S (PVal.int n0) + 1) (by omega)).1 (.int n0) (by omega) hg h
            elems ks (.RBracket :: rest) f hsy
            (by simp only [S] at hfuel ⊢; omega)
        have hcell1 : cellAt h1.cells k = some (x, .Nil, m) := hpres1 _ _ hck
        have hklt1 : k < h1.cells.length := cellAt_lt_length hcell1
        have hsr : set_rest h1 (.Pair k) vd =
            (.ok (), { h1 with cells := h1.cells.set k (some (x, vd, m)) }) := by
          simp [set_rest, hcell1]
        refine ⟨vd, { h1 with cells := h1.cells.set k (some (x, vd, m)) },
          elems1, ks1, ?_, ?_, ?_, ?_, by simpa [S] using hlen1, hgrow1, ?_, ?_,
          hroot1⟩
        · simp only [tokensTail, List.cons_append, List.append_assoc,
            List.singleton_append, List.nil_append, parseListLoop]
          rw [hpd]
          simp only [hsr]
        · exact cellAt_set_self _ k hklt1 _
        · refine HRepN_mono ?_ hrep1
          intro j c hjN hj1
          rw [cellAt_set_ne _ k j (by omega)]
          exact hj1
        · refine HListRepK_mono_keys ?_ hsy1
          intro j c hj hjc
          have hjne : j ≠ k := by
            rcases hgrow1 j hj with hj1 | hj2
            · intro hx; exact hknotin (hx ▸ hj1)
            · omega
          rw [cellAt_set_ne _ k j (fun hx => hjne hx.symm)]
          exact hjc
        · intro j c hjk hc
          rw [cellAt_set_ne _ k j (fun hx => hjk hx.symm)]
          exact hpres1 j c hc
        · simp only [List.length_set]
          omega
      | sym s0 =>
        obtain ⟨vd, h1, elems1, ks1, hpd, hrep1, hsy1, hlen1, hgrow1, hpres1,
            hle1, hroot1⟩ :=
          (ih (S (PVal.sym s0) + 1) (by omega)).1 (.sym s0) (by omega) hg h
            elems ks (.RBracket :: rest) f hsy
            (by simp only [S] at hfuel ⊢; omega)
        have hcell1 : cellAt h1.cells k = some (x, .Nil, m) := hpres1 _ _ hck
        have hklt1 : k < h1.cells.length := cellAt_lt_length hcell1
        have hsr : set_rest h1 (.Pair k) vd =
            (.ok (), { h1 with cells := h1.cells.set k (some (x, vd, m)) }) := by
          simp [set_rest, hcell1]
        refine ⟨vd, { h1 with cells := h1.cells.set k (some (x, vd, m)) },
          elems1, ks1, ?_, ?_, ?_, ?_, by simpa [S] using hlen1, hgrow1, ?_, ?_,
          hroot1⟩
        · simp only [tokensTail, List.cons_append, List.append_assoc,
            List.singleton_append, List.nil_append, parseListLoop]
          rw [hpd]
          simp only [hsr]
        · exact cellAt_set_self _ k hklt1 _
        · refine HRepN_mono ?_ hrep1
          intro j c hjN hj1
          rw [cellAt_set_ne _ k j (by omega)]
          exact hj1
        · refine HListRepK_mono_keys ?_ hsy1
          intro j c hj hjc
          have hjne : j ≠ k := by
            rcases hgrow1 j hj with hj1 | hj2
            · intro hx; exact hknotin (hx ▸ hj1)
            · omega
          rw [cellAt_set_ne _ k j (fun hx => hjne hx.symm)]
          exact hjc
        · intro j c hjk hc
          rw [cellAt_set_ne _ k j (fun hx => hjk hx.symm)]
          exact hpres1 j c hc
        · simp only [List.length_set]
          omega

/-!  Parser soundness: helper facts. -/

theorem rustParseI64_range {v : List Char} {n : Int}
    (h : rustParseI64 v = some n) : -(2 ^ 63) ≤ n ∧ n ≤ 2 ^ 63 - 1 := by
  rcases v with _ | ⟨c, t⟩
  · simp [rustParseI64, digitsVal?] at h
  by_cases hc1 : c = '-'
  · subst hc1
    simp only [rustParseI64] at h
    cases hd : digitsVal? t with
    | none => rw [hd] at h; simp at h
    | some m =>
      rw [hd, Option.some_bind] at h
      by_cases hm : (m : Int) ≤ 2 ^ 63
      · rw [if_pos hm] at h
        have hn : -(m : Int) = n := by simpa using h
        constructor
        · omega
        · have : (0 : Int) ≤ (m : Int) := Int.ofNat_nonneg m
          omega
      · rw [if_neg hm] at h
        simp at h
  · by_cases hc2 : c = '+'
    · subst hc2
      simp only [rustParseI64] at h
      cases hd : digitsVal? t with
      | none => rw [hd] at h; simp at h
      | some m =>
        rw [hd, Option.some_bind] at h
        by_cases hm : (m : Int) ≤ 2 ^ 63 - 1
        · rw [if_pos hm] at h
          have hn : (m : Int) = n := by simpa using h
          have : (0 : Int) ≤ (m : Int) := Int.ofNat_nonneg m
          omega
        · rw [if_neg hm] at h
          simp at h
    · rw [rustParseI64_other hc1 hc2] at h
      cases hd : digitsVal? (c :: t) with
      | none => rw [hd] at h; simp at h
      | some m =>
        rw [hd, Option.some_bind] at h
        by_cases hm : (m : Int) ≤ 2 ^ 63 - 1
        · rw [if_pos hm] at h
          have hn : (m : Int) = n := by simpa using h
          have : (0 : Int) ≤ (m : Int) := Int.ofNat_nonneg m
          omega
        · rw [if_neg hm] at h
          simp at h

/-- Upper-casing a lexer atom whose head is not `#`, a digit or `-`
yields a parser-producible symbol name. -/
theorem symOK_upper {c : Char} {t0 : List Char}
    (hatom : atomOK (c :: t0) = true) (hhash : c ≠ '#')
    (hdig : c.isDigit = false) (hdash : c ≠ '-') :
    symOK (upperChars (c :: t0)) = true := by
  have hmap : upperChars (c :: t0) = Char.toUpper c :: upperChars t0 := rfl
  simp only [atomOK, Bool.and_eq_true, List.all_eq_true, Bool.not_eq_true',
    decide_eq_false_iff_not] at hatom
  obtain ⟨⟨hall, hdot⟩, htick⟩ := hatom
  simp only [symOK, hmap, Bool.and_eq_true, beq_iff_eq]
  have h1 : Char.toUpper c ≠ '#' := toUpper_ne_of_toNat (by left; decide) hhash
  have h2 : (Char.toUpper c).isDigit = false := toUpper_not_digit hdig
  have h3 : Char.toUpper c ≠ '-' := toUpper_ne_of_toNat (by left; decide) hdash
  refine ⟨⟨?_, ?_⟩, ?_⟩
  · simp only [atomOK, Bool.and_eq_true, List.all_eq_true, Bool.not_eq_true',
      decide_eq_false_iff_not]
    refine ⟨⟨?_, ?_⟩, ?_⟩
    · intro y hy
      rcases List.mem_cons.mp hy with hy1 | hy2
      · subst hy1
        exact toUpper_not_delim (hall c (by simp))
      · obtain ⟨z, hz, hzy⟩ := List.mem_map.mp hy2
        subst hzy
        exact toUpper_not_delim (hall z (by simp [hz]))
    · exact toUpper_ne_of_toNat (by left; decide) hdot
    · exact toUpper_ne_of_toNat (by left; decide) htick
  · rw [← hmap, upperChars_idem]
  · simp [h1, h2, h3]

/-- Soundness of `parse_value`: a successful parse of a lexer atom yields
an atom value representing a good tree, touching at most the symbol
table. -/
theorem parse_value_sound {v0 : List Char} {h h' : Heap} {e : Expr}
    {elems : List Expr} {ks : List Nat} {fuel : Nat}
    (hatom : atomOK v0 = true)
    (hsy : HListRepK h.cells h.symbols elems ks)
    (hpv : parse_value fuel v0 h = (.ok e, h')) :
    ∃ (t : PVal) (elems' : List Expr) (ks' : List Nat),
      PGood t = true ∧
      (∀ (cs : List (Option CCell)) (N : Nat), HRepN cs N e t) ∧
      HListRepK h'.cells h'.symbols elems' ks' ∧
      (∀ j ∈ ks', j ∈ ks ∨ h.cells.length ≤ j) ∧
      PreservesCells h.cells h'.cells ∧
      h.cells.length ≤ h'.cells.length ∧
      h'.root_env = h.root_env := by
  simp only [parse_value] at hpv
  by_cases hh : v0.head? = some '#'
  · rw [if_pos hh] at hpv
    by_cases hf : v0 = "#f".toList
    · rw [if_pos hf] at hpv
      simp only [Prod.mk.injEq, PRes.ok.injEq] at hpv
      obtain ⟨he, hhe⟩ := hpv
      subst he
      subst hhe
      exact ⟨.bool false, elems, ks, rfl, fun cs N => .bool false, hsy,
        fun j hj => Or.inl hj, preservesCells_refl _, le_refl _, rfl⟩
    · rw [if_neg hf] at hpv
      by_cases ht : v0 = "#t".toList
      · rw [if_pos ht] at hpv
        simp only [Prod.mk.injEq, PRes.ok.injEq] at hpv
        obtain ⟨he, hhe⟩ := hpv
        subst he
        subst hhe
        exact ⟨.bool true, elems, ks, rfl, fun cs N => .bool true, hsy,
          fun j hj => Or.inl hj, preservesCells_refl _, le_refl _, rfl⟩
      · rw [if_neg ht] at hpv
        simp at hpv
  · rw [if_neg hh] at hpv
    rcases v0 with _ | ⟨c, t0⟩
    · simp [atomOK] at hatom
    by_cases hn : numHead (c :: t0) = true
    · rw [if_pos hn] at hpv
      cases hri : rustParseI64 (c :: t0) with
      | some n =>
        simp only [hri, Prod.mk.injEq, PRes.ok.injEq] at hpv
        obtain ⟨he, hhe⟩ := hpv
        subst he
        subst hhe
        have hrange := rustParseI64_range hri
        refine ⟨.int n, elems, ks, ?_, fun cs N => .int n, hsy,
          fun j hj => Or.inl hj, preservesCells_refl _, le_refl _, rfl⟩
        simp only [PGood, Bool.and_eq_true, decide_eq_true_eq]
        exact hrange
      | none =>
        simp only [hri] at hpv
        by_cases hd : c :: t0 = "-".toList
        · rw [if_neg (by simpa using hd)] at hpv
          cases hms : make_symbol fuel h (c :: t0) with
          | mk r0 h1 =>
            cases r0 with
            | ok s =>
              simp only [hms, Prod.mk.injEq, PRes.ok.injEq] at hpv
              obtain ⟨he, hhe⟩ := hpv
              subst he
              subst hhe
              obtain ⟨hse, elems', ks', hrep', hlen', hgrow', hpres', hle',
                hroot'⟩ := make_symbol_sound hsy hms
              subst hse
              refine ⟨.sym (upperChars (c :: t0)), elems', ks', ?_,
                fun cs N => .sym _, hrep', hgrow', hpres', hle', hroot'⟩
              have hd2 : c :: t0 = ['-'] := by simpa using hd
              rw [hd2]
              decide
            | err e0 => simp only [hms] at hpv; simp at hpv
            | oof => simp only [hms] at hpv; simp at hpv
            | bug => simp only [hms] at hpv; simp at hpv
        · rw [if_pos (by simpa using hd)] at hpv
          simp at hpv
    · rw [if_neg hn] at hpv
      cases hms : make_symbol fuel h (c :: t0) with
      | mk r0 h1 =>
        cases r0 with
        | ok s =>
          simp only [hms, Prod.mk.injEq, PRes.ok.injEq] at hpv
          obtain ⟨he, hhe⟩ := hpv
          subst he
          subst hhe
          obtain ⟨hse, elems', ks', hrep', hlen', hgrow', hpres', hle',
            hroot'⟩ := make_symbol_sound hsy hms
          subst hse
          refine ⟨.sym (upperChars (c :: t0)), elems', ks', ?_,
            fun cs N => .sym _, hrep', hgrow', hpres', hle', hroot'⟩
          have hnum : c.isDigit = false ∧ ¬ (c = '-') := by
            have : (c.isDigit || c = '-') = false := by
              cases hx : (c.isDigit || decide (c = '-'))
              · simpa using hx
              · exact absurd (by simpa [numHead] using hx) hn
            simpa using this
          exact symOK_upper hatom (fun hx => hh (by simp [hx])) hnum.1 hnum.2
        | err e0 => simp only [hms] at hpv; simp at hpv
        | oof => simp only [hms] at hpv; simp at hpv
        | bug => simp only [hms] at hpv; simp at hpv

/-- Parser soundness: a successful `parse_expr` on a stream of well-formed
atom tokens builds a fresh representation of some good tree (first
component); likewise for the list-body loop relative to its tail cell
(second component). -/
theorem parse_sound : ∀ fuel : Nat,
    (∀ (toks : List Token) (h : Heap) (v : Expr) (rem : List Token) (h' : Heap)
       (elems : List Expr) (ks : List Nat),
      TokensOK toks → HListRepK h.cells h.symbols elems ks →
      parse_expr fuel toks h = (.ok (v, rem), h') →
      ∃ (t : PVal) (elems' : List Expr) (ks' : List Nat),
        PGood t = true ∧
        HRepN h'.cells h.cells.length v t ∧
        HListRepK h'.cells h'.symbols elems' ks' ∧
        (∀ j ∈ ks', j ∈ ks ∨ h.cells.length ≤ j) ∧
        PreservesCells h.cells h'.cells ∧
        h.cells.length ≤ h'.cells.length ∧
        h'.root_env = h.root_env ∧
        TokensOK rem) ∧
    (∀ (toks : List Token) (h : Heap) (kt : Nat) (res v : Expr)
       (rem : List Token) (h' : Heap) (elems : List Expr) (ks : List Nat)
       (x : Expr) (m : Bool),
      TokensOK toks → HListRepK h.cells h.symbols elems ks →
      kt ∉ ks → cellAt h.cells kt = some (x, .Nil, m) →
      parseListLoop fuel toks h (.Pair kt) res = (.ok (v, rem), h') →
      ∃ (r : Expr) (td : PVal) (elems' : List Expr) (ks' : List Nat),
        v = res ∧ PGood td = true ∧
        cellAt h'.cells kt = some (x, r, m) ∧
        HRepN h'.cells h.cells.length r td ∧
        HListRepK h'.cells h'.symbols elems' ks' ∧
        (∀ j ∈ ks', j ∈ ks ∨ h.cells.length ≤ j) ∧
        (∀ j c, j ≠ kt → cellAt h.cells j = some c → cellAt h'.cells j = some c) ∧
        h.cells.length ≤ h'.cells.length ∧
        h'.root_env = h.root_env ∧
        TokensOK rem) := by
  intro fuel
  induction fuel with
  | zero =>
    constructor
    · intro toks h v rem h' elems ks _ _ hp
      simp [parse_expr] at hp
    · intro toks h kt res v rem h' elems ks x m _ _ _ _ hp
      simp [parseListLoop] at hp
  | succ f ihf =>
    obtain ⟨ihP, ihL⟩ := ihf
    constructor
    · intro toks h v rem h' elems ks htoks hsy hp
      rcases toks with _ | ⟨tk, rest⟩
      · simp [parse_expr] at hp
      cases tk with
      | Value v0 =>
        simp only [parse_expr] at hp
        cases hpv : parse_value (f + 1) v0 h with
        | mk r0 h1 =>
          cases r0 with
          | ok e =>
            simp only [hpv, Prod.mk.injEq, PRes.ok.injEq] at hp
            obtain ⟨⟨hv, hrem⟩, hh⟩ := hp
            subst hv
            subst hrem
            subst hh
            obtain ⟨t, elems', ks', hg, hrep, hrep2, hgrow, hpres, hle, hroot⟩ :=
              parse_value_sound (htoks v0 (by simp)) hsy hpv
            exact ⟨t, elems', ks', hg, hrep _ _, hrep2, hgrow, hpres, hle,
              hroot, TokensOK_tail htoks⟩
          | perr e0 => simp only [hpv] at hp; simp at hp
          | oof => simp only [hpv] at hp; simp at hp
          | bug => simp only [hpv] at hp; simp at hp
      | Dot => simp [parse_expr] at hp
      | RBracket => simp [parse_expr] at hp
      | Tick =>
        simp only [parse_expr] at hp
        cases hms : make_symbol (f + 1) h "QUOTE".toList with
        | mk r0 h1 =>
          cases r0 with
          | ok q =>
            simp only [hms] at hp
            obtain ⟨hqe, elems1, ks1, hsy1, hlen1, hgrow1, hpres1, hle1,
              hroot1⟩ := make_symbol_sound hsy hms
            cases hpe : parse_expr f rest h1 with
            | mk r1 h2x =>
              cases r1 with
              | ok p =>
                obtain ⟨inner, rest2⟩ := p
                simp only [hpe, make_cons, Prod.mk.injEq, PRes.ok.injEq] at hp
                obtain ⟨⟨hv, hrem⟩, hh⟩ := hp
                subst hv
                subst hrem
                subst hh
                obtain ⟨t1, elems2, ks2, hg1, hrep1, hsy2, hgrow2, hpres2,
                  hle2, hroot2, hrem2⟩ :=
                  ihP rest h1 inner rest2 h2x elems1 ks1
                    (TokensOK_tail htoks) hsy1 hpe
                subst hqe
                have hquote : upperChars "QUOTE".toList = "QUOTE".toList := by
                  decide
                refine ⟨.cons (.sym "QUOTE".toList) (.cons t1 .nil), elems2,
                  ks2, ?_, ?_, ?_, ?_, ?_, ?_, ?_, hrem2⟩
                · simp only [PGood, Bool.and_eq_true]
                  exact ⟨by decide, hg1, trivial⟩
                · refine HRepN.cons
                    (k := (h2x.cells ++ [some (inner, Expr.Nil, false)]).length)
                    (f := .Symbol (upperChars "QUOTE".toList))
                    (r := .Pair h2x.cells.length) (m := false)
                    (le_trans hle1 (le_trans hle2 (by simp))) ?_ ?_ ?_
                  · exact cellAt_append_self _ _
                  · rw [hquote]
                    exact .sym _
                  · refine HRepN.cons (k := h2x.cells.length) (f := inner)
                      (r := Expr.Nil) (m := false) (le_trans hle1 hle2) ?_ ?_ .nil
                    · have h1lt : h2x.cells.length <
                          (h2x.cells ++ [some (inner, Expr.Nil, false)]).length := by
                        simp
                      rw [cellAt_append h1lt]
                      exact cellAt_append_self _ _
                    · refine HRepN_mono ?_ (HRepN_weaken hle1 hrep1)
                      intro j c _ hj
                      have hjlt : j < (h2x.cells ++
                          [some (inner, Expr.Nil, false)]).length :=
                        lt_of_lt_of_le (cellAt_lt_length hj) (by simp)
                      rw [cellAt_append hjlt, cellAt_append (cellAt_lt_length hj)]
                      exact hj
                · exact HListRepK_mono (preservesCells_trans
                    (preservesCells_append _ _) (preservesCells_append _ _))
                    hsy2
                · intro j hj
                  rcases hgrow2 j hj with hj1 | hj2
                  · rcases hgrow1 j hj1 with hj3 | hj4
                    · exact Or.inl hj3
                    · exact Or.inr hj4
                  · exact Or.inr (le_trans hle1 hj2)
                · refine preservesCells_trans hpres1 (preservesCells_trans
                    hpres2 ?_)
                  exact preservesCells_trans (preservesCells_append _ _)
                    (preservesCells_append _ _)
                · simp only [List.length_append, List.length_singleton]
                  omega
                · exact hroot2.trans hroot1
              | perr e0 => simp only [hpe] at hp; simp at hp
              | oof => simp only [hpe] at hp; simp at hp
              | bug => simp only [hpe] at hp; simp at hp
          | err e0 => simp only [hms] at hp; simp at hp
          | oof => simp only [hms] at hp; simp at hp
          | bug => simp only [hms] at hp; simp at hp
      | LBracket =>
        simp only [parse_expr] at hp
        split at hp
        · rename_i rest2
          simp only [Prod.mk.injEq, PRes.ok.injEq] at hp
          obtain ⟨⟨hv, hrem⟩, hh⟩ := hp
          subst hv
          subst hrem
          subst hh
          refine ⟨.nil, elems, ks, rfl, .nil, hsy, fun j hj => Or.inl hj,
            preservesCells_refl _, le_refl _, rfl, ?_⟩
          intro w hw
          exact htoks w (by simp [hw])
        · cases hpe : parse_expr f rest h with
          | mk r1 h1 =>
            cases r1 with
            | ok p =>
              obtain ⟨first, rest1⟩ := p
              simp only [hpe, make_cons] at hp
              obtain ⟨t1, elems1, ks1, hg1, hrep1, hsy1, hgrow1, hpres1, hle1,
                hroot1, hrem1⟩ :=
                ihP rest h first rest1 h1 elems ks (TokensOK_tail htoks) hsy hpe
              obtain ⟨r, td, elems2, ks2, hvres, hgtd, hcellk, hrepr, hsy2,
                hgrow2, hpresk, hle2, hroot2, hrem2⟩ :=
                ihL rest1 ({ h1 with cells := h1.cells ++ [some (first, Expr.Nil, false)] })
                  h1.cells.length (.Pair h1.cells.length) v rem h' elems1 ks1
                  first false hrem1
                  (HListRepK_mono (preservesCells_append _ _) hsy1)
                  (fun hmem => by
                    have := HListRepK_keys_lt hsy1 _ hmem
                    omega)
                  (cellAt_append_self _ _)
                  hp
              subst hvres
              refine ⟨.cons t1 td, elems2, ks2, ?_, ?_, hsy2, ?_, ?_, ?_, ?_,
                hrem2⟩
              · simp only [PGood, Bool.and_eq_true]
                exact ⟨hg1, hgtd⟩
              · refine HRepN.cons hle1 hcellk ?_ ?_
                · refine HRepN_mono ?_ hrep1
                  intro j c hjN hj1
                  have hjlt : j < h1.cells.length := cellAt_lt_length hj1
                  refine hpresk j c (by omega) ?_
                  rw [cellAt_append hjlt]
                  exact hj1
                · exact HRepN_weaken (by simp only [List.length_append]; omega)
                    hrepr
              · intro j hj
                rcases hgrow2 j hj with hj1 | hj2
                · rcases hgrow1 j hj1 with hj3 | hj4
                  · exact Or.inl hj3
                  · exact Or.inr hj4
                · simp only [List.length_append] at hj2
                  exact Or.inr (by omega)
              · intro j c hc
                have hc1 := hpres1 j c hc
                have hjlt1 : j < h1.cells.length := cellAt_lt_length hc1
                refine hpresk j c (by omega) ?_
                rw [cellAt_append hjlt1]
                exact hc1
              · simp only [List.length_append] at hle2
                omega
              · exact hroot2.trans hroot1
            | perr e0 => simp only [hpe] at hp; simp at hp
            | oof => simp only [hpe] at hp; simp at hp
            | bug => simp only [hpe] at hp; simp at hp
    · intro toks h kt res v rem h' elems ks x m htoks hsy hknotin hck hp
      have hklt : kt < h.cells.length := cellAt_lt_length hck
      simp only [parseListLoop] at hp
      split at hp
      · rename_i rest
        simp only [Prod.mk.injEq, PRes.ok.injEq] at hp
        obtain ⟨⟨hv, hrem⟩, hh⟩ := hp
        subst hv
        subst hrem
        subst hh
        refine ⟨.Nil, .nil, elems, ks, rfl, rfl, hck, .nil, hsy,
          fun j hj => Or.inl hj, fun j c _ hc => hc, le_refl _, rfl, ?_⟩
        intro w hw
        exact htoks w (by simp [hw])
      · rename_i rest
        cases hpe : parse_expr f rest h with
        | mk r1 h1 =>
          cases r1 with
          | ok p =>
            obtain ⟨next, rest1⟩ := p
            obtain ⟨t1, elems1, ks1, hg1, hrep1, hsy1, hgrow1, hpres1, hle1,
              hroot1, hrem1⟩ :=
              ihP rest h next rest1 h1 elems ks (TokensOK_tail htoks) hsy hpe
            have hcell1 : cellAt h1.cells kt = some (x, .Nil, m) :=
              hpres1 _ _ hck
            have hsr : set_rest h1 (.Pair kt) next =
                (.ok (), { h1 with cells := h1.cells.set kt (some (x, next, m)) }) := by
              simp [set_rest, hcell1]
            simp only [hpe, hsr] at hp
            split at hp
            · rename_i rest2
              simp only [Prod.mk.injEq, PRes.ok.injEq] at hp
              obtain ⟨⟨hv, hrem⟩, hh⟩ := hp
              subst hv
              subst hrem
              subst hh
              refine ⟨next, t1, elems1, ks1, rfl, hg1, ?_, ?_, ?_, hgrow1, ?_,
                ?_, hroot1, ?_⟩
              · exact cellAt_set_self _ kt (cellAt_lt_length hcell1) _
              · refine HRepN_mono ?_ hrep1
                intro j c hjN hj1
                rw [cellAt_set_ne _ kt j (by omega)]
                exact hj1
              · refine HListRepK_mono_keys ?_ hsy1
                intro j c hj hjc
                have hjne : j ≠ kt := by
                  rcases hgrow1 j hj with hj1 | hj2
                  · intro hx; exact hknotin (hx ▸ hj1)
                  · omega
                rw [cellAt_set_ne _ kt j (fun hx => hjne hx.symm)]
                exact hjc
              · intro j c hjk hc
                rw [cellAt_set_ne _ kt j (fun hx => hjk hx.symm)]
                exact hpres1 j c hc
              · simp only [List.length_set]
                omega
              · intro w hw
                exact hrem1 w (by simp [hw])
            · simp at hp
          | perr e0 => simp only [hpe] at hp; simp at hp
          | oof => simp only [hpe] at hp; simp at hp
          | bug => simp only [hpe] at hp; simp at hp
      · cases hpe : parse_expr f toks h with
        | mk r1 h1 =>
          cases r1 with
          | ok p =>
            obtain ⟨next, rest1⟩ := p
            obtain ⟨t1, elems1, ks1, hg1, hrep1, hsy1, hgrow1, hpres1, hle1,
              hroot1, hrem1⟩ :=
              ihP toks h next rest1 h1 elems ks htoks hsy hpe
            have hcell1 : cellAt h1.cells kt = some (x, .Nil, m) :=
              hpres1 _ _ hck
            have hcell2 : cellAt (h1.cells ++ [some (next, Expr.Nil, false)]) kt =
                some (x, .Nil, m) := by
              rw [cellAt_append (cellAt_lt_length hcell1)]
              exact hcell1
            have hsr : set_rest ({ h1 with cells := h1.cells ++ [some (next, Expr.Nil, false)] }) (Expr.Pair kt) (Expr.Pair h1.cells.length) = (.ok (), { h1 with cells := (h1.cells ++ [some (next, Expr.Nil, false)]).set kt (some (x, Expr.Pair h1.cells.length, m)) }) := by
              simp [set_rest, hcell2]
            simp only [hpe, make_cons, hsr] at hp
            obtain ⟨r2, td2, elems2, ks2, hvres, hgtd, hcellk2, hrepr2, hsy2,
              hgrow2, hpresk2, hle2, hroot2, hrem2⟩ :=
              ihL rest1 ({ h1 with cells := (h1.cells ++ [some (next, Expr.Nil, false)]).set kt (some (x, Expr.Pair h1.cells.length, m)) })
                h1.cells.length res v rem h' elems1 ks1 next false hrem1
                (by
                  refine HListRepK_mono_keys ?_ hsy1
                  intro j c hj hjc
                  have hjne : j ≠ kt := by
                    rcases hgrow1 j hj with hj1 | hj2
                    · intro hx; exact hknotin (hx ▸ hj1)
                    · omega
                  rw [cellAt_set_ne _ kt j (fun hx => hjne hx.symm)]
                  rw [cellAt_append (cellAt_lt_length hjc)]
                  exact hjc)
                (fun hmem => by
                  have := HListRepK_keys_lt hsy1 _ hmem
                  omega)
                (by
                  rw [cellAt_set_ne _ kt _ (by omega)]
                  exact cellAt_append_self _ _)
                hp
            subst hvres
            refine ⟨.Pair h1.cells.length, .cons t1 td2, elems2, ks2, rfl, ?_,
              ?_, ?_, hsy2, ?_, ?_, ?_, ?_, hrem2⟩
            · simp only [PGood, Bool.and_eq_true]
              exact ⟨hg1, hgtd⟩
            · refine hpresk2 kt _ (by omega) ?_
              rw [cellAt_set_self _ kt (by simp only [List.length_append]; omega) _]
            · refine HRepN.cons (le_trans hle1 (le_refl _)) hcellk2 ?_ ?_
              · refine HRepN_mono ?_ hrep1
                intro j c hjN hj1
                have hjlt : j < h1.cells.length := cellAt_lt_length hj1
                refine hpresk2 j c (by omega) ?_
                rw [cellAt_set_ne _ kt j (by omega)]
                rw [cellAt_append hjlt]
                exact hj1
              · refine HRepN_weaken ?_ hrepr2
                simp only [List.length_set, List.length_append]
                omega
            · intro j hj
              rcases hgrow2 j hj with hj1 | hj2
              · rcases hgrow1 j hj1 with hj3 | hj4
                · exact Or.inl hj3
                · exact Or.inr hj4
              · simp only [List.length_set, List.length_append] at hj2
                exact Or.inr (by omega)
            · intro j c hjk hc
              have hc1 := hpres1 j c hc
              have hjlt1 : j < h1.cells.length := cellAt_lt_length hc1
              refine hpresk2 j c (by omega) ?_
              rw [cellAt_set_ne _ kt j (fun hx => hjk hx.symm)]
              rw [cellAt_append hjlt1]
              exact hc1
            · simp only [List.length_set, List.length_append] at hle2
              omega
            · exact hroot2.trans hroot1
          | perr e0 => simp only [hpe] at hp; simp at hp
          | oof => simp only [hpe] at hp; simp at hp
          | bug => simp only [hpe] at hp; simp at hp

/-!  Structural equality of two representations of one tree. -/

theorem structEq_of_HRepN : ∀ (t : PVal) {cs : List (Option CCell)}
    {N1 N2 : Nat} {v v' : Expr},
    HRepN cs N1 v t → HRepN cs N2 v' t →
    ∀ fuel : Nat, S t < fuel → structEq cs fuel v v' = .ok true := by
  intro t
  induction t with
  | nil =>
    intro cs N1 N2 v v' h1 h2 fuel hf
    cases h1
    cases h2
    obtain ⟨fl, rfl⟩ : ∃ fl, fuel = fl + 1 := ⟨fuel - 1, by omega⟩
    simp [structEq]
  | bool b =>
    intro cs N1 N2 v v' h1 h2 fuel hf
    cases h1
    cases h2
    obtain ⟨fl, rfl⟩ : ∃ fl, fuel = fl + 1 := ⟨fuel - 1, by omega⟩
    simp [structEq]
  | int n =>
    intro cs N1 N2 v v' h1 h2 fuel hf
    cases h1
    cases h2
    obtain ⟨fl, rfl⟩ : ∃ fl, fuel = fl + 1 := ⟨fuel - 1, by omega⟩
    simp [structEq]
  | sym s0 =>
    intro cs N1 N2 v v' h1 h2 fuel hf
    cases h1
    cases h2
    obtain ⟨fl, rfl⟩ : ∃ fl, fuel = fl + 1 := ⟨fuel - 1, by omega⟩
    simp [structEq]
  | cons a d iha ihd =>
    intro cs N1 N2 v v' h1 h2 fuel hf
    cases h1 with
    | @cons k f0 r0 m0 _ _ hk1 hc1 ha1 hd1 =>
      cases h2 with
      | @cons k2 f2 r2 m2 _ _ hk2 hc2 ha2 hd2 =>
        obtain ⟨fl, rfl⟩ : ∃ fl, fuel = fl + 1 := ⟨fuel - 1, by omega⟩
        have hSa : S a < fl := by
          simp only [S] at hf
          have := S_pos d
          omega
        have hSd : S d < fl := by
          simp only [S] at hf
          have := S_pos a
          omega
        have hfr1 : getFR cs (.Pair k) = .ok (f0, r0) := by simp [getFR, hc1]
        have hfr2 : getFR cs (.Pair k2) = .ok (f2, r2) := by simp [getFR, hc2]
        simp only [structEq, hfr1, hfr2, rbind_ok]
        rw [iha ha1 ha2 fl hSa]
        simp [ihd hd1 hd2 fl hSd]

/-- Claim C4.  Any value the parser produced from lexed source text (given
a well-formed interned-symbol list) prints to a text that re-parses, in
the resulting heap, to a value structurally equal to it: equal tags, equal
Booleans and Integers, name-equal interned Symbols, and componentwise
structurally equal pairs, pair key identity not required. -/
theorem c4_print_parse_round_trip (fuel0 : Nat) (src : List Char)
    (h0 h1 : Heap) (v : Expr) (rem : List Token) (elems : List Expr)
    (ks : List Nat)
    (hsy : HListRepK h0.cells h0.symbols elems ks)
    (hp : parse_expr fuel0 (tokenize src) h0 = (.ok (v, rem), h1)) :
    ∃ (t : PVal) (txt : List Char) (v' : Expr) (h2 : Heap) (f1 f2 f3 : Nat),
      PGood t = true ∧ HRep h1.cells v t ∧
      format_expr f1 h1.cells v = .ok txt ∧
      parse_expr f2 (tokenize txt) h1 = (.ok (v', []), h2) ∧
      structEq h2.cells f3 v v' = .ok true := by
  obtain ⟨t, elems1, ks1, hg, hrep, hsy1, hgrow1, hpres1, hle1, hroot1, hrem1⟩ :=
    (parse_sound fuel0).1 (tokenize src) h0 v rem h1 elems ks
      (tokenize_TokensOK src) hsy hp
  have hrep0 : HRepN h1.cells 0 v t := HRepN_weaken (Nat.zero_le _) hrep
  have hfmt : format_expr (S t + 1) h1.cells v = .ok (render t) := by
    have := (format_render (S t + 1)).1 t h1.cells v [] hrep0 (by omega)
    simpa [format_expr] using this
  have h0tok : tokenize ([] : List Char) = [] := by simp [tokenize]
  have htok : tokenize (render t) = tokensP t := by
    have := (tokens_render (S t) t (le_refl _) hg).1 [] (by simp [boundaryB])
    simpa [h0tok] using this
  obtain ⟨v', h2, elems2, ks2, hp2, hrep2, hsy2, hlen2, hgrow2, hpres2, hle2,
    hroot2⟩ :=
    (parse_tokens (S t + 1)).1 t (by omega) hg h1 elems1 ks1 []
      (elems1.length + 2 * S t) hsy1 (le_refl _)
  rw [List.append_nil] at hp2
  refine ⟨t, render t, v', h2, S t + 1, elems1.length + 2 * S t, S t + 1,
    hg, hrep0, hfmt, ?_, ?_⟩
  · rw [htok]
    exact hp2
  · exact structEq_of_HRepN t
      (HRepN_mono (fun k c _ hc => hpres2 k c hc) hrep0)
      hrep2 (S t + 1) (by omega)

/-- The heap produced by parsing `(A 1)` into the empty heap: the
interned symbol `A` at cell 0 (symbol-list spine), and the two-cell list
`(A 1)` at cells 1 and 2. -/
def c4Heap1 : Heap :=
  Heap.mk (.Pair 0) .Nil
    [some (.Symbol "A".toList, .Nil, false),
     some (.Symbol "A".toList, .Pair 2, false),
     some (.Integer 1, .Nil, false)]

theorem c4_print_parse_round_trip_witness :
    HListRepK (Heap.mk .Nil .Nil []).cells (Heap.mk .Nil .Nil []).symbols
      [] [] ∧
    parse_expr 10 (tokenize "(A 1)".toList) (Heap.mk .Nil .Nil []) =
      (.ok (.Pair 1, []), c4Heap1) ∧
    ∃ (t : PVal) (txt : List Char) (v' : Expr) (h2 : Heap) (f1 f2 f3 : Nat),
      PGood t = true ∧ HRep c4Heap1.cells (.Pair 1) t ∧
      format_expr f1 c4Heap1.cells (.Pair 1) = .ok txt ∧
      parse_expr f2 (tokenize txt) c4Heap1 = (.ok (v', []), h2) ∧
      structEq h2.cells f3 (.Pair 1) v' = .ok true := by
  have htk : tokenize "(A 1)".toList =
      [Token.LBracket, Token.Value ['A'], Token.Value ['1'], Token.RBracket] := by
    have h1 : "(A 1)".toList = '(' :: (['A'] ++ (' ' :: (['1'] ++ [')']))) := by
      decide
    rw [h1, tokenize_lb, tokenize_atom (by decide) (by decide),
      tokenize_ws (by decide), tokenize_atom (by decide) (by decide),
      tokenize_rb]
    simp [tokenize]
  have hp : parse_expr 10 (tokenize "(A 1)".toList) (Heap.mk .Nil .Nil []) =
      (.ok (.Pair 1, []), c4Heap1) := by
    rw [htk]
    decide
  exact ⟨.nil, hp,
    c4_print_parse_round_trip 10 "(A 1)".toList (Heap.mk .Nil .Nil []) c4Heap1
      (.Pair 1) [] [] [] .nil hp⟩

end Scheme
